import Mathlib

/-!
The Lorenz (Malkus) water wheel of `lorenz/wheel.go`

A shallow embedding of the Go package `lorenz` and theorems about it.

Numbers.

Every numeric field of the program is a Go `float64`.  The embedding keeps the
four kinds of value an IEEE-754 double can take, because the program divides by
a sum that can be zero and nothing in it guards the quotient:

* `F64.fin q` : a finite value, carried as the rational `q`;
* `F64.pinf`, `F64.ninf` : the two infinities;
* `F64.nan` : not-a-number.

The two signed zeros are one value (they compare equal in Go; the divisor of
the one division of the program is a sum that starts from `0.0`, hence never
`-0`).  The special values follow IEEE-754: `0/0`, `inf - inf` and `0 * inf` are
NaN, `x/0` is an infinity for `x ≠ 0`, NaN is absorbing, and every ordered
comparison with NaN is false.

Two layers of arithmetic.

The operations `+`, `*` and `/` of `F64` are exact on finite values.  `New`,
`bucket.add`, `topBucket` and `Run` are the program over them; the theorems on
this layer concern the clamps, the frame of a step and the special values, and
are stated with the `+` and `*` the source applies.

`round64` is the IEEE-754 binary64 rounding of an exact result: to nearest, a
tie to the even significand, gradual underflow, overflow to an infinity.
`bucket.add64`, `New64`, `topBucket64` and `Run64` are the program with the
result of every arithmetic operation rounded.  Whatever depends on rounding,
overflow or underflow is stated and proved on this layer.

Library functions.

`math.Mod` and `math.Trunc` are modelled from the Go documentation.  `math.Sin`
on finite arguments and the value of a `float64 → int` conversion whose result
does not fit an `int` (which the Go specification leaves to the implementation)
are the two fields of `Host`.  The formatting of a `float64` by the verb `%.2f`
of `fmt.Sprintf` is an argument `fmt` of `String`.
-/

namespace lorenz

/-- Values of Go's `float64`: finite (exact rational), the infinities, NaN. -/
inductive F64 where
  | fin (q : ℚ)
  | pinf
  | ninf
  | nan
deriving DecidableEq

namespace F64

/-- Unary minus. -/
def neg : F64 → F64
  | fin a => fin (-a)
  | pinf => ninf
  | ninf => pinf
  | nan => nan

/-- Addition: `inf + (-inf)` is NaN. -/
def add : F64 → F64 → F64
  | fin a, fin b => fin (a + b)
  | fin _, pinf => pinf
  | fin _, ninf => ninf
  | pinf, fin _ => pinf
  | pinf, pinf => pinf
  | pinf, ninf => nan
  | ninf, fin _ => ninf
  | ninf, pinf => nan
  | ninf, ninf => ninf
  | nan, _ => nan
  | fin _, nan => nan
  | pinf, nan => nan
  | ninf, nan => nan

/-- The product of the finite value `a` with an infinity (`pinf` when `pos`,
else `ninf`): `0 * inf` is NaN, otherwise the infinity with the product sign. -/
def scaleInf (a : ℚ) (pos : Bool) : F64 :=
  if a = 0 then nan
  else if 0 < a then (if pos then pinf else ninf)
  else (if pos then ninf else pinf)

/-- Multiplication: `0 * inf` is NaN. -/
def mul : F64 → F64 → F64
  | fin a, fin b => fin (a * b)
  | fin a, pinf => scaleInf a true
  | fin a, ninf => scaleInf a false
  | pinf, fin b => scaleInf b true
  | ninf, fin b => scaleInf b false
  | pinf, pinf => pinf
  | pinf, ninf => ninf
  | ninf, pinf => ninf
  | ninf, ninf => pinf
  | nan, _ => nan
  | fin _, nan => nan
  | pinf, nan => nan
  | ninf, nan => nan

/-- Division: `0/0` and `inf/inf` are NaN, `x/0` is an infinity for `x ≠ 0`
(the zero divisor is `+0`), a finite value over an infinity is `0`. -/
def div : F64 → F64 → F64
  | fin a, fin b =>
      if b = 0 then
        (if a = 0 then nan else if 0 < a then pinf else ninf)
      else fin (a / b)
  | fin _, pinf => fin 0
  | fin _, ninf => fin 0
  | pinf, fin b => if 0 ≤ b then pinf else ninf
  | ninf, fin b => if 0 ≤ b then ninf else pinf
  | pinf, pinf => nan
  | pinf, ninf => nan
  | ninf, pinf => nan
  | ninf, ninf => nan
  | nan, _ => nan
  | fin _, nan => nan
  | pinf, nan => nan
  | ninf, nan => nan

/-- The comparison `x < y` of Go: false as soon as an operand is NaN. -/
def lt : F64 → F64 → Bool
  | fin a, fin b => decide (a < b)
  | fin _, pinf => true
  | ninf, fin _ => true
  | ninf, pinf => true
  | _, _ => false

/-- The comparison `x <= y` of Go: false as soon as an operand is NaN. -/
def le : F64 → F64 → Bool
  | fin a, fin b => decide (a ≤ b)
  | fin _, pinf => true
  | ninf, fin _ => true
  | ninf, pinf => true
  | pinf, pinf => true
  | ninf, ninf => true
  | _, _ => false

instance : Neg F64 := ⟨neg⟩
instance : Add F64 := ⟨add⟩
instance : Mul F64 := ⟨mul⟩
instance : Div F64 := ⟨div⟩
instance : LT F64 := ⟨fun a b => lt a b = true⟩
instance : LE F64 := ⟨fun a b => le a b = true⟩
instance (a b : F64) : Decidable (a < b) := inferInstanceAs (Decidable (lt a b = true))
instance (a b : F64) : Decidable (a ≤ b) := inferInstanceAs (Decidable (le a b = true))

/-- A value is finite when it is neither an infinity nor NaN. -/
def isFinite : F64 → Bool
  | fin _ => true
  | _ => false

end F64

open F64

/-- Truncation of a rational toward zero. -/
def truncQ (q : ℚ) : ℤ := if 0 ≤ q then ⌊q⌋ else ⌈q⌉

/-- Go's `math.Trunc`: the integer part; `Trunc(±Inf) = ±Inf`, `Trunc(NaN) = NaN`. -/
def Trunc : F64 → F64
  | fin q => fin (truncQ q)
  | pinf => pinf
  | ninf => ninf
  | nan => nan

/-- Go's `math.Mod(x, y)`: the remainder of `x / y` with the sign of `x` and
magnitude below `|y|`; `Mod(±Inf, y) = Mod(NaN, y) = Mod(x, 0) = Mod(x, NaN) = NaN`
and `Mod(x, ±Inf) = x`. -/
def Mod : F64 → F64 → F64
  | fin x, fin y => if y = 0 then nan else fin (x - y * truncQ (x / y))
  | fin x, pinf => fin x
  | fin x, ninf => fin x
  | fin _, nan => nan
  | pinf, _ => nan
  | ninf, _ => nan
  | nan, _ => nan

/-- What the program takes from its host: `math.Sin` on finite arguments
(with the documented special case `Sin(±0) = ±0`), and the result of a
`float64 → int` conversion of a value that no `int` represents, which the Go
specification leaves implementation-dependent. -/
structure Host where
  sin : ℚ → ℚ
  sin_zero : sin 0 = 0
  cvt : F64 → ℤ

/-- Go's `math.Sin`: `Sin(±Inf) = Sin(NaN) = NaN`. -/
def Sin (H : Host) : F64 → F64
  | fin q => fin (H.sin q)
  | pinf => nan
  | ninf => nan
  | nan => nan

/-- The conversion `int(x)` of a `float64` (64-bit `int`): the truncated value
when it fits, else whatever the host yields. -/
def toInt (H : Host) : F64 → ℤ
  | fin q =>
      if -(2 : ℤ) ^ 63 ≤ truncQ q ∧ truncQ q < (2 : ℤ) ^ 63 then truncQ q
      else H.cvt (fin q)
  | pinf => H.cvt pinf
  | ninf => H.cvt ninf
  | nan => H.cvt nan

/-- The constant `nBuckets`. -/
abbrev nBuckets : ℕ := 8

/-- The constant `tau = math.Pi * 2.0` as the `float64` the program computes
with: `6.283185307179586 = 7074237752028440 / 2^50`. -/
def tau : ℚ := 7074237752028440 / 1125899906842624

/-- The `bucket` struct: bucket on the lorenz wheel. -/
structure bucket where
  amount : F64
  capacity : F64
deriving DecidableEq

/-- The method `bucket.add`: add water to a bucket. -/
def bucket.add (b : bucket) (x : F64) : bucket :=
  let b1 : bucket := { b with amount := b.amount + x }
  let b2 : bucket := if b1.amount > b1.capacity then { b1 with amount := b1.capacity } else b1
  if b2.amount < fin 0 then { b2 with amount := fin 0 } else b2

/-- A sequence of `add` calls on one bucket, in the order of the list. -/
def bucket.adds (b : bucket) (xs : List F64) : bucket :=
  xs.foldl bucket.add b

/-- The `Wheel` struct: the state for a Lorenz Wheel. -/
structure Wheel where
  iflow : F64
  oflow : F64
  theta : F64
  av : F64
  arc : F64
  bucket : Fin nBuckets → bucket

/-- The loop `for k := range w.bucket`: the body runs for `k = 0, ..., 7` in
order on the loop state. -/
def forRange {σ : Type} (body : Fin nBuckets → σ → σ) (s : σ) : σ :=
  (List.finRange nBuckets).foldl (fun s k => body k s) s

/-- The function `New`: the zero-valued struct with `iflow`, `oflow`, `arc`
and `av` set, then the loop that sets every capacity. -/
def New (iflow oflow : F64) : Wheel :=
  let w : Wheel :=
    { iflow := iflow
      oflow := oflow
      theta := fin 0
      av := fin (1 / 100)
      arc := fin tau / fin (nBuckets : ℚ)
      bucket := fun _ => { amount := fin 0, capacity := fin 0 } }
  { w with
    bucket := forRange
      (fun k bs => Function.update bs k { bs k with capacity := fin 10 * iflow })
      w.bucket }

/-- The angle `k` of `topBucket`: `math.Mod(w.theta, tau)`, plus `tau` when
negative. -/
def Wheel.topAngle (w : Wheel) : F64 :=
  let k := Mod w.theta (fin tau)
  if k < fin 0 then k + fin tau else k

/-- The method `Wheel.topBucket`: `int(math.Trunc(k / w.arc))`. -/
def Wheel.topBucket (H : Host) (w : Wheel) : ℤ :=
  toInt H (Trunc (w.topAngle / w.arc))

/-- First block of `Run`, "add water to top bucket", for a valid index `n`. -/
def Wheel.fill (w : Wheel) (n : Fin nBuckets) (dt : F64) : Fin nBuckets → lorenz.bucket :=
  Function.update w.bucket n ((w.bucket n).add (w.iflow * dt))

/-- Second block of `Run`, "remove water from all buckets". -/
def Wheel.drain (w : Wheel) (bs : Fin nBuckets → lorenz.bucket) (dt : F64) :
    Fin nBuckets → lorenz.bucket :=
  forRange (fun k bs => Function.update bs k ((bs k).add ((-w.oflow) * dt))) bs

/-- The variables `ai`, `torque` and `angle` of the third loop of `Run`. -/
structure Sums where
  ai : F64
  torque : F64
  angle : F64

/-- One iteration of the third loop of `Run`, at bucket `k`. -/
def Wheel.sumsBody (H : Host) (w : Wheel) (bs : Fin nBuckets → lorenz.bucket)
    (k : Fin nBuckets) (s : Sums) : Sums :=
  { ai := s.ai + (bs k).amount
    torque := s.torque + (bs k).amount * Sin H s.angle
    angle := s.angle + w.arc }

/-- Third block of `Run`, "work out angular inertia and torque". -/
def Wheel.sums (H : Host) (w : Wheel) (bs : Fin nBuckets → lorenz.bucket) : Sums :=
  forRange (w.sumsBody H bs) { ai := fin 0, torque := fin 0, angle := w.theta }

/-- The "angular acceleration" `aa := torque / ai` of `Run`. -/
def Wheel.aa (H : Host) (w : Wheel) (bs : Fin nBuckets → lorenz.bucket) : F64 :=
  (w.sums H bs).torque / (w.sums H bs).ai

/-- The body of `Run` once the index `n` is known to be inside `w.bucket`:
the three blocks on the buckets, then "angular acceleration", "new angular
velocity" and "new position". -/
def Wheel.advance (H : Host) (w : Wheel) (n : Fin nBuckets) (dt : F64) : Wheel :=
  let bs := w.drain (w.fill n dt) dt
  let aa := w.aa H bs
  let av := w.av + aa * dt
  let theta := w.theta + av * dt
  { w with bucket := bs, av := av, theta := theta }

/-- The method `Wheel.Run`: an iteration of the Lorenz Wheel.  The result is
`none` when the index `n` is outside `w.bucket` (Go panics with an index out of
range at `w.bucket[n]`). -/
def Wheel.Run (H : Host) (w : Wheel) (dt : F64) : Option Wheel :=
  let n := w.topBucket H
  if h : 0 ≤ n ∧ n < (nBuckets : ℤ) then
    some (w.advance H ⟨n.toNat, by omega⟩ dt)
  else none

/-- A sequence of `Run` calls, one per element of `dts`, as the driver loop of
`cmd/wheeltest` issues them; `none` as soon as one call panics. -/
def Wheel.runs (H : Host) : Wheel → List F64 → Option Wheel
  | w, [] => some w
  | w, dt :: dts => (w.Run H dt).bind (fun w1 => Wheel.runs H w1 dts)

/-- A host as on amd64: every conversion that does not fit yields the
"integer indefinite" value `-2^63`. -/
def amd64 (sin : ℚ → ℚ) (h : sin 0 = 0) : Host :=
  { sin := sin, sin_zero := h, cvt := fun _ => -(2 : ℤ) ^ 63 }

/-- The clamp of the specification, "cap at capacity, then floor at 0". -/
def clamp (cap v : F64) : F64 :=
  let v1 := if v > cap then cap else v
  if v1 < fin 0 then fin 0 else v1

/-- The invariant of the data model, `0 ≤ amount ≤ capacity` for each of the
buckets. -/
def Wheel.bounded (w : Wheel) : Prop :=
  ∀ i : Fin nBuckets,
    fin 0 ≤ (w.bucket i).amount ∧ (w.bucket i).amount ≤ (w.bucket i).capacity

instance (w : Wheel) : Decidable w.bounded := by
  unfold Wheel.bounded
  infer_instance

/-- What `Run` keeps true of a wheel built by `New` from finite flows. -/
structure Good (iflow oflow : ℚ) (w : Wheel) : Prop where
  iflow_eq : w.iflow = fin iflow
  oflow_eq : w.oflow = fin oflow
  arc_eq : w.arc = fin (tau / 8)
  cap_eq : ∀ i, (w.bucket i).capacity = fin (10 * iflow)
  amt : ∀ i, ∃ a, (w.bucket i).amount = fin a ∧ 0 ≤ a ∧ (a ≤ 10 * iflow ∨ a = 0)
  kin : (∃ v t, w.av = fin v ∧ w.theta = fin t) ∨ (w.av = nan ∧ w.theta = nan)

/-- A host for evaluating the model on concrete inputs: the amd64 conversion,
and the polynomial `x - x^3/6 + x^5/120` in place of `math.Sin`. -/
def sampleHost : Host := amd64 (fun x => x - x ^ 3 / 6 + x ^ 5 / 120) (by norm_num)

/-- A wheel state without inflow for evaluating the model: `oflow = 1` and 2
units of water in each bucket of capacity 10. -/
def drainWheel : Wheel :=
  { iflow := fin 0
    oflow := fin 1
    theta := fin 0
    av := fin (1 / 100)
    arc := fin (tau / 8)
    bucket := fun _ => { amount := fin 2, capacity := fin 10 } }

/-- The reference wheel `New(1.0, 0.2)` turned to the angle `t`, for evaluating
the model. -/
def wheelAt (t : ℚ) : Wheel :=
  { New (fin 1) (fin (1 / 5)) with theta := fin t }

/-- Go's zero value `Wheel{}`, which a caller of the package can construct
without `New`. -/
def zeroWheel : Wheel :=
  { iflow := fin 0
    oflow := fin 0
    theta := fin 0
    av := fin 0
    arc := fin 0
    bucket := fun _ => { amount := fin 0, capacity := fin 0 } }

/-- A host as on arm64: the conversion saturates, and NaN converts to 0. -/
def arm64 (sin : ℚ → ℚ) (h : sin 0 = 0) : Host :=
  { sin := sin
    sin_zero := h
    cvt := fun x =>
      match x with
      | fin q => if q < 0 then -(2 : ℤ) ^ 63 else (2 : ℤ) ^ 63 - 1
      | pinf => (2 : ℤ) ^ 63 - 1
      | ninf => -(2 : ℤ) ^ 63
      | nan => 0 }

/-- A second host for evaluating the model: the arm64 conversion, and the
polynomial of `sampleHost` in place of `math.Sin`. -/
def sampleHostArm : Host := arm64 (fun x => x - x ^ 3 / 6 + x ^ 5 / 120) (by norm_num)

/-- The slice `s` that `String()` fills: entry `i` is the marker `top` followed
by the amount of bucket `i`; `fmt` stands for the formatting of a `float64` by
the verb `%.2f` of `fmt.Sprintf`. -/
def Wheel.entries (H : Host) (fmt : F64 → String) (w : Wheel) : Fin nBuckets → String :=
  let n := w.topBucket H
  forRange
    (fun i s =>
      let top := if ((i : ℕ) : ℤ) = n then "*" else " "
      Function.update s i (top ++ fmt (w.bucket i).amount))
    (fun _ => "")

/-- The largest finite `float64`, `(2^53 - 1) * 2^971`. -/
def maxFloat64 : ℚ := (2 ^ 53 - 1) * 2 ^ 971

/-- A rational rounded to the nearest integer, a tie to the even one. -/
def roundEven (q : ℚ) : ℤ :=
  if 2 * Int.fract q < 1 then ⌊q⌋
  else if 1 < 2 * Int.fract q then ⌊q⌋ + 1
  else if ⌊q⌋ % 2 = 0 then ⌊q⌋ else ⌊q⌋ + 1

/-- The binary exponent of the unit in the last place of a `float64` at `q`:
52 below the binary exponent of `q`, which the subnormal range keeps at
`-1022` or above. -/
def ulpExp (q : ℚ) : ℤ := max (Int.log 2 |q|) (-1022) - 52

/-- The multiple of the unit in the last place nearest to `q`, a tie going to
the even multiple. -/
def nearest64 (q : ℚ) : ℚ := (roundEven (q / 2 ^ ulpExp q) : ℚ) * 2 ^ ulpExp q

/-- IEEE-754 binary64 rounding of an exact result: to the nearest multiple of
the unit in the last place, a tie to the even one, and to an infinity beyond
the largest finite value. -/
def round64 (q : ℚ) : F64 :=
  if maxFloat64 < |nearest64 q| then (if 0 < q then pinf else ninf)
  else fin (nearest64 q)

/-- The `float64` an arithmetic operation of Go delivers for its exact result
`x`: special values are kept, a finite one is rounded. -/
def F64.r64 : F64 → F64
  | fin q => round64 q
  | pinf => pinf
  | ninf => ninf
  | nan => nan

/-! ### The program on `float64`: every arithmetic result rounded

The definitions below repeat `bucket.add`, `New`, `topBucket` and `Run` with
the result of each `+`, `*` and `/` of the source rounded by `F64.r64`, each
operation on its own (a product and a sum are not fused, as in the code the Go
compiler emits for amd64); `math.Mod`, `math.Trunc`, unary minus and the
comparisons are exact on `float64` values and stay as they are. -/

/-- The method `bucket.add` on `float64`: `b.amount += x` rounds the sum. -/
def bucket.add64 (b : bucket) (x : F64) : bucket :=
  let b1 : bucket := { b with amount := (b.amount + x).r64 }
  let b2 : bucket := if b1.amount > b1.capacity then { b1 with amount := b1.capacity } else b1
  if b2.amount < fin 0 then { b2 with amount := fin 0 } else b2

/-- The function `New` on `float64`: the constants `0.01` and `tau / nBuckets`
are the nearest `float64` values, the capacity is the rounded product. -/
def New64 (iflow oflow : F64) : Wheel :=
  let w : Wheel :=
    { iflow := iflow
      oflow := oflow
      theta := fin 0
      av := round64 (1 / 100)
      arc := (fin tau / fin (nBuckets : ℚ)).r64
      bucket := fun _ => { amount := fin 0, capacity := fin 0 } }
  { w with
    bucket := forRange
      (fun k bs => Function.update bs k { bs k with capacity := (fin 10 * iflow).r64 })
      w.bucket }

/-- The angle `k` of `topBucket` on `float64`: `math.Mod` is exact, `k += tau`
rounds. -/
def Wheel.topAngle64 (w : Wheel) : F64 :=
  let k := Mod w.theta (fin tau)
  if k < fin 0 then (k + fin tau).r64 else k

/-- The method `Wheel.topBucket` on `float64`: the quotient `k / w.arc` rounds. -/
def Wheel.topBucket64 (H : Host) (w : Wheel) : ℤ :=
  toInt H (Trunc (w.topAngle64 / w.arc).r64)

/-- First block of `Run` on `float64`. -/
def Wheel.fill64 (w : Wheel) (n : Fin nBuckets) (dt : F64) : Fin nBuckets → lorenz.bucket :=
  Function.update w.bucket n ((w.bucket n).add64 (w.iflow * dt).r64)

/-- Second block of `Run` on `float64`. -/
def Wheel.drain64 (w : Wheel) (bs : Fin nBuckets → lorenz.bucket) (dt : F64) :
    Fin nBuckets → lorenz.bucket :=
  forRange (fun k bs => Function.update bs k ((bs k).add64 ((-w.oflow) * dt).r64)) bs

/-- One iteration of the third loop of `Run` on `float64`, at bucket `k`; the
value of `math.Sin` is the `float64` the host delivers. -/
def Wheel.sumsBody64 (H : Host) (w : Wheel) (bs : Fin nBuckets → lorenz.bucket)
    (k : Fin nBuckets) (s : Sums) : Sums :=
  { ai := (s.ai + (bs k).amount).r64
    torque := (s.torque + ((bs k).amount * Sin H s.angle).r64).r64
    angle := (s.angle + w.arc).r64 }

/-- Third block of `Run` on `float64`. -/
def Wheel.sums64 (H : Host) (w : Wheel) (bs : Fin nBuckets → lorenz.bucket) : Sums :=
  forRange (w.sumsBody64 H bs) { ai := fin 0, torque := fin 0, angle := w.theta }

/-- The variables of the third loop of `Run` on `float64` when the loop reaches
bucket `k`. -/
def Wheel.sumsAt64 (H : Host) (w : Wheel) (bs : Fin nBuckets → lorenz.bucket) (k : ℕ) :
    Sums :=
  ((List.finRange nBuckets).take k).foldl (fun s k => w.sumsBody64 H bs k s)
    { ai := fin 0, torque := fin 0, angle := w.theta }

/-- The "angular acceleration" `aa := torque / ai` of `Run` on `float64`. -/
def Wheel.aa64 (H : Host) (w : Wheel) (bs : Fin nBuckets → lorenz.bucket) : F64 :=
  ((w.sums64 H bs).torque / (w.sums64 H bs).ai).r64

/-- The body of `Run` on `float64` once the index `n` is known to be inside
`w.bucket`. -/
def Wheel.advance64 (H : Host) (w : Wheel) (n : Fin nBuckets) (dt : F64) : Wheel :=
  let bs := w.drain64 (w.fill64 n dt) dt
  let aa := w.aa64 H bs
  let av := (w.av + (aa * dt).r64).r64
  let theta := (w.theta + (av * dt).r64).r64
  { w with bucket := bs, av := av, theta := theta }

/-- The method `Wheel.Run` on `float64`; `none` when `w.bucket[n]` panics. -/
def Wheel.Run64 (H : Host) (w : Wheel) (dt : F64) : Option Wheel :=
  let n := w.topBucket64 H
  if h : 0 ≤ n ∧ n < (nBuckets : ℤ) then
    some (w.advance64 H ⟨n.toNat, by omega⟩ dt)
  else none

/-- A sequence of `Run` calls on `float64`. -/
def Wheel.runs64 (H : Host) : Wheel → List F64 → Option Wheel
  | w, [] => some w
  | w, dt :: dts => (w.Run64 H dt).bind (fun w1 => Wheel.runs64 H w1 dts)

/-- The `float64` that the literal `0.2` of `cmd/wheeltest` denotes. -/
def oflowRef : ℚ := 3602879701896397 / 2 ^ 54

/-- The `float64` that the literal `0.00001` of `cmd/wheeltest` denotes. -/
def dtRef : ℚ := 5902958103587057 / 2 ^ 69

/-- The loop variable `angle` of `Run` on `float64` when the third loop reaches
bucket `i`: `w.theta`, then one rounded `angle += w.arc` per bucket passed. -/
def Wheel.angle64 (w : Wheel) : ℕ → F64
  | 0 => w.theta
  | i + 1 => (Wheel.angle64 w i + w.arc).r64

/-- The sum over a list of `float64` values, from `0.0`, left to right, each
partial sum rounded. -/
def F64.sum64 (l : List F64) : F64 :=
  l.foldl (fun s x => (s + x).r64) (fin 0)

/-- The exactly reduced angle of `theta = t`, the non-negative remainder of `t`
modulo `tau`, lies more than half a unit in the last place of `tau` below `tau`:
then neither `k += tau` nor `k / w.arc` of `topBucket` rounds up to a full turn.
The `float64` values below `tau` are at most `tau - 2^-50`. -/
def belowTau (t : ℚ) : Prop := tau * Int.fract (t / tau) < tau - 1 / 2 ^ 51

instance (t : ℚ) : Decidable (belowTau t) := by
  unfold belowTau
  infer_instance

/-- The reference wheel `New(1.0, 0.2)` on `float64` turned to the angle `t`,
for evaluating `topBucket` and `String`. -/
def wheelAt64 (t : ℚ) : Wheel :=
  { New64 (fin 1) (fin oflowRef) with theta := fin t }

/-- The slice `s` that `String()` fills, with the index `n` of `topBucket` on
`float64`. -/
def Wheel.entries64 (H : Host) (fmt : F64 → String) (w : Wheel) : Fin nBuckets → String :=
  let n := w.topBucket64 H
  forRange
    (fun i s =>
      let top := if ((i : ℕ) : ℤ) = n then "*" else " "
      Function.update s i (top ++ fmt (w.bucket i).amount))
    (fun _ => "")

/-- The method `Wheel.String` with the index of `topBucket` on `float64`. -/
def Wheel.String64 (H : Host) (fmt : F64 → String) (w : Wheel) : String :=
  "theta " ++ fmt w.theta ++ " av " ++ fmt w.av ++ ": "
    ++ String.intercalate " " ((List.finRange nBuckets).map (w.entries64 H fmt))

/-- The method `Wheel.String`: the header with `theta` and `av`, then the
entries in index order joined by a space. -/
def Wheel.String (H : Host) (fmt : F64 → String) (w : Wheel) : String :=
  "theta " ++ fmt w.theta ++ " av " ++ fmt w.av ++ ": "
    ++ String.intercalate " " ((List.finRange nBuckets).map (w.entries H fmt))

/-- A wheel state without inflow for evaluating the model on `float64`: 1 unit
of water in bucket 0 of capacity 10, the other buckets empty, an outflow of
`2^-67` per unit of time, at rest at the angle 0 with `av = 2^-7`. -/
def dripWheel : Wheel :=
  { iflow := fin 0
    oflow := fin (1 / 2 ^ 67)
    theta := fin 0
    av := fin (1 / 128)
    arc := fin (tau / 8)
    bucket := fun k => { amount := fin (if k = 0 then 1 else 0), capacity := fin 10 } }

/-- A second wheel state without inflow for evaluating the model on `float64`:
1 unit of water in bucket 0, `2^-58` in bucket 1, the other buckets empty, the
capacities 10, and an outflow of `65 * 2^-60` per unit of time. -/
def leakWheel : Wheel :=
  { iflow := fin 0
    oflow := fin (65 / 2 ^ 60)
    theta := fin 0
    av := fin (1 / 128)
    arc := fin (tau / 8)
    bucket := fun k =>
      { amount := fin (if k = 0 then 1 else if k = 1 then 1 / 2 ^ 58 else 0)
        capacity := fin 10 } }

/-! ## Lemmas on the arithmetic, the loops and one step -/

namespace F64
@[simp] theorem add_def (a b : F64) : a + b = add a b := rfl
@[simp] theorem mul_def (a b : F64) : a * b = mul a b := rfl
@[simp] theorem div_def (a b : F64) : a / b = div a b := rfl
@[simp] theorem neg_def (a : F64) : -a = neg a := rfl
@[simp] theorem lt_def (a b : F64) : (a < b) = (lt a b = true) := rfl
@[simp] theorem le_def (a b : F64) : (a ≤ b) = (le a b = true) := rfl
@[simp] theorem gt_def (a b : F64) : (a > b) = (lt b a = true) := rfl
end F64

theorem finRange8 : List.finRange nBuckets = [0, 1, 2, 3, 4, 5, 6, 7] := by decide

theorem forRange_unroll {σ : Type} (body : Fin nBuckets → σ → σ) (s : σ) :
    forRange body s
      = body 7 (body 6 (body 5 (body 4 (body 3 (body 2 (body 1 (body 0 s))))))) := by
  simp [forRange, finRange8]

theorem bucket.add_capacity (b : bucket) (x : F64) : (b.add x).capacity = b.capacity := by
  unfold bucket.add
  simp only
  split_ifs <;> rfl

theorem bucket.add_fin (a c x : ℚ) :
    bucket.add { amount := fin a, capacity := fin c } (fin x)
      = { amount := fin (max 0 (min c (a + x))), capacity := fin c } := by
  unfold bucket.add
  by_cases h1 : c < a + x
  · by_cases h2 : c < 0
    · simp [F64.add, F64.lt, h1, h2, min_eq_left h1.le, max_eq_left h2.le]
    · simp [F64.add, F64.lt, h1, h2, min_eq_left h1.le, max_eq_right (not_lt.mp h2)]
  · by_cases h2 : a + x < 0
    · simp [F64.add, F64.lt, h1, h2, min_eq_right (not_lt.mp h1), max_eq_left h2.le]
    · simp [F64.add, F64.lt, h1, h2, min_eq_right (not_lt.mp h1), max_eq_right (not_lt.mp h2)]

theorem foldl_update_apply {α : Type} (f : Fin nBuckets → α → α)
    (l : List (Fin nBuckets)) (hl : l.Nodup) (bs : Fin nBuckets → α) (i : Fin nBuckets) :
    l.foldl (fun bs k => Function.update bs k (f k (bs k))) bs i
      = if i ∈ l then f i (bs i) else bs i := by
  induction l generalizing bs with
  | nil => simp
  | cons k l ih =>
    rw [List.nodup_cons] at hl
    rw [List.foldl_cons, ih hl.2]
    by_cases hik : i = k
    · subst hik
      simp [hl.1]
    · simp [hik, Function.update_noteq hik]

theorem forRange_update_apply {α : Type} (f : Fin nBuckets → α → α)
    (bs : Fin nBuckets → α) (i : Fin nBuckets) :
    forRange (fun k bs => Function.update bs k (f k (bs k))) bs i = f i (bs i) := by
  unfold forRange
  rw [foldl_update_apply f _ (List.nodup_finRange _)]
  simp

theorem drain_apply (w : Wheel) (bs : Fin nBuckets → bucket) (dt : F64) (i : Fin nBuckets) :
    w.drain bs dt i = (bs i).add ((-w.oflow) * dt) := by
  unfold Wheel.drain
  exact forRange_update_apply (fun _ b => b.add ((-w.oflow) * dt)) bs i

theorem New_bucket (iflow oflow : F64) (k : Fin nBuckets) :
    (New iflow oflow).bucket k = { amount := fin 0, capacity := fin 10 * iflow } := by
  unfold New
  exact forRange_update_apply
    (fun _ (b : bucket) => ({ b with capacity := fin 10 * iflow } : bucket)) _ k


theorem tau_pos : 0 < tau := by norm_num [tau]

theorem truncQ_nonneg {q : ℚ} (h : 0 ≤ q) : truncQ q = ⌊q⌋ := by simp [truncQ, h]

/-- The angle the program reduces a finite `theta` to, as one `if`. -/
theorem reduce_fin (t : ℚ) :
    (if Mod (fin t) (fin tau) < fin 0 then Mod (fin t) (fin tau) + fin tau
      else Mod (fin t) (fin tau)) = fin (tau * Int.fract (t / tau)) := by
  have hτ := tau_pos
  have hne : tau ≠ 0 := hτ.ne'
  have ht : t = tau * (t / tau) := by field_simp
  by_cases hr : 0 ≤ t / tau
  · have hk : ¬ (t - tau * (⌊t / tau⌋ : ℚ) < 0) := by
      have := Int.floor_le (t / tau)
      have h2 : tau * (⌊t / tau⌋ : ℚ) ≤ tau * (t / tau) := by gcongr
      rw [← ht] at h2
      linarith
    simp only [Mod, hne, if_false, truncQ, hr, if_true, F64.lt_def, F64.lt, hk, decide_False]
    simp only [Int.fract, mul_sub, ← ht]
    simp
  · have hfl : (⌈t / tau⌉ : ℚ) = ⌊t / tau⌋ + Int.fract (t / tau) + (⌈t / tau⌉ - t / tau) := by
      rw [Int.floor_add_fract]; ring
    by_cases hk : t - tau * (⌈t / tau⌉ : ℚ) < 0
    · simp only [Mod, hne, if_false, truncQ, hr, F64.lt_def, F64.lt, hk, decide_True, if_true,
        F64.add_def, F64.add]
      congr 1
      have hlt : t / tau < ⌈t / tau⌉ := by
        by_contra hc
        push_neg at hc
        have := le_antisymm hc (Int.le_ceil _)
        rw [this, ← ht] at hk
        simp at hk
      have hnz : Int.fract (t / tau) ≠ 0 := by
        intro h0
        rw [Int.fract_eq_iff] at h0
        obtain ⟨-, -, z, hz⟩ := h0
        have : (t / tau) = z := by linarith
        rw [this] at hlt
        simp at hlt
      have hc : (⌈t / tau⌉ : ℚ) = ⌊t / tau⌋ + 1 := by
        have := Int.ceil_eq_add_one_sub_fract hnz
        rw [this]
        have := Int.floor_add_fract (t / tau)
        linarith
      rw [hc, Int.fract]
      have : tau * (t / tau) = t := ht.symm
      linarith [this]
    · simp only [Mod, hne, if_false, truncQ, hr, F64.lt_def, F64.lt, hk, decide_False]
      simp only [Bool.false_eq_true, if_false]
      congr 1
      have hle := Int.le_ceil (t / tau)
      have h2 : tau * (t / tau) ≤ tau * (⌈t / tau⌉ : ℚ) := by gcongr
      rw [← ht] at h2
      have h3 : t = tau * (⌈t / tau⌉ : ℚ) := le_antisymm h2 (by linarith)
      have h4 : t / tau = (⌈t / tau⌉ : ℚ) := by
        field_simp
        linarith
      rw [h4]
      simp
      linarith

/-- The angle the program reduces `theta` to, for a finite `theta`. -/
theorem topAngle_fin (w : Wheel) (t : ℚ) (hθ : w.theta = fin t) :
    w.topAngle = fin (tau * Int.fract (t / tau)) := by
  unfold Wheel.topAngle
  simp only [hθ]
  exact reduce_fin t

/-- With `theta` NaN the index is the conversion of NaN to `int`. -/
theorem topBucket_nan (H : Host) (w : Wheel) (hθ : w.theta = nan) :
    w.topBucket H = H.cvt nan := by
  unfold Wheel.topBucket Wheel.topAngle
  rw [hθ]
  rfl

theorem floor_fract_bounds (r : ℚ) : 0 ≤ ⌊8 * Int.fract r⌋ ∧ ⌊8 * Int.fract r⌋ < 8 := by
  have h0 := Int.fract_nonneg r
  have h1 := Int.fract_lt_one r
  constructor
  · exact Int.floor_nonneg.mpr (by linarith)
  · rw [Int.floor_lt]
    push_cast
    linarith

theorem truncQ_intCast (z : ℤ) : truncQ (z : ℚ) = z := by
  unfold truncQ
  split_ifs <;> simp

theorem topBucket_fin (H : Host) (w : Wheel) (t : ℚ)
    (hθ : w.theta = fin t) (harc : w.arc = fin (tau / 8)) :
    w.topBucket H = ⌊8 * Int.fract (t / tau)⌋ := by
  have hτ := tau_pos
  have hb := floor_fract_bounds (t / tau)
  have h0 := Int.fract_nonneg (t / tau)
  unfold Wheel.topBucket
  rw [topAngle_fin w t hθ, harc]
  have hne : tau / 8 ≠ 0 := by positivity
  have hq : tau * Int.fract (t / tau) / (tau / 8) = 8 * Int.fract (t / tau) := by
    field_simp
    ring
  have hnn : (0 : ℚ) ≤ 8 * Int.fract (t / tau) := by linarith
  simp only [F64.div_def, F64.div, hne, if_false, Trunc, toInt, hq, truncQ_nonneg hnn,
    truncQ_intCast]
  rw [if_pos]
  constructor <;> omega

theorem Run_of_top (H : Host) (w : Wheel) (dt : F64) (n : Fin nBuckets)
    (hn : w.topBucket H = (n : ℤ)) : w.Run H dt = some (w.advance H n dt) := by
  unfold Wheel.Run
  have h : 0 ≤ w.topBucket H ∧ w.topBucket H < (nBuckets : ℤ) := by
    rw [hn]
    have := n.isLt
    constructor <;> omega
  simp only [h, and_self, dite_true]
  congr 2
  apply Fin.ext
  simp [hn]

/-- On a wheel with a finite `theta` and `arc = tau / 8`, `Run` does not panic. -/
theorem Run_fin (H : Host) (w : Wheel) (t : ℚ) (dt : F64)
    (hθ : w.theta = fin t) (harc : w.arc = fin (tau / 8)) :
    ∃ n : Fin nBuckets, w.topBucket H = (n : ℤ) ∧ w.Run H dt = some (w.advance H n dt) := by
  have hb := floor_fract_bounds (t / tau)
  have htop := topBucket_fin H w t hθ harc
  have hlt : ⌊8 * Int.fract (t / tau)⌋.toNat < nBuckets := by
    simp only [nBuckets]
    omega
  have hcast : w.topBucket H = ((⟨_, hlt⟩ : Fin nBuckets) : ℤ) := by
    rw [htop]
    simp [hb.1]
  exact ⟨⟨_, hlt⟩, hcast, Run_of_top H w dt _ hcast⟩

theorem Run_inv {H : Host} {w w1 : Wheel} {dt : F64} (h : w.Run H dt = some w1) :
    ∃ n : Fin nBuckets, w.topBucket H = (n : ℤ) ∧ w1 = w.advance H n dt := by
  unfold Wheel.Run at h
  simp only at h
  split_ifs at h with hn
  rw [Option.some.injEq] at h
  exact ⟨_, by simp [hn.1], h.symm⟩

theorem bucket.add_good {c a x : ℚ} {b : bucket} (hc : b.capacity = fin c)
    (ha : b.amount = fin a) :
    (b.add (fin x)).capacity = fin c ∧
      ∃ r, (b.add (fin x)).amount = fin r ∧ 0 ≤ r ∧ (r ≤ c ∨ r = 0) := by
  obtain ⟨am, cp⟩ := b
  subst hc ha
  rw [bucket.add_fin]
  refine ⟨rfl, _, rfl, le_max_left _ _, ?_⟩
  by_cases h : 0 ≤ min c (a + x)
  · left
    rw [max_eq_right h]
    exact min_le_left _ _
  · right
    exact max_eq_left (le_of_not_le h)

theorem fill_apply (w : Wheel) (n i : Fin nBuckets) (dt : F64) :
    w.fill n dt i = if i = n then (w.bucket n).add (w.iflow * dt) else w.bucket i := by
  unfold Wheel.fill
  by_cases h : i = n
  · subst h; simp
  · simp [h]

theorem advance_bucket (H : Host) (w : Wheel) (n i : Fin nBuckets) (dt : F64) :
    (w.advance H n dt).bucket i
      = (if i = n then (w.bucket n).add (w.iflow * dt) else w.bucket i).add
          ((-w.oflow) * dt) := by
  simp only [Wheel.advance, drain_apply, fill_apply]

theorem sums_fin (H : Host) (w : Wheel) (bs : Fin nBuckets → bucket) (m : Fin nBuckets → ℚ)
    (t a : ℚ) (hm : ∀ i, (bs i).amount = fin (m i)) (ht : w.theta = fin t)
    (ha : w.arc = fin a) :
    w.sums H bs =
      { ai := fin (∑ i, m i)
        torque := fin (∑ i : Fin nBuckets, m i * H.sin (t + (i : ℕ) * a))
        angle := fin (t + 8 * a) } := by
  unfold Wheel.sums
  rw [forRange_unroll]
  simp only [Wheel.sumsBody, hm, ht, ha, F64.add_def, F64.add, F64.mul_def, F64.mul, Sin,
    Fin.sum_univ_eight]
  congr 2
  · simp
  · have h3 : ((3 : Fin nBuckets) : ℕ) = 3 := rfl
    have h4 : ((4 : Fin nBuckets) : ℕ) = 4 := rfl
    have h5 : ((5 : Fin nBuckets) : ℕ) = 5 := rfl
    have h6 : ((6 : Fin nBuckets) : ℕ) = 6 := rfl
    have h7 : ((7 : Fin nBuckets) : ℕ) = 7 := rfl
    simp only [zero_add, h3, h4, h5, h6, h7]
    norm_num
    ring_nf
  · ring

theorem aa_fin (H : Host) (w : Wheel) (bs : Fin nBuckets → bucket) (m : Fin nBuckets → ℚ)
    (t a : ℚ) (hm : ∀ i, (bs i).amount = fin (m i)) (h0 : ∀ i, 0 ≤ m i)
    (ht : w.theta = fin t) (ha : w.arc = fin a) :
    w.aa H bs = if (∑ i, m i) = 0 then nan
      else fin ((∑ i : Fin nBuckets, m i * H.sin (t + (i : ℕ) * a)) / ∑ i, m i) := by
  unfold Wheel.aa
  rw [sums_fin H w bs m t a hm ht ha]
  by_cases hI : (∑ i, m i) = 0
  · have hz : ∀ i, m i = 0 := fun i =>
      (Finset.sum_eq_zero_iff_of_nonneg (fun i _ => h0 i)).mp hI i (Finset.mem_univ i)
    have hT : (∑ i : Fin nBuckets, m i * H.sin (t + (i : ℕ) * a)) = 0 :=
      Finset.sum_eq_zero (fun i _ => by rw [hz i, zero_mul])
    simp [F64.div, hI, hT]
  · simp [F64.div, hI]

theorem New_arc (iflow oflow : F64) : (New iflow oflow).arc = fin (tau / 8) := by
  show fin tau / fin ((8 : ℕ) : ℚ) = fin (tau / 8)
  norm_num [F64.div]

theorem New_topBucket (H : Host) (iflow oflow : F64) :
    (New iflow oflow).topBucket H = ((0 : Fin nBuckets) : ℤ) := by
  rw [topBucket_fin H (New iflow oflow) 0 rfl (New_arc iflow oflow)]
  simp

theorem Good.New (iflow oflow : ℚ) : Good iflow oflow (New (fin iflow) (fin oflow)) where
  iflow_eq := rfl
  oflow_eq := rfl
  arc_eq := New_arc _ _
  cap_eq := fun i => by rw [New_bucket]; simp [F64.mul]
  amt := fun i => ⟨0, by rw [New_bucket], le_refl _, Or.inr rfl⟩
  kin := Or.inl ⟨1 / 100, 0, rfl, rfl⟩

theorem bucket.add_amount (b : bucket) (x : F64) :
    (b.add x).amount = clamp b.capacity (b.amount + x) := by
  unfold bucket.add clamp
  simp only
  split_ifs <;> rfl

theorem bucket.add_zero_good {b : bucket} {a c : ℚ} (ha : b.amount = fin a)
    (hc : b.capacity = fin c) (h0 : 0 ≤ a) (hac : a ≤ c ∨ a = 0) : b.add (fin 0) = b := by
  obtain ⟨am, cp⟩ := b
  subst ha hc
  rw [bucket.add_fin, add_zero]
  congr 2
  rcases hac with h | h
  · rw [min_eq_right h, max_eq_right h0]
  · subst h
    exact max_eq_left (min_le_right _ _)

theorem Good.advance_zero_bucket {iflow oflow : ℚ} {w : Wheel} (h : Good iflow oflow w)
    (H : Host) (n : Fin nBuckets) : (w.advance H n (fin 0)).bucket = w.bucket := by
  funext i
  rw [advance_bucket, h.iflow_eq, h.oflow_eq]
  have e1 : fin iflow * fin 0 = fin 0 := by
    show fin (iflow * 0) = fin 0
    rw [mul_zero]
  have e2 : (-fin oflow) * fin 0 = fin 0 := by
    show fin (-oflow * 0) = fin 0
    rw [mul_zero]
  rw [e1, e2]
  have hz : ∀ j, (w.bucket j).add (fin 0) = w.bucket j := fun j => by
    obtain ⟨a, ha, h0, hac⟩ := h.amt j
    exact bucket.add_zero_good ha (h.cap_eq j) h0 hac
  split_ifs with hi
  · rw [hz n, hz n, hi]
  · rw [hz i]

theorem bucket.add_nonnan {b : bucket} (x : ℚ) (hcap : fin 0 ≤ b.capacity)
    (ham : b.amount ≠ nan) :
    (b.add (fin x)).amount ≠ nan ∧ fin 0 ≤ (b.add (fin x)).amount ∧
      (b.add (fin x)).amount ≤ (b.add (fin x)).capacity := by
  obtain ⟨am, cp⟩ := b
  simp only [F64.le_def] at hcap
  cases cp with
  | fin c =>
    have hc : 0 ≤ c := by simpa [F64.le] using hcap
    cases am with
    | fin a =>
      rw [bucket.add_fin]
      simp [F64.le, hc]
    | pinf => simp [bucket.add, F64.add, F64.lt, F64.le, hc, not_lt.mpr hc]
    | ninf => simp [bucket.add, F64.add, F64.lt, F64.le, hc]
    | nan => exact absurd rfl ham
  | pinf =>
    cases am with
    | fin a =>
      by_cases h : a + x < 0
      · simp [bucket.add, F64.add, F64.lt, F64.le, h]
      · simp [bucket.add, F64.add, F64.lt, F64.le, h, not_lt.mp h]
    | pinf => simp [bucket.add, F64.add, F64.lt, F64.le]
    | ninf => simp [bucket.add, F64.add, F64.lt, F64.le]
    | nan => exact absurd rfl ham
  | ninf => simp [F64.le] at hcap
  | nan => simp [F64.le] at hcap

/-- The index for a finite `theta` and any finite positive `arc`, as long as it
fits an `int`. -/
theorem topBucket_fin_arc (H : Host) (w : Wheel) (t a : ℚ) (hθ : w.theta = fin t)
    (harc : w.arc = fin a) (ha : 0 < a)
    (hfit : ⌊tau * Int.fract (t / tau) / a⌋ < (2 : ℤ) ^ 63) :
    w.topBucket H = ⌊tau * Int.fract (t / tau) / a⌋ := by
  have hnn : 0 ≤ tau * Int.fract (t / tau) / a :=
    div_nonneg (mul_nonneg tau_pos.le (Int.fract_nonneg _)) ha.le
  have hfl : 0 ≤ ⌊tau * Int.fract (t / tau) / a⌋ := Int.floor_nonneg.mpr hnn
  unfold Wheel.topBucket
  rw [topAngle_fin w t hθ, harc]
  simp only [F64.div_def, F64.div, ha.ne', if_false, Trunc, toInt, truncQ_nonneg hnn,
    truncQ_intCast]
  rw [if_pos]
  constructor <;> omega

theorem advance_capacity (H : Host) (w : Wheel) (n i : Fin nBuckets) (dt : F64) :
    ((w.advance H n dt).bucket i).capacity = (w.bucket i).capacity := by
  rw [advance_bucket]
  split_ifs with hi
  · rw [bucket.add_capacity, bucket.add_capacity, hi]
  · rw [bucket.add_capacity]

theorem runs_frame (H : Host) (dts : List F64) :
    ∀ {w w1 : Wheel}, w.runs H dts = some w1 →
      w1.iflow = w.iflow ∧ w1.oflow = w.oflow ∧ w1.arc = w.arc ∧
        ∀ i, (w1.bucket i).capacity = (w.bucket i).capacity := by
  induction dts with
  | nil =>
    intro w w1 hr
    simp only [Wheel.runs, Option.some.injEq] at hr
    rw [hr]
    exact ⟨rfl, rfl, rfl, fun _ => rfl⟩
  | cons dt dts ih =>
    intro w w1 hr
    simp only [Wheel.runs] at hr
    cases hrun : w.Run H dt with
    | none => simp [hrun] at hr
    | some w2 =>
      rw [hrun, Option.some_bind] at hr
      obtain ⟨n, -, rfl⟩ := Run_inv hrun
      obtain ⟨h1, h2, h3, h4⟩ := ih hr
      exact ⟨h1, h2, h3, fun i => (h4 i).trans (advance_capacity H w n i dt)⟩

theorem foldl_inv {σ α : Type} (P : σ → Prop) (f : σ → α → σ) (l : List α) (s : σ)
    (h0 : P s) (hstep : ∀ s a, P s → P (f s a)) : P (l.foldl f s) := by
  induction l generalizing s with
  | nil => exact h0
  | cons a l ih => exact ih (f s a) (hstep s a h0)

/-- With every bucket empty the third loop of `Run` ends with `ai = 0` and a
torque that is `0` or NaN, and the quotient is NaN. -/
theorem aa_empty (H : Host) (w : Wheel) (bs : Fin nBuckets → bucket)
    (hm : ∀ i, (bs i).amount = fin 0) :
    (w.sums H bs).ai = fin 0 ∧ w.aa H bs = nan := by
  have hP : (w.sums H bs).ai = fin 0 ∧
      ((w.sums H bs).torque = fin 0 ∨ (w.sums H bs).torque = nan) := by
    unfold Wheel.sums forRange
    apply foldl_inv (fun s : Sums => s.ai = fin 0 ∧ (s.torque = fin 0 ∨ s.torque = nan))
    · exact ⟨rfl, Or.inl rfl⟩
    · rintro s k ⟨h1, h2⟩
      simp only [Wheel.sumsBody, hm, h1]
      refine ⟨by simp [F64.add], ?_⟩
      rcases h2 with h2 | h2 <;> rw [h2] <;> cases Sin H s.angle <;>
        simp [F64.add, F64.mul, F64.scaleInf]
  refine ⟨hP.1, ?_⟩
  unfold Wheel.aa
  rw [hP.1]
  rcases hP.2 with h | h <;> rw [h] <;> simp [F64.div]

theorem F64.add_nan (x : F64) : x + nan = nan := by
  cases x <;> rfl

theorem F64.nan_mul (x : F64) : nan * x = nan := rfl

theorem F64.nan_add (x : F64) : nan + x = nan := rfl

/-- A step on a wheel whose buckets are all empty after the inflow/outflow
update makes `av` and `theta` NaN. -/
theorem advance_empty (H : Host) (w : Wheel) (n : Fin nBuckets) (dt : F64)
    (hm : ∀ i, ((w.advance H n dt).bucket i).amount = fin 0) :
    (w.advance H n dt).av = nan ∧ (w.advance H n dt).theta = nan := by
  have hav : (w.advance H n dt).av = w.av + w.aa H (w.advance H n dt).bucket * dt := rfl
  have hth : (w.advance H n dt).theta = w.theta + (w.advance H n dt).av * dt := rfl
  have h1 : (w.advance H n dt).av = nan := by
    rw [hav, (aa_empty H w _ hm).2, F64.nan_mul, F64.add_nan]
  exact ⟨h1, by rw [hth, h1, F64.nan_mul, F64.add_nan]⟩

/-- NaN in `av` stays, and puts NaN in `theta`. -/
theorem advance_nan (H : Host) (w : Wheel) (n : Fin nBuckets) (dt : F64) (hav : w.av = nan) :
    (w.advance H n dt).av = nan ∧ (w.advance H n dt).theta = nan := by
  have h1 : (w.advance H n dt).av = w.av + w.aa H (w.advance H n dt).bucket * dt := rfl
  have h2 : (w.advance H n dt).theta = w.theta + (w.advance H n dt).av * dt := rfl
  rw [hav, F64.nan_add] at h1
  exact ⟨h1, by rw [h2, h1, F64.nan_mul, F64.add_nan]⟩

theorem runs_nan (H : Host) (dts : List F64) :
    ∀ {w w1 : Wheel}, w.av = nan → w.theta = nan → w.runs H dts = some w1 →
      w1.av = nan ∧ w1.theta = nan := by
  induction dts with
  | nil =>
    intro w w1 hav hth hr
    simp only [Wheel.runs, Option.some.injEq] at hr
    rw [← hr]
    exact ⟨hav, hth⟩
  | cons dt dts ih =>
    intro w w1 hav hth hr
    simp only [Wheel.runs] at hr
    cases hrun : w.Run H dt with
    | none => simp [hrun] at hr
    | some w2 =>
      rw [hrun, Option.some_bind] at hr
      obtain ⟨n, -, rfl⟩ := Run_inv hrun
      exact ih (advance_nan H w n dt hav).1 (advance_nan H w n dt hav).2 hr

theorem entries_apply (H : Host) (fmt : F64 → String) (w : Wheel) (i : Fin nBuckets) :
    w.entries H fmt i
      = (if ((i : ℕ) : ℤ) = w.topBucket H then "*" else " ") ++ fmt (w.bucket i).amount := by
  unfold Wheel.entries
  exact forRange_update_apply
    (fun i _ => (if ((i : ℕ) : ℤ) = w.topBucket H then "*" else " ")
      ++ fmt (w.bucket i).amount) _ i

theorem entries_data (H : Host) (fmt : F64 → String) (w : Wheel) (i : Fin nBuckets) :
    (w.entries H fmt i).data
      = (if ((i : ℕ) : ℤ) = w.topBucket H then '*' else ' ')
          :: (fmt (w.bucket i).amount).data := by
  rw [entries_apply]
  split_ifs <;> simp [String.data_append]

theorem clamp_nan (c : F64) : clamp c nan = nan := by
  cases c <;> simp [clamp, F64.lt]

/-! ### Evaluating the rounding -/

theorem ulpExp_eval (q : ℚ) (k : ℤ) (h1 : (2 : ℚ) ^ k ≤ |q|) (h2 : |q| < (2 : ℚ) ^ (k + 1))
    (hk : -1022 ≤ k) : ulpExp q = k - 52 := by
  have hpos : 0 < |q| := lt_of_lt_of_le (by positivity) h1
  have hlog : Int.log 2 |q| = k := by
    have a := (Int.zpow_le_iff_le_log (by norm_num : 1 < 2) hpos).mp h1
    have b := (Int.lt_zpow_iff_log_lt (by norm_num : 1 < 2) hpos).mp h2
    omega
  unfold ulpExp
  rw [hlog, max_eq_left hk]

theorem roundEven_eval (q : ℚ) (f : ℤ) (h1 : (f : ℚ) ≤ q) (h2 : q < f + 1) :
    roundEven q = if 2 * (q - f) < 1 then f
      else if 1 < 2 * (q - f) then f + 1
      else if f % 2 = 0 then f else f + 1 := by
  have hf : ⌊q⌋ = f := Int.floor_eq_iff.mpr ⟨h1, h2⟩
  unfold roundEven
  rw [Int.fract, hf]

theorem round64_eval (q : ℚ) (e n : ℤ) (he : ulpExp q = e)
    (hn : roundEven (q / 2 ^ e) = n) (hmax : |(n : ℚ) * 2 ^ e| ≤ maxFloat64) :
    round64 q = fin ((n : ℚ) * 2 ^ e) := by
  unfold round64 nearest64
  rw [he, hn, if_neg (not_lt.mpr hmax)]

theorem round64_pinf (q : ℚ) (e n : ℤ) (he : ulpExp q = e)
    (hn : roundEven (q / 2 ^ e) = n) (hmax : maxFloat64 < |(n : ℚ) * 2 ^ e|) (hq : 0 < q) :
    round64 q = pinf := by
  unfold round64 nearest64
  rw [he, hn, if_pos hmax, if_pos hq]

theorem round64_ninf (q : ℚ) (e n : ℤ) (he : ulpExp q = e)
    (hn : roundEven (q / 2 ^ e) = n) (hmax : maxFloat64 < |(n : ℚ) * 2 ^ e|) (hq : ¬ 0 < q) :
    round64 q = ninf := by
  unfold round64 nearest64
  rw [he, hn, if_pos hmax, if_neg hq]

theorem round64_zero : round64 0 = fin 0 := by
  unfold round64 nearest64 roundEven
  norm_num [maxFloat64]

/-! ### The loops of the program on `float64` -/

theorem bucket.add64_capacity (b : bucket) (x : F64) :
    (b.add64 x).capacity = b.capacity := by
  unfold bucket.add64
  simp only
  split_ifs <;> rfl

theorem drain64_apply (w : Wheel) (bs : Fin nBuckets → bucket) (dt : F64)
    (i : Fin nBuckets) : w.drain64 bs dt i = (bs i).add64 ((-w.oflow) * dt).r64 := by
  unfold Wheel.drain64
  exact forRange_update_apply (fun _ b => b.add64 ((-w.oflow) * dt).r64) bs i

theorem fill64_apply (w : Wheel) (n i : Fin nBuckets) (dt : F64) :
    w.fill64 n dt i
      = if i = n then (w.bucket n).add64 (w.iflow * dt).r64 else w.bucket i := by
  unfold Wheel.fill64
  by_cases h : i = n
  · subst h; simp
  · simp [h]

theorem advance64_bucket (H : Host) (w : Wheel) (n i : Fin nBuckets) (dt : F64) :
    (w.advance64 H n dt).bucket i
      = (if i = n then (w.bucket n).add64 (w.iflow * dt).r64 else w.bucket i).add64
          ((-w.oflow) * dt).r64 := by
  simp only [Wheel.advance64, drain64_apply, fill64_apply]

theorem New64_bucket (iflow oflow : F64) (k : Fin nBuckets) :
    (New64 iflow oflow).bucket k
      = { amount := fin 0, capacity := (fin 10 * iflow).r64 } := by
  unfold New64
  exact forRange_update_apply
    (fun _ (b : bucket) => ({ b with capacity := (fin 10 * iflow).r64 } : bucket)) _ k

theorem New64_arc (iflow oflow : F64) : (New64 iflow oflow).arc = fin (tau / 8) := by
  show (fin tau / fin ((8 : ℕ) : ℚ)).r64 = fin (tau / 8)
  have h : fin tau / fin ((8 : ℕ) : ℚ) = fin (tau / 8) := by norm_num [F64.div]
  rw [h]
  show round64 (tau / 8) = fin (tau / 8)
  have he := ulpExp_eval (tau / 8) (-1) (by norm_num [tau, abs_of_pos])
    (by norm_num [tau, abs_of_pos]) (by norm_num)
  have hn : roundEven (tau / 8 / 2 ^ (-1 - 52 : ℤ)) = 7074237752028440 := by
    rw [roundEven_eval _ 7074237752028440 (by norm_num [tau]) (by norm_num [tau])]
    norm_num [tau]
  rw [round64_eval _ _ _ he hn (by norm_num [maxFloat64, abs_of_pos])]
  norm_num [tau]

theorem Run64_of_top (H : Host) (w : Wheel) (dt : F64) (n : Fin nBuckets)
    (hn : w.topBucket64 H = (n : ℤ)) : w.Run64 H dt = some (w.advance64 H n dt) := by
  unfold Wheel.Run64
  have h : 0 ≤ w.topBucket64 H ∧ w.topBucket64 H < (nBuckets : ℤ) := by
    rw [hn]
    have := n.isLt
    constructor <;> omega
  simp only [h, and_self, dite_true]
  congr 2
  apply Fin.ext
  simp [hn]

theorem Run64_none_of_top (H : Host) (w : Wheel) (dt : F64)
    (hn : ¬ (0 ≤ w.topBucket64 H ∧ w.topBucket64 H < (nBuckets : ℤ))) :
    w.Run64 H dt = none := by
  unfold Wheel.Run64
  simp only [hn, dite_false]

/-- With `theta = 0` and `arc = tau / 8` the rounded index is 0. -/
theorem topBucket64_zero (H : Host) (w : Wheel) (hθ : w.theta = fin 0)
    (harc : w.arc = fin (tau / 8)) : w.topBucket64 H = ((0 : Fin nBuckets) : ℤ) := by
  unfold Wheel.topBucket64 Wheel.topAngle64
  rw [hθ, harc]
  have hm : Mod (fin 0) (fin tau) = fin 0 := by
    simp [Mod, tau_pos.ne', truncQ]
  rw [hm]
  have hd : (fin 0 : F64) / fin (tau / 8) = fin 0 := by
    have : tau / 8 ≠ 0 := by have := tau_pos; positivity
    simp [F64.div, this]
  simp only [F64.lt_def, F64.lt, lt_self_iff_false, decide_False, Bool.false_eq_true, if_false]
  rw [hd]
  show toInt H (Trunc (round64 0)) = _
  rw [round64_zero]
  simp [Trunc, toInt, truncQ]

/-! ### Overflow at the top of the `float64` range -/

theorem round64_ten_big : round64 (10 * 2 ^ 1023) = pinf := by
  have he := ulpExp_eval (10 * 2 ^ 1023) 1026 (by norm_num [abs_of_pos])
    (by norm_num [abs_of_pos]) (by norm_num)
  have hn : roundEven (10 * 2 ^ 1023 / 2 ^ (1026 - 52 : ℤ)) = 10 * 2 ^ 49 := by
    rw [roundEven_eval _ (10 * 2 ^ 49) (by norm_num) (by norm_num)]
    norm_num
  exact round64_pinf _ _ _ he hn (by norm_num [maxFloat64, abs_of_pos]) (by norm_num)

theorem round64_two_big : round64 (2 ^ 1023 * 2) = pinf := by
  have he := ulpExp_eval (2 ^ 1023 * 2) 1024 (by norm_num [abs_of_pos])
    (by norm_num [abs_of_pos]) (by norm_num)
  have hn : roundEven (2 ^ 1023 * 2 / 2 ^ (1024 - 52 : ℤ)) = 2 ^ 52 := by
    rw [roundEven_eval _ (2 ^ 52) (by norm_num) (by norm_num)]
    norm_num
  exact round64_pinf _ _ _ he hn (by norm_num [maxFloat64, abs_of_pos]) (by norm_num)

theorem round64_neg_two_big : round64 (-2 ^ 1023 * 2) = ninf := by
  have he := ulpExp_eval (-2 ^ 1023 * 2) 1024 (by norm_num [abs_of_neg])
    (by norm_num [abs_of_neg]) (by norm_num)
  have hn : roundEven (-2 ^ 1023 * 2 / 2 ^ (1024 - 52 : ℤ)) = -2 ^ 52 := by
    rw [roundEven_eval _ (-2 ^ 52) (by norm_num) (by norm_num)]
    norm_num
  exact round64_ninf _ _ _ he hn (by norm_num [maxFloat64, abs_of_pos]) (by norm_num)

theorem F64.r64_nan : F64.r64 nan = nan := rfl

theorem F64.nan_div (a : F64) : nan / a = nan := rfl

/-- Once the first bucket holds `+Inf` at the angle `0`, the torque of the
step on `float64` is `Inf * 0`, NaN. -/
theorem sums64_torque_nan (H : Host) (w : Wheel) (bs : Fin nBuckets → bucket)
    (hθ : w.theta = fin 0) (h0 : (bs 0).amount = pinf) : (w.sums64 H bs).torque = nan := by
  unfold Wheel.sums64
  rw [forRange_unroll]
  have h1 : (fin 0 + (pinf * Sin H (fin 0)).r64).r64 = nan := by
    have hs : Sin H (fin 0) = fin 0 := by
      show fin (H.sin 0) = fin 0
      rw [H.sin_zero]
    rw [hs]
    rfl
  simp only [Wheel.sumsBody64, hθ, h0, h1, F64.nan_add, F64.r64_nan]

theorem advance64_nan (H : Host) (w : Wheel) (n : Fin nBuckets) (dt : F64)
    (h : (w.sums64 H (w.drain64 (w.fill64 n dt) dt)).torque = nan) :
    (w.advance64 H n dt).av = nan ∧ (w.advance64 H n dt).theta = nan := by
  have hav : (w.advance64 H n dt).av = nan := by
    show (w.av + ((((w.sums64 H (w.drain64 (w.fill64 n dt) dt)).torque
      / (w.sums64 H (w.drain64 (w.fill64 n dt) dt)).ai).r64) * dt).r64).r64 = nan
    rw [h, F64.nan_div, F64.r64_nan, F64.nan_mul, F64.r64_nan, F64.add_nan, F64.r64_nan]
  refine ⟨hav, ?_⟩
  show (w.theta + ((w.advance64 H n dt).av * dt).r64).r64 = nan
  rw [hav, F64.nan_mul, F64.r64_nan, F64.add_nan, F64.r64_nan]

/-- The first `Run(2)` on `float64` of a wheel built with `iflow = 2^1023`: the
capacity `10 * iflow` and the inflow `iflow * 2` both overflow to `+Inf`. -/
theorem overflow_fill (oflow : F64) :
    (New64 (fin (2 ^ 1023)) oflow).fill64 0 (fin 2) 0
      = { amount := pinf, capacity := pinf } := by
  rw [fill64_apply, if_pos rfl, New64_bucket]
  have hc : (fin 10 * fin (2 ^ 1023)).r64 = pinf := round64_ten_big
  have hx : ((New64 (fin (2 ^ 1023)) oflow).iflow * fin 2).r64 = pinf := round64_two_big
  rw [hc, hx]
  simp [bucket.add64, F64.add, F64.r64, F64.lt]

/-! ### Rounding to `float64`: order, sign, fixed points -/

theorem roundEven_floor_le (q : ℚ) : ⌊q⌋ ≤ roundEven q := by
  unfold roundEven
  split_ifs <;> omega

theorem roundEven_le_floor (q : ℚ) : roundEven q ≤ ⌊q⌋ + 1 := by
  unfold roundEven
  split_ifs <;> omega

theorem roundEven_intCast (n : ℤ) : roundEven (n : ℚ) = n := by
  unfold roundEven
  simp

theorem roundEven_mono {q r : ℚ} (h : q ≤ r) : roundEven q ≤ roundEven r := by
  have hf := Int.floor_le_floor h
  rcases lt_or_eq_of_le hf with hlt | heq
  · have h1 := roundEven_le_floor q
    have h2 := roundEven_floor_le r
    omega
  · have hfr : Int.fract q ≤ Int.fract r := by
      unfold Int.fract
      rw [heq]
      linarith
    unfold roundEven
    rw [heq]
    split_ifs <;> first | omega | linarith

theorem roundEven_neg (q : ℚ) : roundEven (-q) = -roundEven q := by
  by_cases h0 : Int.fract q = 0
  · have hq : q = (⌊q⌋ : ℚ) := by
      have := Int.floor_add_fract q
      rw [h0, add_zero] at this
      exact this.symm
    rw [hq, ← Int.cast_neg, roundEven_intCast, roundEven_intCast]
  · have hfr : Int.fract (-q) = 1 - Int.fract q := Int.fract_neg h0
    have hpos : 0 < Int.fract q := lt_of_le_of_ne (Int.fract_nonneg q) (Ne.symm h0)
    have hc : ⌈q⌉ = ⌊q⌋ + 1 := by
      rw [Int.ceil_eq_iff]
      have h1 := Int.floor_add_fract q
      have h2 := Int.fract_lt_one q
      push_cast
      constructor <;> linarith
    have hfl : ⌊-q⌋ = -⌊q⌋ - 1 := by
      rw [Int.floor_neg, hc]
      ring
    unfold roundEven
    rw [hfr, hfl]
    split_ifs <;> first | omega | linarith

theorem ulpExp_neg (q : ℚ) : ulpExp (-q) = ulpExp q := by
  unfold ulpExp
  rw [abs_neg]

theorem ulpExp_ge (q : ℚ) : -1074 ≤ ulpExp q := by
  unfold ulpExp
  have := le_max_right (Int.log 2 |q|) (-1022)
  omega

theorem lt_zpow_ulpExp {q : ℚ} (hq : 0 < q) : q < 2 ^ (ulpExp q + 53) := by
  have h1 : q < ((2 : ℕ) : ℚ) ^ (Int.log 2 q + 1) := Int.lt_zpow_succ_log_self (by norm_num) q
  have h2 : Int.log 2 q + 1 ≤ ulpExp q + 53 := by
    unfold ulpExp
    rw [abs_of_pos hq]
    have := le_max_left (Int.log 2 q) (-1022)
    omega
  have h3 : ((2 : ℕ) : ℚ) ^ (Int.log 2 q + 1) ≤ ((2 : ℕ) : ℚ) ^ (ulpExp q + 53) :=
    zpow_le_zpow_right₀ (by norm_num) h2
  have h4 : q < ((2 : ℕ) : ℚ) ^ (ulpExp q + 53) := lt_of_lt_of_le h1 h3
  simpa using h4

theorem zpow_ulpExp_le {q : ℚ} (hq : 0 < q) (he : ulpExp q ≠ -1074) :
    2 ^ (ulpExp q + 52) ≤ q := by
  have h1 : ((2 : ℕ) : ℚ) ^ (Int.log 2 q) ≤ q := Int.zpow_log_le_self (by norm_num) hq
  have h2 : ulpExp q + 52 = Int.log 2 q := by
    unfold ulpExp at he ⊢
    rw [abs_of_pos hq] at he ⊢
    rcases le_total (Int.log 2 q) (-1022) with h | h
    · rw [max_eq_right h] at he
      omega
    · rw [max_eq_left h]
      omega
  rw [h2]
  simpa using h1

theorem ulpExp_mono {q r : ℚ} (hq : 0 < q) (h : q ≤ r) : ulpExp q ≤ ulpExp r := by
  unfold ulpExp
  rw [abs_of_pos hq, abs_of_pos (lt_of_lt_of_le hq h)]
  have := Int.log_mono_right (b := 2) hq h
  have := max_le_max this (le_refl (-1022 : ℤ))
  omega

theorem ulpExp_of_lt {q : ℚ} (hq : 0 < q) (h : q < 2 ^ (-1022 : ℤ)) : ulpExp q = -1074 := by
  by_contra he
  have := zpow_ulpExp_le hq he
  have h1 : (2 : ℚ) ^ (-1022 : ℤ) ≤ 2 ^ (ulpExp q + 52) :=
    zpow_le_zpow_right₀ (by norm_num) (by have := ulpExp_ge q; omega)
  linarith

theorem ulpExp_of_bounds {q : ℚ} {k : ℤ} (hk : -1022 ≤ k) (h1 : 2 ^ k ≤ q)
    (h2 : q < 2 ^ (k + 1)) : ulpExp q = k - 52 := by
  have hq : 0 < q := lt_of_lt_of_le (by positivity) h1
  exact ulpExp_eval q k (by rwa [abs_of_pos hq]) (by rwa [abs_of_pos hq]) hk

theorem nearest64_zero : nearest64 0 = 0 := by
  unfold nearest64
  rw [zero_div]
  have : roundEven (0 : ℚ) = 0 := by simpa using roundEven_intCast 0
  rw [this]
  simp

theorem nearest64_neg (q : ℚ) : nearest64 (-q) = -nearest64 q := by
  unfold nearest64
  rw [ulpExp_neg, neg_div, roundEven_neg]
  push_cast
  ring

theorem sig_nonneg {q : ℚ} (hq : 0 ≤ q) : 0 ≤ roundEven (q / 2 ^ ulpExp q) := by
  have h : ((0 : ℤ) : ℚ) ≤ q / 2 ^ ulpExp q := by
    push_cast
    positivity
  have := roundEven_mono h
  rwa [roundEven_intCast] at this

theorem sig_le {q : ℚ} (hq : 0 < q) : roundEven (q / 2 ^ ulpExp q) ≤ 2 ^ 53 := by
  have h1 := lt_zpow_ulpExp hq
  rw [zpow_add₀ (by norm_num : (2 : ℚ) ≠ 0)] at h1
  have h2 : q / 2 ^ ulpExp q ≤ (((2 : ℤ) ^ 53 : ℤ) : ℚ) := by
    rw [div_le_iff₀ (by positivity)]
    push_cast
    have : (2 : ℚ) ^ (53 : ℤ) = 2 ^ 53 := by norm_cast
    rw [this] at h1
    linarith
  have := roundEven_mono h2
  rwa [roundEven_intCast] at this

theorem sig_ge {q : ℚ} (hq : 0 < q) (he : ulpExp q ≠ -1074) :
    2 ^ 52 ≤ roundEven (q / 2 ^ ulpExp q) := by
  have h1 := zpow_ulpExp_le hq he
  rw [zpow_add₀ (by norm_num : (2 : ℚ) ≠ 0)] at h1
  have h2 : (((2 : ℤ) ^ 52 : ℤ) : ℚ) ≤ q / 2 ^ ulpExp q := by
    rw [le_div_iff₀ (by positivity)]
    push_cast
    have : (2 : ℚ) ^ (52 : ℤ) = 2 ^ 52 := by norm_cast
    rw [this] at h1
    linarith
  have := roundEven_mono h2
  rwa [roundEven_intCast] at this

theorem nearest64_nonneg {q : ℚ} (hq : 0 ≤ q) : 0 ≤ nearest64 q := by
  unfold nearest64
  have := sig_nonneg hq
  have h : (0 : ℚ) ≤ (roundEven (q / 2 ^ ulpExp q) : ℚ) := by exact_mod_cast this
  positivity

theorem nearest64_le_zpow {q : ℚ} (hq : 0 < q) : nearest64 q ≤ 2 ^ (ulpExp q + 53) := by
  unfold nearest64
  rw [zpow_add₀ (by norm_num : (2 : ℚ) ≠ 0), mul_comm ((2 : ℚ) ^ ulpExp q)]
  have h : (roundEven (q / 2 ^ ulpExp q) : ℚ) ≤ 2 ^ (53 : ℤ) := by
    have := sig_le hq
    have h2 : (roundEven (q / 2 ^ ulpExp q) : ℚ) ≤ ((2 ^ 53 : ℤ) : ℚ) := by exact_mod_cast this
    have h3 : (2 : ℚ) ^ (53 : ℤ) = ((2 ^ 53 : ℤ) : ℚ) := by norm_cast
    rw [h3]
    exact h2
  exact mul_le_mul_of_nonneg_right h (by positivity)

theorem zpow_le_nearest64 {q : ℚ} (hq : 0 < q) (he : ulpExp q ≠ -1074) :
    2 ^ (ulpExp q + 52) ≤ nearest64 q := by
  unfold nearest64
  rw [zpow_add₀ (by norm_num : (2 : ℚ) ≠ 0), mul_comm ((2 : ℚ) ^ ulpExp q)]
  have h : (2 : ℚ) ^ (52 : ℤ) ≤ (roundEven (q / 2 ^ ulpExp q) : ℚ) := by
    have := sig_ge hq he
    have h2 : ((2 ^ 52 : ℤ) : ℚ) ≤ (roundEven (q / 2 ^ ulpExp q) : ℚ) := by exact_mod_cast this
    have h3 : (2 : ℚ) ^ (52 : ℤ) = ((2 ^ 52 : ℤ) : ℚ) := by norm_cast
    rw [h3]
    exact h2
  exact mul_le_mul_of_nonneg_right h (by positivity)

theorem nearest64_mono_nonneg {q r : ℚ} (hq : 0 ≤ q) (h : q ≤ r) :
    nearest64 q ≤ nearest64 r := by
  rcases eq_or_lt_of_le hq with h0 | hpos
  · rw [← h0, nearest64_zero]
    exact nearest64_nonneg (le_trans hq h)
  · have hr : 0 < r := lt_of_lt_of_le hpos h
    rcases eq_or_lt_of_le (ulpExp_mono hpos h) with he | he
    · unfold nearest64
      rw [he]
      have h1 : q / 2 ^ ulpExp r ≤ r / 2 ^ ulpExp r :=
        div_le_div_of_nonneg_right h (by positivity)
      have h2 := roundEven_mono h1
      have h3 : (roundEven (q / 2 ^ ulpExp r) : ℚ) ≤ (roundEven (r / 2 ^ ulpExp r) : ℚ) := by
        exact_mod_cast h2
      exact mul_le_mul_of_nonneg_right h3 (by positivity)
    · have hne : ulpExp r ≠ -1074 := by
        have := ulpExp_ge q
        omega
      have h1 := nearest64_le_zpow hpos
      have h2 := zpow_le_nearest64 hr hne
      have h3 : (2 : ℚ) ^ (ulpExp q + 53) ≤ 2 ^ (ulpExp r + 52) :=
        zpow_le_zpow_right₀ (by norm_num) (by omega)
      linarith

theorem nearest64_mono {q r : ℚ} (h : q ≤ r) : nearest64 q ≤ nearest64 r := by
  rcases le_total 0 q with hq | hq
  · exact nearest64_mono_nonneg hq h
  · rcases le_total 0 r with hr | hr
    · have h1 : nearest64 q ≤ 0 := by
        have := nearest64_nonneg (neg_nonneg.mpr hq)
        rw [nearest64_neg] at this
        linarith
      exact le_trans h1 (nearest64_nonneg hr)
    · have := nearest64_mono_nonneg (neg_nonneg.mpr hr) (neg_le_neg h)
      rw [nearest64_neg, nearest64_neg] at this
      linarith

theorem nearest64_nonpos {q : ℚ} (hq : q ≤ 0) : nearest64 q ≤ 0 := by
  have := nearest64_mono hq
  rwa [nearest64_zero] at this

/-- Every `float64` value `n * 2^e`, normal or subnormal, is a fixed point of
the rounding. -/
theorem nearest64_of_pos (n e : ℤ) (he : -1074 ≤ e) (hn0 : 0 < n) (hn : n < 2 ^ 53)
    (h : e = -1074 ∨ 2 ^ 52 ≤ n) : nearest64 ((n : ℚ) * 2 ^ e) = (n : ℚ) * 2 ^ e := by
  have hnq : (0 : ℚ) < n := by exact_mod_cast hn0
  have hv : (0 : ℚ) < (n : ℚ) * 2 ^ e := by positivity
  have hlt : (n : ℚ) * 2 ^ e < 2 ^ (e + 53) := by
    rw [zpow_add₀ (by norm_num : (2 : ℚ) ≠ 0), mul_comm ((2 : ℚ) ^ e)]
    have h1 : (n : ℚ) < ((2 ^ 53 : ℤ) : ℚ) := by exact_mod_cast hn
    have h3 : (2 : ℚ) ^ (53 : ℤ) = ((2 ^ 53 : ℤ) : ℚ) := by norm_cast
    rw [h3]
    exact mul_lt_mul_of_pos_right h1 (by positivity)
  have hue : ulpExp ((n : ℚ) * 2 ^ e) = e := by
    by_cases h52 : 2 ^ 52 ≤ n
    · have hge : (2 : ℚ) ^ (e + 52) ≤ (n : ℚ) * 2 ^ e := by
        rw [zpow_add₀ (by norm_num : (2 : ℚ) ≠ 0), mul_comm ((2 : ℚ) ^ e)]
        have h1 : ((2 ^ 52 : ℤ) : ℚ) ≤ (n : ℚ) := by exact_mod_cast h52
        have h3 : (2 : ℚ) ^ (52 : ℤ) = ((2 ^ 52 : ℤ) : ℚ) := by norm_cast
        rw [h3]
        exact mul_le_mul_of_nonneg_right h1 (by positivity)
      have := ulpExp_of_bounds (k := e + 52) (by omega) hge (by
        have : e + 52 + 1 = e + 53 := by ring
        rw [this]
        exact hlt)
      omega
    · have he2 : e = -1074 := by
        rcases h with h | h
        · exact h
        · exact absurd h h52
      rw [he2]
      apply ulpExp_of_lt (by positivity)
      have h1 : (n : ℚ) < ((2 ^ 52 : ℤ) : ℚ) := by exact_mod_cast (not_le.mp h52)
      have h3 : (2 : ℚ) ^ (-1022 : ℤ) = ((2 ^ 52 : ℤ) : ℚ) * 2 ^ (-1074 : ℤ) := by
        have : (-1022 : ℤ) = 52 + -1074 := by norm_num
        rw [this, zpow_add₀ (by norm_num : (2 : ℚ) ≠ 0)]
        norm_cast
      rw [h3]
      exact mul_lt_mul_of_pos_right h1 (by positivity)
  unfold nearest64
  rw [hue]
  have : (n : ℚ) * 2 ^ e / 2 ^ e = n := by
    field_simp
  rw [this, roundEven_intCast]

theorem nearest64_of_int (n e : ℤ) (he : -1074 ≤ e) (hn : |n| < 2 ^ 53)
    (h : e = -1074 ∨ 2 ^ 52 ≤ |n|) : nearest64 ((n : ℚ) * 2 ^ e) = (n : ℚ) * 2 ^ e := by
  rcases lt_trichotomy n 0 with hneg | hz | hpos
  · have h1 := nearest64_of_pos (-n) e he (by omega) (by rwa [abs_of_neg hneg] at hn)
      (by rwa [abs_of_neg hneg] at h)
    have h2 : ((-n : ℤ) : ℚ) * 2 ^ e = -((n : ℚ) * 2 ^ e) := by push_cast; ring
    rw [h2, nearest64_neg] at h1
    linarith
  · subst hz
    simp [nearest64_zero]
  · exact nearest64_of_pos n e he hpos (by rwa [abs_of_pos hpos] at hn)
      (by rwa [abs_of_pos hpos] at h)

theorem nearest64_idem_pos {q : ℚ} (hq : 0 < q) : nearest64 (nearest64 q) = nearest64 q := by
  have hN0 := sig_nonneg hq.le
  have hN1 := sig_le hq
  have hE := ulpExp_ge q
  rcases eq_or_lt_of_le hN1 with h53 | hlt
  · have hv : nearest64 q = (((2 : ℤ) ^ 52 : ℤ) : ℚ) * 2 ^ (ulpExp q + 1) := by
      unfold nearest64
      rw [h53, zpow_add₀ (by norm_num : (2 : ℚ) ≠ 0)]
      push_cast
      ring
    rw [hv]
    exact nearest64_of_int _ _ (by omega) (by norm_num) (Or.inr (by norm_num))
  · have hv : nearest64 q = ((roundEven (q / 2 ^ ulpExp q) : ℤ) : ℚ) * 2 ^ ulpExp q := rfl
    rw [hv]
    apply nearest64_of_int _ _ hE
    · rw [abs_of_nonneg hN0]
      exact hlt
    · by_cases he : ulpExp q = -1074
      · exact Or.inl he
      · right
        rw [abs_of_nonneg hN0]
        exact sig_ge hq he

theorem nearest64_idem (q : ℚ) : nearest64 (nearest64 q) = nearest64 q := by
  rcases lt_trichotomy q 0 with hneg | hz | hpos
  · have h := nearest64_idem_pos (neg_pos.mpr hneg)
    rw [nearest64_neg, nearest64_neg] at h
    linarith
  · subst hz
    rw [nearest64_zero, nearest64_zero]
  · exact nearest64_idem_pos hpos

theorem nearest64_maxFloat64 : nearest64 maxFloat64 = maxFloat64 := by
  have h := nearest64_of_int (2 ^ 53 - 1) 971 (by norm_num) (by norm_num) (Or.inr (by norm_num))
  have e : (((2 : ℤ) ^ 53 - 1 : ℤ) : ℚ) * 2 ^ (971 : ℤ) = maxFloat64 := by
    unfold maxFloat64
    rw [show (971 : ℤ) = ((971 : ℕ) : ℤ) from rfl, zpow_natCast]
    push_cast
    ring
  rwa [e] at h

theorem nearest64_abs_le {q : ℚ} (h : |q| ≤ maxFloat64) : |nearest64 q| ≤ maxFloat64 := by
  rw [abs_le] at h ⊢
  constructor
  · have := nearest64_mono h.1
    rwa [nearest64_neg, nearest64_maxFloat64] at this
  · have := nearest64_mono h.2
    rwa [nearest64_maxFloat64] at this

theorem round64_of_abs_le {q : ℚ} (h : |q| ≤ maxFloat64) : round64 q = fin (nearest64 q) := by
  unfold round64
  rw [if_neg (not_lt.mpr (nearest64_abs_le h))]

theorem round64_cases (q : ℚ) :
    round64 q = fin (nearest64 q) ∨ (round64 q = pinf ∧ 0 < q) ∨ (round64 q = ninf ∧ q < 0) := by
  unfold round64
  by_cases h : maxFloat64 < |nearest64 q|
  · rw [if_pos h]
    by_cases hq : 0 < q
    · rw [if_pos hq]
      exact Or.inr (Or.inl ⟨rfl, hq⟩)
    · rw [if_neg hq]
      refine Or.inr (Or.inr ⟨rfl, lt_of_le_of_ne (not_lt.mp hq) ?_⟩)
      rintro rfl
      rw [nearest64_zero, abs_zero] at h
      have : (0 : ℚ) ≤ maxFloat64 := by norm_num [maxFloat64]
      linarith
  · rw [if_neg h]
    exact Or.inl rfl

theorem round64_ne_nan (q : ℚ) : round64 q ≠ nan := by
  rcases round64_cases q with h | h | h
  · rw [h]; simp
  · rw [h.1]; simp
  · rw [h.1]; simp

theorem F64.r64_ne_nan {x : F64} (h : x ≠ nan) : x.r64 ≠ nan := by
  cases x with
  | fin q => exact round64_ne_nan q
  | pinf => simp [F64.r64]
  | ninf => simp [F64.r64]
  | nan => exact absurd rfl h

theorem round64_mono {q r : ℚ} (h : q ≤ r) : round64 q ≤ round64 r := by
  have hn := nearest64_mono h
  have hmax : (0 : ℚ) ≤ maxFloat64 := by norm_num [maxFloat64]
  unfold round64
  by_cases hr : maxFloat64 < |nearest64 r|
  · rw [if_pos hr]
    by_cases hr0 : 0 < r
    · rw [if_pos hr0]
      split_ifs <;> simp [F64.le]
    · rw [if_neg hr0]
      have hr1 : nearest64 r ≤ 0 := nearest64_nonpos (not_lt.mp hr0)
      rw [abs_of_nonpos hr1] at hr
      have hq1 : nearest64 q ≤ 0 := le_trans hn hr1
      have hq : maxFloat64 < |nearest64 q| := by
        rw [abs_of_nonpos hq1]
        linarith
      have hq0 : ¬ 0 < q := fun hc => hr0 (lt_of_lt_of_le hc h)
      rw [if_pos hq, if_neg hq0]
      simp [F64.le]
  · rw [if_neg hr]
    by_cases hq : maxFloat64 < |nearest64 q|
    · rw [if_pos hq]
      by_cases hq0 : 0 < q
      · exfalso
        have h1 := nearest64_nonneg hq0.le
        rw [abs_of_nonneg h1] at hq
        have h2 := le_abs_self (nearest64 r)
        linarith
      · rw [if_neg hq0]
        simp [F64.le]
    · rw [if_neg hq]
      simp [F64.le, hn]

theorem round64_nonneg {q : ℚ} (h : 0 ≤ q) : fin 0 ≤ round64 q := by
  have := round64_mono h
  rwa [round64_zero] at this

theorem round64_nonpos {q : ℚ} (h : q ≤ 0) : round64 q ≤ fin 0 := by
  have := round64_mono h
  rwa [round64_zero] at this

theorem round64_idem {q v : ℚ} (h : round64 q = fin v) : round64 v = fin v := by
  rcases round64_cases q with h1 | h1 | h1
  · rw [h1] at h
    have hv : nearest64 q = v := by injection h
    have hle : ¬ maxFloat64 < |nearest64 q| := by
      intro hc
      unfold round64 at h1
      rw [if_pos hc] at h1
      split_ifs at h1
    unfold round64
    rw [← hv, nearest64_idem, if_neg hle]
  · rw [h1.1] at h
    exact absurd h (by simp)
  · rw [h1.1] at h
    exact absurd h (by simp)

theorem F64.r64_idem (x : F64) : x.r64.r64 = x.r64 := by
  cases x with
  | fin q =>
    show (round64 q).r64 = round64 q
    rcases round64_cases q with h | h | h
    · have := round64_idem h
      rw [h]
      exact this
    · rw [h.1]; rfl
    · rw [h.1]; rfl
  | pinf => rfl
  | ninf => rfl
  | nan => rfl

/-! ### Steps of the program on `float64` -/

theorem bucket.add64_amount (b : bucket) (x : F64) :
    (b.add64 x).amount = clamp b.capacity (b.amount + x).r64 := by
  unfold bucket.add64 clamp
  simp only
  split_ifs <;> rfl

theorem clamp_within {c : ℚ} (h0 : 0 ≤ c) {v : F64} (hv : v ≠ nan) :
    ∃ r, clamp (fin c) v = fin r ∧ 0 ≤ r ∧ r ≤ c := by
  cases v with
  | fin q =>
    by_cases h1 : c < q
    · refine ⟨c, ?_, h0, le_rfl⟩
      simp [clamp, F64.lt, h1, not_lt.mpr h0]
    · by_cases h2 : q < 0
      · refine ⟨0, ?_, le_rfl, h0⟩
        simp [clamp, F64.lt, h1, h2]
      · refine ⟨q, ?_, not_lt.mp h2, not_lt.mp h1⟩
        simp [clamp, F64.lt, h1, h2]
  | pinf =>
    refine ⟨c, ?_, h0, le_rfl⟩
    simp [clamp, F64.lt, not_lt.mpr h0]
  | ninf =>
    refine ⟨0, ?_, le_rfl, h0⟩
    simp [clamp, F64.lt]
  | nan => exact absurd rfl hv

theorem F64.fin_add_ne_nan (a : ℚ) {x : F64} (hx : x ≠ nan) : fin a + x ≠ nan := by
  cases x <;> simp_all [F64.add]

theorem bucket.add64_within {b : bucket} {a c : ℚ} {x : F64} (ha : b.amount = fin a)
    (hc : b.capacity = fin c) (h0 : 0 ≤ c) (hx : x ≠ nan) :
    (b.add64 x).capacity = fin c ∧
      ∃ r, (b.add64 x).amount = fin r ∧ 0 ≤ r ∧ r ≤ c := by
  refine ⟨by rw [bucket.add64_capacity, hc], ?_⟩
  rw [bucket.add64_amount, hc, ha]
  exact clamp_within h0 (F64.r64_ne_nan (F64.fin_add_ne_nan a hx))

/-- One step on `float64` keeps finite amounts within `[0, c]` when neither
product `iflow * dt`, `-oflow * dt` is NaN. -/
theorem advance64_within (H : Host) (w : Wheel) (n : Fin nBuckets) (dt : F64) (c : ℚ)
    (h0 : 0 ≤ c) (h1 : w.iflow * dt ≠ nan) (h2 : (-w.oflow) * dt ≠ nan)
    (hw : ∀ i, (w.bucket i).capacity = fin c ∧
      ∃ a, (w.bucket i).amount = fin a ∧ 0 ≤ a ∧ a ≤ c) (i : Fin nBuckets) :
    ((w.advance64 H n dt).bucket i).capacity = fin c ∧
      ∃ a, ((w.advance64 H n dt).bucket i).amount = fin a ∧ 0 ≤ a ∧ a ≤ c := by
  rw [advance64_bucket]
  split_ifs with hi
  · obtain ⟨hc, a, ha, -, -⟩ := hw n
    obtain ⟨hc1, a1, ha1, -, -⟩ := bucket.add64_within ha hc h0 (F64.r64_ne_nan h1)
    exact bucket.add64_within ha1 hc1 h0 (F64.r64_ne_nan h2)
  · obtain ⟨hc, a, ha, -, -⟩ := hw i
    exact bucket.add64_within ha hc h0 (F64.r64_ne_nan h2)

theorem Run64_inv {H : Host} {w w1 : Wheel} {dt : F64} (h : w.Run64 H dt = some w1) :
    ∃ n : Fin nBuckets, w.topBucket64 H = (n : ℤ) ∧ w1 = w.advance64 H n dt := by
  unfold Wheel.Run64 at h
  simp only at h
  split_ifs at h with hn
  rw [Option.some.injEq] at h
  exact ⟨_, by simp [hn.1], h.symm⟩

theorem advance64_flows (H : Host) (w : Wheel) (n : Fin nBuckets) (dt : F64) :
    (w.advance64 H n dt).iflow = w.iflow ∧ (w.advance64 H n dt).oflow = w.oflow ∧
      (w.advance64 H n dt).arc = w.arc :=
  ⟨rfl, rfl, rfl⟩

theorem runs64_within (H : Host) (c : ℚ) (h0 : 0 ≤ c) (dts : List F64) :
    ∀ {w w1 : Wheel}, (∀ dt ∈ dts, w.iflow * dt ≠ nan ∧ (-w.oflow) * dt ≠ nan) →
      (∀ i, (w.bucket i).capacity = fin c ∧
        ∃ a, (w.bucket i).amount = fin a ∧ 0 ≤ a ∧ a ≤ c) →
      w.runs64 H dts = some w1 →
        ∀ i, (w1.bucket i).capacity = fin c ∧
          ∃ a, (w1.bucket i).amount = fin a ∧ 0 ≤ a ∧ a ≤ c := by
  induction dts with
  | nil =>
    intro w w1 _ hw hr
    simp only [Wheel.runs64, Option.some.injEq] at hr
    rw [← hr]
    exact hw
  | cons dt dts ih =>
    intro w w1 hdt hw hr
    simp only [Wheel.runs64] at hr
    cases hrun : w.Run64 H dt with
    | none => simp [hrun] at hr
    | some w2 =>
      rw [hrun, Option.some_bind] at hr
      obtain ⟨n, -, rfl⟩ := Run64_inv hrun
      have hd := hdt dt (List.mem_cons_self _ _)
      exact ih (w := w.advance64 H n dt)
        (fun d hd' => hdt d (List.mem_cons_of_mem _ hd'))
        (advance64_within H w n dt c h0 hd.1 hd.2 hw) hr

/-- The product `10 * iflow` that `New` stores as the capacity, when it does
not overflow. -/
theorem New64_capacity (iflow oflow : ℚ) (hi : 0 ≤ iflow) (hcap : 10 * iflow ≤ maxFloat64)
    (k : Fin nBuckets) :
    (New64 (fin iflow) (fin oflow)).bucket k
      = { amount := fin 0, capacity := fin (nearest64 (10 * iflow)) } ∧
        0 ≤ nearest64 (10 * iflow) := by
  rw [New64_bucket]
  have h0 : (0 : ℚ) ≤ 10 * iflow := by positivity
  have h : (fin 10 * fin iflow).r64 = fin (nearest64 (10 * iflow)) :=
    round64_of_abs_le (by rwa [abs_of_nonneg h0])
  rw [h]
  exact ⟨rfl, nearest64_nonneg h0⟩

theorem nearest64_zpow {k : ℤ} (h1 : -1022 ≤ k) : nearest64 (2 ^ k) = 2 ^ k := by
  have h := nearest64_of_int (2 ^ 52) (k - 52) (by omega) (by norm_num) (Or.inr (by norm_num))
  have e : (((2 : ℤ) ^ 52 : ℤ) : ℚ) * 2 ^ (k - 52) = 2 ^ k := by
    have : k = 52 + (k - 52) := by ring
    conv_rhs => rw [this, zpow_add₀ (by norm_num : (2 : ℚ) ≠ 0)]
    norm_cast
  rwa [e] at h

/-- A sum of a non-negative accumulator `a <= 2^j` and `tau / 8` rounds to a
finite value at most `2^(j+1)`. -/
theorem angle_step {a : ℚ} {j : ℕ} (h0 : 0 ≤ a) (h1 : a ≤ 2 ^ j) (hj : j ≤ 10) :
    ∃ b, (fin a + fin (tau / 8)).r64 = fin b ∧ 0 ≤ b ∧ b ≤ 2 ^ (j + 1) := by
  have ht : 0 < tau / 8 ∧ tau / 8 ≤ 1 := by
    constructor <;> norm_num [tau]
  have hone : (1 : ℚ) ≤ 2 ^ j := one_le_pow₀ (by norm_num)
  have hle : a + tau / 8 ≤ 2 ^ (j + 1) := by
    rw [pow_succ]
    linarith [ht.2]
  have hnn : 0 ≤ a + tau / 8 := by linarith [ht.1]
  have hpow : (2 : ℚ) ^ (j + 1) ≤ 2 ^ 11 := pow_le_pow_right₀ (by norm_num) (by omega)
  have hmax : (2 : ℚ) ^ 11 ≤ maxFloat64 := by norm_num [maxFloat64]
  have hr : (fin a + fin (tau / 8)).r64 = fin (nearest64 (a + tau / 8)) :=
    round64_of_abs_le (by rw [abs_of_nonneg hnn]; linarith)
  refine ⟨_, hr, nearest64_nonneg hnn, ?_⟩
  have h2 := nearest64_mono hle
  have h3 : nearest64 ((2 : ℚ) ^ (j + 1)) = 2 ^ (j + 1) := by
    have := nearest64_zpow (k := ((j + 1 : ℕ) : ℤ)) (by omega)
    rwa [zpow_natCast] at this
  rwa [h3] at h2

/-- One iteration of the third loop on `float64` whose product `amount *
sin(angle)` is zero and whose inertia sum is exact. -/
theorem sumsBody64_zero (H : Host) (w : Wheel) (bs : Fin nBuckets → bucket)
    (k : Fin nBuckets) (s : Sums) (A A1 m a : ℚ) (j : ℕ) (harc : w.arc = fin (tau / 8))
    (hai : s.ai = fin A) (ht : s.torque = fin 0) (ha : s.angle = fin a)
    (ha0 : 0 ≤ a) (ha1 : a ≤ 2 ^ j) (hj : j ≤ 10)
    (hm : (bs k).amount = fin m) (hprod : m * H.sin a = 0)
    (hsum : round64 (A + m) = fin A1) :
    (w.sumsBody64 H bs k s).ai = fin A1 ∧ (w.sumsBody64 H bs k s).torque = fin 0 ∧
      ∃ b, (w.sumsBody64 H bs k s).angle = fin b ∧ 0 ≤ b ∧ b ≤ 2 ^ (j + 1) := by
  refine ⟨?_, ?_, ?_⟩
  · show (s.ai + (bs k).amount).r64 = fin A1
    rw [hai, hm]
    exact hsum
  · show (s.torque + ((bs k).amount * Sin H s.angle).r64).r64 = fin 0
    rw [ht, hm, ha]
    show (fin 0 + (round64 (m * H.sin a))).r64 = fin 0
    rw [hprod, round64_zero]
    show round64 (0 + 0) = fin 0
    rw [add_zero, round64_zero]
  · show ∃ b, (s.angle + w.arc).r64 = fin b ∧ 0 ≤ b ∧ b ≤ 2 ^ (j + 1)
    rw [ha, harc]
    exact angle_step ha0 ha1 hj

/-- The third loop on `float64` at `theta = 0` when only bucket 0 holds water,
a `float64` amount `a0`: the inertia is `a0` and the torque is `0`. -/
theorem sums64_single (H : Host) (w : Wheel) (bs : Fin nBuckets → bucket) (a0 : ℚ)
    (hθ : w.theta = fin 0) (harc : w.arc = fin (tau / 8))
    (h0 : (bs 0).amount = fin a0) (hf : round64 a0 = fin a0)
    (hk : ∀ k, k ≠ 0 → (bs k).amount = fin 0) :
    (w.sums64 H bs).ai = fin a0 ∧ (w.sums64 H bs).torque = fin 0 := by
  unfold Wheel.sums64
  rw [forRange_unroll]
  have hs1 : round64 (0 + a0) = fin a0 := by rwa [zero_add]
  have hs2 : round64 (a0 + 0) = fin a0 := by rwa [add_zero]
  obtain ⟨i0, t0, b0, g0, p0, q0⟩ := sumsBody64_zero H w bs 0
    { ai := fin 0, torque := fin 0, angle := w.theta } 0 a0 a0 0 0 harc rfl rfl hθ
    le_rfl (by norm_num) (by norm_num) h0 (by rw [H.sin_zero, mul_zero]) hs1
  obtain ⟨i1, t1, b1, g1, p1, q1⟩ := sumsBody64_zero H w bs 1 _ a0 a0 0 b0 1 harc i0 t0 g0
    p0 q0 (by norm_num) (hk 1 (by decide)) (zero_mul _) hs2
  obtain ⟨i2, t2, b2, g2, p2, q2⟩ := sumsBody64_zero H w bs 2 _ a0 a0 0 b1 2 harc i1 t1 g1
    p1 q1 (by norm_num) (hk 2 (by decide)) (zero_mul _) hs2
  obtain ⟨i3, t3, b3, g3, p3, q3⟩ := sumsBody64_zero H w bs 3 _ a0 a0 0 b2 3 harc i2 t2 g2
    p2 q2 (by norm_num) (hk 3 (by decide)) (zero_mul _) hs2
  obtain ⟨i4, t4, b4, g4, p4, q4⟩ := sumsBody64_zero H w bs 4 _ a0 a0 0 b3 4 harc i3 t3 g3
    p3 q3 (by norm_num) (hk 4 (by decide)) (zero_mul _) hs2
  obtain ⟨i5, t5, b5, g5, p5, q5⟩ := sumsBody64_zero H w bs 5 _ a0 a0 0 b4 5 harc i4 t4 g4
    p4 q4 (by norm_num) (hk 5 (by decide)) (zero_mul _) hs2
  obtain ⟨i6, t6, b6, g6, p6, q6⟩ := sumsBody64_zero H w bs 6 _ a0 a0 0 b5 6 harc i5 t5 g5
    p5 q5 (by norm_num) (hk 6 (by decide)) (zero_mul _) hs2
  obtain ⟨i7, t7, -⟩ := sumsBody64_zero H w bs 7 _ a0 a0 0 b6 7 harc i6 t6 g6
    p6 q6 (by norm_num) (hk 7 (by decide)) (zero_mul _) hs2
  exact ⟨i7, t7⟩

theorem F64.fin_zero_add (x : F64) : fin 0 + x = x := by
  cases x <;> simp [F64.add]

theorem F64.add_fin_zero (x : F64) : x + fin 0 = x := by
  cases x <;> simp [F64.add]

theorem clamp_nonpos {c : ℚ} (h0 : 0 ≤ c) {v : F64} (hv : v ≤ fin 0) :
    clamp (fin c) v = fin 0 := by
  cases v with
  | fin q =>
    have hq : q ≤ 0 := by simpa [F64.le] using hv
    have h1 : ¬ c < q := not_lt.mpr (le_trans hq h0)
    rcases eq_or_lt_of_le hq with h | h
    · subst h
      simp [clamp, F64.lt, h1]
    · simp [clamp, F64.lt, h1, h]
  | pinf => simp [F64.le] at hv
  | ninf => simp [clamp, F64.lt]
  | nan => simp [F64.le] at hv

theorem clamp_id {c q : ℚ} (h0 : 0 ≤ q) (h1 : q ≤ c) : clamp (fin c) (fin q) = fin q := by
  simp [clamp, F64.lt, not_lt.mpr h0, not_lt.mpr h1]

/-- The first step from `New(iflow, oflow)` on `float64`, bucket by bucket. -/
theorem first_step_buckets (H : Host) (iflow oflow dt : ℚ)
    (ho : 0 ≤ oflow) (hi : 0 ≤ iflow) (hdt : 0 ≤ dt) (hdt10 : dt ≤ 10)
    (hcap : 10 * iflow ≤ maxFloat64) :
    ∃ x y c, (fin iflow * fin dt).r64 = fin x ∧ ((-fin oflow) * fin dt).r64 = y ∧
      y ≤ fin 0 ∧ 0 ≤ x ∧ x ≤ c ∧ round64 x = fin x ∧
      (∀ k, ((New64 (fin iflow) (fin oflow)).advance64 H 0 (fin dt)).bucket k
        = { amount := clamp (fin c) ((if k = 0 then fin x else fin 0) + y).r64,
            capacity := fin c }) := by
  have h0 : (0 : ℚ) ≤ 10 * iflow := by positivity
  have hx0 : 0 ≤ iflow * dt := by positivity
  have hxle : iflow * dt ≤ 10 * iflow := by nlinarith
  have hX : (fin iflow * fin dt).r64 = fin (nearest64 (iflow * dt)) :=
    round64_of_abs_le (by rw [abs_of_nonneg hx0]; linarith)
  have hXf : round64 (nearest64 (iflow * dt)) = fin (nearest64 (iflow * dt)) :=
    round64_idem hX
  have hY : ((-fin oflow) * fin dt).r64 ≤ fin 0 := by
    show round64 (-oflow * dt) ≤ fin 0
    apply round64_nonpos
    have : 0 ≤ oflow * dt := by positivity
    linarith
  have hxc := nearest64_mono hxle
  have hx0' := nearest64_nonneg hx0
  refine ⟨_, _, nearest64 (10 * iflow), hX, rfl, hY, hx0', hxc, hXf, fun k => ?_⟩
  have hc := fun j => (New64_capacity iflow oflow hi hcap j).1
  rw [advance64_bucket, hc 0, hc k]
  have hfill : bucket.add64 { amount := fin 0, capacity := fin (nearest64 (10 * iflow)) }
      ((New64 (fin iflow) (fin oflow)).iflow * fin dt).r64
      = { amount := fin (nearest64 (iflow * dt)), capacity := fin (nearest64 (10 * iflow)) } := by
    have e : ((New64 (fin iflow) (fin oflow)).iflow * fin dt).r64
        = fin (nearest64 (iflow * dt)) := hX
    rw [e]
    have ha := bucket.add64_amount
      { amount := fin 0, capacity := fin (nearest64 (10 * iflow)) } (fin (nearest64 (iflow * dt)))
    have hcp := bucket.add64_capacity
      { amount := fin 0, capacity := fin (nearest64 (10 * iflow)) } (fin (nearest64 (iflow * dt)))
    simp only [F64.fin_zero_add] at ha
    rw [show (fin (nearest64 (iflow * dt))).r64 = round64 (nearest64 (iflow * dt)) from rfl,
      hXf, clamp_id hx0' hxc] at ha
    cases hb : bucket.add64 { amount := fin 0, capacity := fin (nearest64 (10 * iflow)) }
      (fin (nearest64 (iflow * dt))) with
    | mk am cp =>
      rw [hb] at ha hcp
      simp only at ha hcp
      rw [ha, hcp]
  have hdrain : ∀ b : bucket, b.add64 ((-(New64 (fin iflow) (fin oflow)).oflow) * fin dt).r64
      = { amount := clamp b.capacity (b.amount + ((-fin oflow) * fin dt).r64).r64,
          capacity := b.capacity } := by
    intro b
    have ha := bucket.add64_amount b ((-(New64 (fin iflow) (fin oflow)).oflow) * fin dt).r64
    have hcp := bucket.add64_capacity b ((-(New64 (fin iflow) (fin oflow)).oflow) * fin dt).r64
    cases hb : b.add64 ((-(New64 (fin iflow) (fin oflow)).oflow) * fin dt).r64 with
    | mk am cp =>
      rw [hb] at ha hcp
      simp only at ha hcp
      rw [ha, hcp]
      rfl
  by_cases hk : k = 0
  · rw [if_pos hk, if_pos hk, hfill, hdrain]
  · rw [if_neg hk, if_neg hk, hdrain]

/-! ### The reference run `New(1.0, 0.2)`, `Run(0.00001)` on `float64` -/

theorem round64_seed : round64 (1 / 100) = fin (5764607523034235 / 2 ^ 59) := by
  have he := ulpExp_eval (1 / 100) (-7) (by norm_num [abs_of_pos])
    (by norm_num [abs_of_pos]) (by norm_num)
  have hn : roundEven (1 / 100 / 2 ^ (-7 - 52 : ℤ)) = 5764607523034235 := by
    rw [roundEven_eval _ 5764607523034234 (by norm_num) (by norm_num)]
    norm_num
  rw [round64_eval _ _ _ he hn (by norm_num [maxFloat64, abs_of_pos])]
  norm_num

theorem round64_ref_inflow : (fin 1 * fin dtRef).r64 = fin dtRef := by
  show round64 (1 * dtRef) = fin dtRef
  have he := ulpExp_eval (1 * dtRef) (-17) (by norm_num [dtRef, abs_of_pos])
    (by norm_num [dtRef, abs_of_pos]) (by norm_num)
  have hn : roundEven (1 * dtRef / 2 ^ (-17 - 52 : ℤ)) = 5902958103587057 := by
    rw [roundEven_eval _ 5902958103587057 (by norm_num [dtRef]) (by norm_num [dtRef])]
    norm_num [dtRef]
  rw [round64_eval _ _ _ he hn (by norm_num [maxFloat64, abs_of_pos])]
  norm_num [dtRef]

theorem round64_ref_outflow :
    ((-fin oflowRef) * fin dtRef).r64 = fin (-2361183241434823 / 2 ^ 70) := by
  show round64 (-oflowRef * dtRef) = _
  have he := ulpExp_eval (-oflowRef * dtRef) (-19) (by norm_num [oflowRef, dtRef, abs_of_neg])
    (by norm_num [oflowRef, dtRef, abs_of_neg]) (by norm_num)
  have hn : roundEven (-oflowRef * dtRef / 2 ^ (-19 - 52 : ℤ)) = -4722366482869646 := by
    rw [roundEven_eval _ (-4722366482869646) (by norm_num [oflowRef, dtRef])
      (by norm_num [oflowRef, dtRef])]
    norm_num [oflowRef, dtRef]
  rw [round64_eval _ _ _ he hn (by norm_num [maxFloat64, abs_of_pos])]
  norm_num

theorem round64_ref_left :
    (fin dtRef + fin (-2361183241434823 / 2 ^ 70)).r64 = fin (2361183241434823 / 2 ^ 68) := by
  show round64 (dtRef + -2361183241434823 / 2 ^ 70) = _
  have he := ulpExp_eval (dtRef + -2361183241434823 / 2 ^ 70) (-17)
    (by norm_num [dtRef, abs_of_pos]) (by norm_num [dtRef, abs_of_pos]) (by norm_num)
  have hn : roundEven ((dtRef + -2361183241434823 / 2 ^ 70) / 2 ^ (-17 - 52 : ℤ))
      = 4722366482869646 := by
    rw [roundEven_eval _ 4722366482869645 (by norm_num [dtRef]) (by norm_num [dtRef])]
    norm_num [dtRef]
  rw [round64_eval _ _ _ he hn (by norm_num [maxFloat64, abs_of_pos])]
  norm_num

theorem round64_ref_theta :
    (fin (5764607523034235 / 2 ^ 59) * fin dtRef).r64 = fin (7555786372591433 / 2 ^ 76) := by
  show round64 (5764607523034235 / 2 ^ 59 * dtRef) = _
  have he := ulpExp_eval (5764607523034235 / 2 ^ 59 * dtRef) (-24)
    (by norm_num [dtRef, abs_of_pos]) (by norm_num [dtRef, abs_of_pos]) (by norm_num)
  have hn : roundEven (5764607523034235 / 2 ^ 59 * dtRef / 2 ^ (-24 - 52 : ℤ))
      = 7555786372591433 := by
    rw [roundEven_eval _ 7555786372591433 (by norm_num [dtRef]) (by norm_num [dtRef])]
    norm_num [dtRef]
  rw [round64_eval _ _ _ he hn (by norm_num [maxFloat64, abs_of_pos])]
  norm_num

/-- The first step from `New(iflow, oflow)` on `float64`. -/
theorem New64_first_step (H : Host) (iflow oflow dt : ℚ)
    (hio : oflow < iflow) (ho : 0 ≤ oflow) (hdt : 0 < dt) (hdt10 : dt ≤ 10)
    (hcap : 10 * iflow ≤ maxFloat64)
    (hpos : fin 0 < ((fin iflow * fin dt).r64 + ((-fin oflow) * fin dt).r64).r64) :
    ∃ w1, (New64 (fin iflow) (fin oflow)).Run64 H (fin dt) = some w1 ∧
      (w1.bucket 0).amount = ((fin iflow * fin dt).r64 + ((-fin oflow) * fin dt).r64).r64 ∧
      (∀ k : Fin nBuckets, k ≠ 0 → (w1.bucket k).amount = fin 0) ∧
      ((New64 (fin iflow) (fin oflow)).sums64 H w1.bucket).torque = fin 0 ∧
      w1.av = round64 (1 / 100) ∧ w1.theta = (round64 (1 / 100) * fin dt).r64 := by
  have hi : 0 ≤ iflow := le_trans ho hio.le
  obtain ⟨x, y, c, hX, hY, hy0, hx0, hxc, hxf, hb⟩ :=
    first_step_buckets H iflow oflow dt ho hi hdt.le hdt10 hcap
  rw [hX, hY] at hpos ⊢
  -- the outflow of the step is a finite non-positive value
  obtain ⟨yq, rfl, hyq⟩ : ∃ yq, y = fin yq ∧ yq ≤ 0 := by
    cases y with
    | fin q => exact ⟨q, rfl, by simpa [F64.le] using hy0⟩
    | pinf => simp [F64.le] at hy0
    | ninf => simp [F64.add, F64.r64, F64.lt] at hpos
    | nan => simp [F64.le] at hy0
  -- the water left in bucket 0 is a positive `float64` at most the inflow
  have hle : round64 (x + yq) ≤ fin x := by
    have := round64_mono (show x + yq ≤ x by linarith)
    rwa [hxf] at this
  obtain ⟨z, hz, hz0, hzx⟩ : ∃ z, round64 (x + yq) = fin z ∧ 0 < z ∧ z ≤ x := by
    have hp : fin 0 < round64 (x + yq) := hpos
    cases hr : round64 (x + yq) with
    | fin q =>
      rw [hr] at hp hle
      exact ⟨q, rfl, by simpa [F64.lt] using hp, by simpa [F64.le] using hle⟩
    | pinf => rw [hr] at hle; simp [F64.le] at hle
    | ninf => rw [hr] at hp; simp [F64.lt] at hp
    | nan => rw [hr] at hp; simp [F64.lt] at hp
  have hzf : round64 z = fin z := round64_idem hz
  have hsum : (fin x + fin yq).r64 = fin z := hz
  have hb0 : (((New64 (fin iflow) (fin oflow)).advance64 H 0 (fin dt)).bucket 0).amount
      = fin z := by
    rw [hb 0]
    simp only [if_true]
    rw [hsum]
    exact clamp_id hz0.le (le_trans hzx hxc)
  have hbk : ∀ k : Fin nBuckets, k ≠ 0 →
      (((New64 (fin iflow) (fin oflow)).advance64 H 0 (fin dt)).bucket k).amount = fin 0 := by
    intro k hk
    rw [hb k]
    simp only [if_neg hk]
    apply clamp_nonpos (le_trans hx0 hxc)
    show round64 (0 + yq) ≤ fin 0
    exact round64_nonpos (by linarith)
  obtain ⟨hai, htq⟩ := sums64_single H (New64 (fin iflow) (fin oflow))
    ((New64 (fin iflow) (fin oflow)).advance64 H 0 (fin dt)).bucket z rfl (New64_arc _ _)
    hb0 hzf hbk
  have haa : (New64 (fin iflow) (fin oflow)).aa64 H
      ((New64 (fin iflow) (fin oflow)).advance64 H 0 (fin dt)).bucket = fin 0 := by
    unfold Wheel.aa64
    rw [hai, htq]
    show (F64.div (fin 0) (fin z)).r64 = fin 0
    simp only [F64.div, hz0.ne', if_false, zero_div]
    exact round64_zero
  obtain ⟨v, hv⟩ : ∃ v, round64 (1 / 100) = fin v := by
    have : |(1 / 100 : ℚ)| ≤ maxFloat64 := by norm_num [maxFloat64, abs_of_pos]
    exact ⟨_, round64_of_abs_le this⟩
  have hav : ((New64 (fin iflow) (fin oflow)).advance64 H 0 (fin dt)).av
      = round64 (1 / 100) := by
    show ((New64 (fin iflow) (fin oflow)).av
      + ((New64 (fin iflow) (fin oflow)).aa64 H
          ((New64 (fin iflow) (fin oflow)).advance64 H 0 (fin dt)).bucket * fin dt).r64).r64
      = round64 (1 / 100)
    rw [haa]
    show (round64 (1 / 100) + (round64 (0 * dt))).r64 = round64 (1 / 100)
    rw [zero_mul, round64_zero, F64.add_fin_zero, hv]
    exact round64_idem hv
  refine ⟨_, Run64_of_top H _ (fin dt) 0 (topBucket64_zero H _ rfl (New64_arc _ _)),
    by rw [hb0, hsum], hbk, htq, hav, ?_⟩
  show ((New64 (fin iflow) (fin oflow)).theta
    + (((New64 (fin iflow) (fin oflow)).advance64 H 0 (fin dt)).av * fin dt).r64).r64
    = (round64 (1 / 100) * fin dt).r64
  rw [hav]
  show (fin 0 + (round64 (1 / 100) * fin dt).r64).r64 = (round64 (1 / 100) * fin dt).r64
  rw [F64.fin_zero_add, F64.r64_idem]
/-- With every bucket empty the third loop of `Run` on `float64` ends with
`ai = 0` and a torque that is `0` or NaN, and the quotient is NaN. -/
theorem aa64_empty (H : Host) (w : Wheel) (bs : Fin nBuckets → bucket)
    (hm : ∀ i, (bs i).amount = fin 0) :
    (w.sums64 H bs).ai = fin 0 ∧ w.aa64 H bs = nan := by
  have hP : (w.sums64 H bs).ai = fin 0 ∧
      ((w.sums64 H bs).torque = fin 0 ∨ (w.sums64 H bs).torque = nan) := by
    unfold Wheel.sums64 forRange
    apply foldl_inv (fun s : Sums => s.ai = fin 0 ∧ (s.torque = fin 0 ∨ s.torque = nan))
    · exact ⟨rfl, Or.inl rfl⟩
    · rintro s k ⟨h1, h2⟩
      simp only [Wheel.sumsBody64, hm, h1]
      refine ⟨by simp [F64.add, F64.r64, round64_zero], ?_⟩
      rcases h2 with h2 | h2 <;> rw [h2] <;> cases Sin H s.angle <;>
        simp [F64.add, F64.mul, F64.scaleInf, F64.r64, round64_zero]
  refine ⟨hP.1, ?_⟩
  unfold Wheel.aa64
  rw [hP.1]
  rcases hP.2 with h | h <;> rw [h] <;> simp [F64.div, F64.r64]

theorem advance64_empty (H : Host) (w : Wheel) (n : Fin nBuckets) (dt : F64)
    (hm : ∀ i, ((w.advance64 H n dt).bucket i).amount = fin 0) :
    (w.advance64 H n dt).av = nan ∧ (w.advance64 H n dt).theta = nan := by
  have hav : (w.advance64 H n dt).av
      = (w.av + (w.aa64 H (w.advance64 H n dt).bucket * dt).r64).r64 := rfl
  have hth : (w.advance64 H n dt).theta
      = (w.theta + ((w.advance64 H n dt).av * dt).r64).r64 := rfl
  have h1 : (w.advance64 H n dt).av = nan := by
    rw [hav, (aa64_empty H w _ hm).2, F64.nan_mul, F64.r64_nan, F64.add_nan, F64.r64_nan]
  exact ⟨h1, by rw [hth, h1, F64.nan_mul, F64.r64_nan, F64.add_nan, F64.r64_nan]⟩

theorem round64_half_min : round64 (2 ^ (-1074 : ℤ) * (1 / 2)) = fin 0 := by
  have he : ulpExp (2 ^ (-1074 : ℤ) * (1 / 2)) = -1074 :=
    ulpExp_of_lt (by positivity) (by
      have h : (2 : ℚ) ^ (-1074 : ℤ) < 2 ^ (-1022 : ℤ) :=
        zpow_lt_zpow_right₀ (by norm_num) (by norm_num)
      have h0 : (0 : ℚ) < 2 ^ (-1074 : ℤ) := by positivity
      linarith)
  have hn : roundEven (2 ^ (-1074 : ℤ) * (1 / 2) / 2 ^ (-1074 : ℤ)) = 0 := by
    have e : (2 : ℚ) ^ (-1074 : ℤ) * (1 / 2) / 2 ^ (-1074 : ℤ) = 1 / 2 := by
      field_simp
    rw [e, roundEven_eval _ 0 (by norm_num) (by norm_num)]
    norm_num
  rw [round64_eval _ _ _ he hn (by norm_num [maxFloat64])]
  norm_num

theorem round64_8e6 : round64 (8 / 1000000) = fin (4722366482869645 / 2 ^ 69) := by
  have he := ulpExp_eval (8 / 1000000) (-17) (by norm_num [abs_of_pos])
    (by norm_num [abs_of_pos]) (by norm_num)
  have hn : roundEven (8 / 1000000 / 2 ^ (-17 - 52 : ℤ)) = 4722366482869645 := by
    rw [roundEven_eval _ 4722366482869645 (by norm_num) (by norm_num)]
    norm_num
  rw [round64_eval _ _ _ he hn (by norm_num [maxFloat64, abs_of_pos])]
  norm_num

theorem round64_1e7 : round64 (1 / 10000000) = fin (7555786372591432 / 2 ^ 76) := by
  have he := ulpExp_eval (1 / 10000000) (-24) (by norm_num [abs_of_pos])
    (by norm_num [abs_of_pos]) (by norm_num)
  have hn : roundEven (1 / 10000000 / 2 ^ (-24 - 52 : ℤ)) = 7555786372591432 := by
    rw [roundEven_eval _ 7555786372591432 (by norm_num) (by norm_num)]
    norm_num
  rw [round64_eval _ _ _ he hn (by norm_num [maxFloat64, abs_of_pos])]
  norm_num

/-- The reference run `New(1.0, 0.2)`, `Run(0.00001)` on `float64`. -/
theorem reference_first_step :
    ∃ w1, (New64 (fin 1) (fin oflowRef)).Run64 sampleHost (fin dtRef) = some w1 ∧
      (w1.bucket 0).amount = fin (2361183241434823 / 2 ^ 68) ∧
      (∀ k : Fin nBuckets, k ≠ 0 → (w1.bucket k).amount = fin 0) ∧
      ((New64 (fin 1) (fin oflowRef)).sums64 sampleHost w1.bucket).torque = fin 0 ∧
      w1.av = fin (5764607523034235 / 2 ^ 59) ∧
      w1.theta = fin (7555786372591433 / 2 ^ 76) := by
  have h := New64_first_step sampleHost 1 oflowRef dtRef (by norm_num [oflowRef])
    (by norm_num [oflowRef]) (by norm_num [dtRef]) (by norm_num [dtRef])
    (by norm_num [maxFloat64])
    (by
      rw [round64_ref_inflow, round64_ref_outflow, round64_ref_left]
      norm_num [F64.lt])
  rw [round64_ref_inflow, round64_ref_outflow, round64_ref_left, round64_seed,
    round64_ref_theta] at h
  exact h

/-- The first step `Run(2)` of `New(2^1023, 0)` on `float64`: bucket 0 holds
`+Inf`. -/
theorem overflow_first_step (H : Host) :
    (((New64 (fin (2 ^ 1023)) (fin 0)).advance64 H 0 (fin 2)).bucket 0).amount = pinf := by
  show ((New64 (fin (2 ^ 1023)) (fin 0)).drain64
    ((New64 (fin (2 ^ 1023)) (fin 0)).fill64 0 (fin 2)) (fin 2) 0).amount = pinf
  rw [drain64_apply, overflow_fill]
  have hx : ((-(New64 (fin (2 ^ 1023)) (fin 0)).oflow) * fin 2).r64 = fin 0 := by
    show round64 (-0 * 2) = fin 0
    rw [neg_zero, zero_mul, round64_zero]
  rw [hx]
  simp [bucket.add64, F64.add, F64.r64, F64.lt]

/-- The first step `Run(0.5)` of `New(2^-1074, 0)` on `float64`: the inflow
rounds to `0` and every bucket stays empty. -/
theorem underflow_first_step (H : Host) (k : Fin nBuckets) :
    (((New64 (fin (2 ^ (-1074 : ℤ))) (fin 0)).advance64 H 0 (fin (1 / 2))).bucket k).amount
      = fin 0 := by
  have hle : (2 : ℚ) ^ (-1074 : ℤ) ≤ 1 := by
    have : (2 : ℚ) ^ (-1074 : ℤ) ≤ 2 ^ (0 : ℤ) := zpow_le_zpow_right₀ (by norm_num) (by norm_num)
    simpa using this
  have hmax : (10 : ℚ) ≤ maxFloat64 := by norm_num [maxFloat64]
  obtain ⟨x, y, c, hX, hY, -, hx0, hxc, -, hb⟩ :=
    first_step_buckets H (2 ^ (-1074 : ℤ)) 0 (1 / 2) le_rfl (by positivity) (by norm_num)
      (by norm_num) (by linarith)
  have hx : x = 0 := by
    have h1 : (fin (2 ^ (-1074 : ℤ)) * fin (1 / 2)).r64 = fin 0 := round64_half_min
    rw [h1] at hX
    injection hX with hX
    exact hX.symm
  have hy : y = fin 0 := by
    rw [← hY]
    show round64 (-0 * (1 / 2)) = fin 0
    rw [neg_zero, zero_mul, round64_zero]
  rw [hb k, hx, hy]
  simp only [ite_self]
  show clamp (fin c) (round64 (0 + 0)) = fin 0
  rw [add_zero, round64_zero]
  exact clamp_id le_rfl (by linarith)

/-! ### The third loop on `float64` as two sums -/

theorem sumsAt64_angle (H : Host) (w : Wheel) (bs : Fin nBuckets → bucket) (k : ℕ)
    (hk : k ≤ nBuckets) : (w.sumsAt64 H bs k).angle = w.angle64 k := by
  unfold Wheel.sumsAt64
  rw [finRange8]
  have h8 : k ≤ 8 := hk
  interval_cases k <;> rfl

theorem sums64_eq_sum (H : Host) (w : Wheel) (bs : Fin nBuckets → bucket) :
    (w.sums64 H bs).ai = F64.sum64 ((List.finRange nBuckets).map fun i => (bs i).amount) ∧
      (w.sums64 H bs).torque = F64.sum64 ((List.finRange nBuckets).map fun i =>
        ((bs i).amount * Sin H (w.angle64 i)).r64) := by
  unfold Wheel.sums64
  rw [forRange_unroll, finRange8]
  constructor <;> rfl

/-- The accumulator `angle` at bucket 2 and the closed form `theta + 2 * arc`
on `float64`, at the angle `1.0000000000000001e-07` the reference run reaches
in its first step. -/
theorem angle64_reference (w : Wheel) (hθ : w.theta = fin (7555786372591433 / 2 ^ 76))
    (harc : w.arc = fin (tau / 8)) :
    w.angle64 2 = fin (3537119101194201 / 2 ^ 51) ∧
      (w.theta + (fin 2 * w.arc).r64).r64 = fin (7074238202388403 / 2 ^ 52) := by
  have e1 : round64 (7555786372591433 / 2 ^ 76 + tau / 8)
      = fin (7074238652748365 / 2 ^ 53) := by
    have he := ulpExp_eval (7555786372591433 / 2 ^ 76 + tau / 8) (-1)
      (by norm_num [tau, abs_of_pos]) (by norm_num [tau, abs_of_pos]) (by norm_num)
    have hn : roundEven ((7555786372591433 / 2 ^ 76 + tau / 8) / 2 ^ (-1 - 52 : ℤ))
        = 7074238652748365 := by
      rw [roundEven_eval _ 7074238652748365 (by norm_num [tau]) (by norm_num [tau])]
      norm_num [tau]
    rw [round64_eval _ _ _ he hn (by norm_num [maxFloat64, abs_of_pos])]
    norm_num
  have e2 : round64 (7074238652748365 / 2 ^ 53 + tau / 8)
      = fin (3537119101194201 / 2 ^ 51) := by
    have he := ulpExp_eval (7074238652748365 / 2 ^ 53 + tau / 8) 0
      (by norm_num [tau, abs_of_pos]) (by norm_num [tau, abs_of_pos]) (by norm_num)
    have hn : roundEven ((7074238652748365 / 2 ^ 53 + tau / 8) / 2 ^ (0 - 52 : ℤ))
        = 7074238202388402 := by
      rw [roundEven_eval _ 7074238202388402 (by norm_num [tau]) (by norm_num [tau])]
      norm_num [tau]
    rw [round64_eval _ _ _ he hn (by norm_num [maxFloat64, abs_of_pos])]
    norm_num
  have e3 : round64 (2 * (tau / 8)) = fin (tau / 4) := by
    have he := ulpExp_eval (2 * (tau / 8)) 0
      (by norm_num [tau, abs_of_pos]) (by norm_num [tau, abs_of_pos]) (by norm_num)
    have hn : roundEven (2 * (tau / 8) / 2 ^ (0 - 52 : ℤ)) = 7074237752028440 := by
      rw [roundEven_eval _ 7074237752028440 (by norm_num [tau]) (by norm_num [tau])]
      norm_num [tau]
    rw [round64_eval _ _ _ he hn (by norm_num [maxFloat64, abs_of_pos])]
    norm_num [tau]
  have e4 : round64 (7555786372591433 / 2 ^ 76 + tau / 4)
      = fin (7074238202388403 / 2 ^ 52) := by
    have he := ulpExp_eval (7555786372591433 / 2 ^ 76 + tau / 4) 0
      (by norm_num [tau, abs_of_pos]) (by norm_num [tau, abs_of_pos]) (by norm_num)
    have hn : roundEven ((7555786372591433 / 2 ^ 76 + tau / 4) / 2 ^ (0 - 52 : ℤ))
        = 7074238202388403 := by
      rw [roundEven_eval _ 7074238202388402 (by norm_num [tau]) (by norm_num [tau])]
      norm_num [tau]
    rw [round64_eval _ _ _ he hn (by norm_num [maxFloat64, abs_of_pos])]
    norm_num
  constructor
  · show ((w.theta + w.arc).r64 + w.arc).r64 = _
    rw [hθ, harc]
    show (round64 (7555786372591433 / 2 ^ 76 + tau / 8) + fin (tau / 8)).r64 = _
    rw [e1]
    exact e2
  · rw [hθ, harc]
    show (fin (7555786372591433 / 2 ^ 76) + round64 (2 * (tau / 8))).r64 = _
    rw [e3]
    exact e4

/-! ### The index of the top bucket on `float64` -/

/-- The remainder `math.Mod(t, tau)` of a finite `t` is finite; made
non-negative it is `tau * fract(t / tau)`. -/
theorem Mod_fin_tau (t : ℚ) :
    ∃ k, Mod (fin t) (fin tau) = fin k ∧
      (if k < 0 then k + tau else k) = tau * Int.fract (t / tau) := by
  have hm : Mod (fin t) (fin tau) = fin (t - tau * truncQ (t / tau)) := by
    simp [Mod, tau_pos.ne']
  refine ⟨_, hm, ?_⟩
  have h := reduce_fin t
  rw [hm] at h
  by_cases hk : t - tau * (truncQ (t / tau) : ℚ) < 0
  · rw [if_pos hk]
    rw [if_pos (by simpa [F64.lt] using hk)] at h
    have h2 : fin (t - tau * (truncQ (t / tau) : ℚ)) + fin tau
        = fin (t - tau * (truncQ (t / tau) : ℚ) + tau) := rfl
    rw [h2] at h
    injection h
  · rw [if_neg hk]
    rw [if_neg (by simpa [F64.lt] using hk)] at h
    injection h

theorem roundEven_le_pred {q : ℚ} {n : ℤ} (h : q < (n : ℚ) - 1 / 2) : roundEven q ≤ n - 1 := by
  have hf : ⌊q⌋ ≤ n - 1 := by
    rw [← Int.lt_add_one_iff, Int.floor_lt]
    push_cast
    linarith
  rcases lt_or_eq_of_le hf with hlt | heq
  · have := roundEven_le_floor q
    omega
  · have hfr : 2 * Int.fract q < 1 := by
      unfold Int.fract
      rw [heq]
      push_cast
      linarith
    unfold roundEven
    rw [if_pos hfr, heq]

theorem round64_four : nearest64 4 = 4 := by
  have := nearest64_zpow (k := 2) (by norm_num)
  norm_num at this
  exact this

/-- A non-negative angle more than `2^-51` below `tau` rounds to a `float64`
at most `tau - 2^-50`. -/
theorem round64_below_tau {p : ℚ} (h0 : 0 ≤ p) (h1 : p < tau - 1 / 2 ^ 51) :
    ∃ a, round64 p = fin a ∧ 0 ≤ a ∧ a ≤ tau - 1 / 2 ^ 50 := by
  have htau : tau < 8 := by norm_num [tau]
  have hmax : (8 : ℚ) ≤ maxFloat64 := by norm_num [maxFloat64]
  have hr : round64 p = fin (nearest64 p) :=
    round64_of_abs_le (by rw [abs_of_nonneg h0]; linarith)
  refine ⟨_, hr, nearest64_nonneg h0, ?_⟩
  rcases lt_or_le p 4 with h4 | h4
  · have := nearest64_mono h4.le
    rw [round64_four] at this
    have : (4 : ℚ) ≤ tau - 1 / 2 ^ 50 := by norm_num [tau]
    linarith
  · have he : ulpExp p = 2 - 52 :=
      ulpExp_of_bounds (k := 2) (by norm_num) (by norm_num; linarith)
        (by norm_num; linarith)
    have hn : roundEven (p / 2 ^ (2 - 52 : ℤ)) ≤ 7074237752028440 - 1 := by
      apply roundEven_le_pred
      have e : p / 2 ^ (2 - 52 : ℤ) = p * 2 ^ 50 := by
        norm_num
        field_simp
      rw [e]
      have : p * 2 ^ 50 < (tau - 1 / 2 ^ 51) * 2 ^ 50 :=
        mul_lt_mul_of_pos_right h1 (by positivity)
      have e2 : (tau - 1 / 2 ^ 51) * 2 ^ 50 = ((7074237752028440 : ℤ) : ℚ) - 1 / 2 := by
        norm_num [tau]
      rw [e2] at this
      exact this
    unfold nearest64
    rw [he]
    have hq : (roundEven (p / 2 ^ (2 - 52 : ℤ)) : ℚ) ≤ 7074237752028439 := by
      exact_mod_cast hn
    have : (roundEven (p / 2 ^ (2 - 52 : ℤ)) : ℚ) * 2 ^ (2 - 52 : ℤ)
        ≤ 7074237752028439 * 2 ^ (2 - 52 : ℤ) :=
      mul_le_mul_of_nonneg_right hq (by positivity)
    have e3 : (7074237752028439 : ℚ) * 2 ^ (2 - 52 : ℤ) = tau - 1 / 2 ^ 50 := by
      norm_num [tau]
    rw [e3] at this
    exact this

theorem F64.between {x : F64} {u : ℚ} (h0 : fin 0 ≤ x) (h1 : x ≤ fin u) :
    ∃ v, x = fin v ∧ 0 ≤ v ∧ v ≤ u := by
  cases x with
  | fin q => exact ⟨q, rfl, by simpa [F64.le] using h0, by simpa [F64.le] using h1⟩
  | pinf => simp [F64.le] at h1
  | ninf => simp [F64.le] at h0
  | nan => simp [F64.le] at h0

/-- The angle `k` of `topBucket` on `float64` when the reduced angle stays
below `tau`. -/
theorem topAngle64_below (w : Wheel) (t : ℚ) (hθ : w.theta = fin t) (hb : belowTau t) :
    ∃ a, w.topAngle64 = fin a ∧ 0 ≤ a ∧ a < tau - 1 / 2 ^ 51 := by
  obtain ⟨k, hm, hk⟩ := Mod_fin_tau t
  have hp0 : 0 ≤ tau * Int.fract (t / tau) :=
    mul_nonneg tau_pos.le (Int.fract_nonneg _)
  unfold Wheel.topAngle64
  simp only [hθ, hm]
  by_cases hneg : k < 0
  · rw [if_pos (by simpa [F64.lt] using hneg)]
    rw [if_pos hneg] at hk
    show ∃ a, round64 (k + tau) = fin a ∧ 0 ≤ a ∧ a < tau - 1 / 2 ^ 51
    rw [hk]
    obtain ⟨a, ha, ha0, ha1⟩ := round64_below_tau hp0 hb
    refine ⟨a, ha, ha0, lt_of_le_of_lt ha1 ?_⟩
    norm_num
  · rw [if_neg (by simpa [F64.lt] using hneg)]
    rw [if_neg hneg] at hk
    exact ⟨k, rfl, by rw [hk]; exact hp0, by rw [hk]; exact hb⟩

theorem round64_index_top :
    round64 ((tau - 1 / 2 ^ 51) / (tau / 8)) = fin (9007199254740991 / 2 ^ 50) := by
  have he := ulpExp_eval ((tau - 1 / 2 ^ 51) / (tau / 8)) 2
    (by norm_num [tau, abs_of_pos]) (by norm_num [tau, abs_of_pos]) (by norm_num)
  have hn : roundEven ((tau - 1 / 2 ^ 51) / (tau / 8) / 2 ^ (2 - 52 : ℤ))
      = 9007199254740991 := by
    rw [roundEven_eval _ 9007199254740991 (by norm_num [tau]) (by norm_num [tau])]
    norm_num [tau]
  rw [round64_eval _ _ _ he hn (by norm_num [maxFloat64, abs_of_pos])]
  norm_num

/-- The index of the top bucket on `float64` is one of the 8 buckets when the
reduced angle stays below `tau`. -/
theorem topBucket64_below (H : Host) (w : Wheel) (t : ℚ) (hθ : w.theta = fin t)
    (harc : w.arc = fin (tau / 8)) (hb : belowTau t) :
    ∃ n : Fin nBuckets, w.topBucket64 H = (n : ℤ) := by
  obtain ⟨a, ha, ha0, ha1⟩ := topAngle64_below w t hθ hb
  have hτ := tau_pos
  have hne : tau / 8 ≠ 0 := by positivity
  have hq0 : 0 ≤ a / (tau / 8) := by positivity
  have hq1 : a / (tau / 8) ≤ (tau - 1 / 2 ^ 51) / (tau / 8) :=
    div_le_div_of_nonneg_right ha1.le (by positivity)
  have hlo := round64_nonneg hq0
  have hhi := round64_mono hq1
  rw [round64_index_top] at hhi
  obtain ⟨v, hv, hv0, hv1⟩ := F64.between hlo hhi
  have hfl0 : 0 ≤ ⌊v⌋ := Int.floor_nonneg.mpr hv0
  have hfl1 : ⌊v⌋ < 8 := by
    rw [Int.floor_lt]
    have : (9007199254740991 / 2 ^ 50 : ℚ) < 8 := by norm_num
    push_cast
    linarith
  have htop : w.topBucket64 H = ⌊v⌋ := by
    unfold Wheel.topBucket64
    rw [ha, harc]
    have hd : (fin a : F64) / fin (tau / 8) = fin (a / (tau / 8)) := by
      simp [F64.div, hne]
    rw [hd]
    show toInt H (Trunc (round64 (a / (tau / 8)))) = ⌊v⌋
    rw [hv]
    simp only [Trunc, toInt, truncQ_nonneg hv0, truncQ_intCast]
    rw [if_pos]
    constructor <;> omega
  have hlt : ⌊v⌋.toNat < nBuckets := by
    simp only [nBuckets]
    omega
  exact ⟨⟨_, hlt⟩, by rw [htop]; simp [hfl0]⟩

theorem Run64_below (H : Host) (w : Wheel) (t : ℚ) (dt : F64) (hθ : w.theta = fin t)
    (harc : w.arc = fin (tau / 8)) (hb : belowTau t) :
    ∃ n : Fin nBuckets, w.topBucket64 H = (n : ℤ) ∧ w.Run64 H dt = some (w.advance64 H n dt) := by
  obtain ⟨n, hn⟩ := topBucket64_below H w t hθ harc hb
  exact ⟨n, hn, Run64_of_top H w dt n hn⟩

theorem round64_eight : round64 8 = fin 8 := by
  have h := nearest64_zpow (k := 3) (by norm_num)
  have e : (2 : ℚ) ^ (3 : ℤ) = 8 := by norm_num
  rw [e] at h
  rw [round64_of_abs_le (by norm_num [maxFloat64, abs_of_pos]), h]

/-- A sum `t + tau` with `-2^-51 <= t < 0` rounds to `tau`. -/
theorem round64_slip {t : ℚ} (h1 : -(1 / 2 ^ 51) ≤ t) (h2 : t < 0) :
    round64 (t + tau) = fin tau := by
  have hτ : tau = 7074237752028440 / 2 ^ 50 := by norm_num [tau]
  have he : ulpExp (t + tau) = 2 - 52 :=
    ulpExp_of_bounds (k := 2) (by norm_num) (by rw [hτ]; norm_num; linarith)
      (by rw [hτ]; norm_num; linarith)
  have e : (t + tau) / 2 ^ (2 - 52 : ℤ) = (t + tau) * 2 ^ 50 := by
    norm_num
    field_simp
  have hn : roundEven ((t + tau) / 2 ^ (2 - 52 : ℤ)) = 7074237752028440 := by
    rw [e]
    have hlo : ((7074237752028439 : ℤ) : ℚ) ≤ (t + tau) * 2 ^ 50 := by
      rw [hτ]
      push_cast
      linarith
    have hhi : (t + tau) * 2 ^ 50 < ((7074237752028439 : ℤ) : ℚ) + 1 := by
      rw [hτ]
      push_cast
      linarith
    rw [roundEven_eval _ 7074237752028439 hlo hhi]
    have hge : ¬ 2 * ((t + tau) * 2 ^ 50 - ((7074237752028439 : ℤ) : ℚ)) < 1 := by
      rw [hτ]
      push_cast
      linarith
    rw [if_neg hge]
    split_ifs with h3 h4
    · norm_num
    · norm_num at h4
    · norm_num
  rw [round64_eval _ _ _ he hn (by norm_num [maxFloat64, abs_of_pos])]
  norm_num [tau]

/-- The slip of `topBucket` on `float64`: for `theta` in `[-2^-51, 0)` the sum
`k += tau` rounds to `tau` itself and the index is 8. -/
theorem topBucket64_slip (H : Host) (w : Wheel) (t : ℚ) (hθ : w.theta = fin t)
    (harc : w.arc = fin (tau / 8)) (h1 : -(1 / 2 ^ 51) ≤ t) (h2 : t < 0) :
    w.topAngle64 = fin tau ∧ w.topBucket64 H = 8 := by
  have hτ := tau_pos
  have hm : Mod (fin t) (fin tau) = fin t := by
    have hq : ¬ 0 ≤ t / tau := by
      rw [not_le]
      exact div_neg_of_neg_of_pos h2 hτ
    have hc : ⌈t / tau⌉ = 0 := by
      rw [Int.ceil_eq_iff]
      constructor
      · have : -(1 : ℚ) < t / tau := by
          rw [lt_div_iff₀ hτ]
          have : tau > 1 := by norm_num [tau]
          have : (1 : ℚ) / 2 ^ 51 < 1 := by norm_num
          linarith
        push_cast
        linarith
      · push_cast
        exact (div_neg_of_neg_of_pos h2 hτ).le
    simp [Mod, hτ.ne', truncQ, hq, hc]
  have ha : w.topAngle64 = fin tau := by
    unfold Wheel.topAngle64
    simp only [hθ, hm]
    rw [if_pos (by simpa [F64.lt] using h2)]
    exact round64_slip h1 h2
  refine ⟨ha, ?_⟩
  unfold Wheel.topBucket64
  rw [ha, harc]
  have hd : (fin tau : F64) / fin (tau / 8) = fin 8 := by
    have hne : tau / 8 ≠ 0 := by positivity
    have : tau / (tau / 8) = 8 := by field_simp
    simp [F64.div, hne, this]
  rw [hd]
  show toInt H (Trunc (round64 8)) = 8
  rw [round64_eight]
  have h8 : truncQ (8 : ℚ) = 8 := by
    unfold truncQ
    rw [if_pos (by norm_num)]
    exact Int.floor_ofNat 8
  simp only [Trunc, toInt]
  rw [h8, truncQ_intCast]
  norm_num

/-- At `theta = tau` the remainder `math.Mod(theta, tau)` is `0` and the index
on `float64` is 0. -/
theorem topBucket64_tau (H : Host) (w : Wheel) (hθ : w.theta = fin tau)
    (harc : w.arc = fin (tau / 8)) : w.topBucket64 H = 0 := by
  unfold Wheel.topBucket64 Wheel.topAngle64
  rw [hθ, harc]
  have hm : Mod (fin tau) (fin tau) = fin 0 := by
    have h1 : tau / tau = 1 := div_self tau_pos.ne'
    have h2 : truncQ (1 : ℚ) = 1 := by
      have := truncQ_intCast 1
      simpa using this
    simp [Mod, tau_pos.ne', h1, h2]
  rw [hm]
  have hd : (fin 0 : F64) / fin (tau / 8) = fin 0 := by
    have : tau / 8 ≠ 0 := by have := tau_pos; positivity
    simp [F64.div, this]
  simp only [F64.lt_def, F64.lt, lt_self_iff_false, decide_False, Bool.false_eq_true, if_false]
  rw [hd]
  show toInt H (Trunc (round64 0)) = _
  rw [round64_zero]
  simp [Trunc, toInt, truncQ]

theorem wheelAt64_arc (t : ℚ) : (wheelAt64 t).arc = fin (tau / 8) :=
  New64_arc (fin 1) (fin oflowRef)

theorem entries64_apply (H : Host) (fmt : F64 → String) (w : Wheel) (i : Fin nBuckets) :
    w.entries64 H fmt i
      = (if ((i : ℕ) : ℤ) = w.topBucket64 H then "*" else " ") ++ fmt (w.bucket i).amount := by
  unfold Wheel.entries64
  exact forRange_update_apply
    (fun i _ => (if ((i : ℕ) : ℤ) = w.topBucket64 H then "*" else " ")
      ++ fmt (w.bucket i).amount) _ i

theorem entries64_data (H : Host) (fmt : F64 → String) (w : Wheel) (i : Fin nBuckets) :
    (w.entries64 H fmt i).data
      = (if ((i : ℕ) : ℤ) = w.topBucket64 H then '*' else ' ')
          :: (fmt (w.bucket i).amount).data := by
  rw [entries64_apply]
  split_ifs <;> simp [String.data_append]

theorem belowTau_zero : belowTau 0 := by
  unfold belowTau
  norm_num [tau]

/-! ### A step `Run(0)` and a step without inflow on `float64` -/

theorem round64_neg (q : ℚ) : round64 (-q) = -(round64 q) := by
  have hmax : (0 : ℚ) ≤ maxFloat64 := by norm_num [maxFloat64]
  unfold round64
  rw [nearest64_neg, abs_neg]
  by_cases h : maxFloat64 < |nearest64 q|
  · rw [if_pos h, if_pos h]
    rcases lt_trichotomy q 0 with hq | hq | hq
    · rw [if_pos (by linarith), if_neg (by linarith)]
      rfl
    · subst hq
      rw [nearest64_zero, abs_zero] at h
      linarith
    · rw [if_neg (by linarith), if_pos hq]
      rfl
  · rw [if_neg h, if_neg h]
    rfl

/-- Adding `0` to a bucket whose amount is a `float64` within its capacity
changes nothing. -/
theorem bucket.add64_zero {b : bucket} {m c : ℚ}
    (hb : b = { amount := fin m, capacity := fin c }) (h0 : 0 ≤ m) (h1 : m ≤ c)
    (hf : round64 m = fin m) : b.add64 (fin 0) = b := by
  have ha := bucket.add64_amount b (fin 0)
  have hc := bucket.add64_capacity b (fin 0)
  subst hb
  simp only at ha hc
  have e : (fin m + fin 0 : F64).r64 = fin m := by
    show round64 (m + 0) = fin m
    rw [add_zero, hf]
  rw [e, clamp_id h0 h1] at ha
  cases h : bucket.add64 { amount := fin m, capacity := fin c } (fin 0) with
  | mk am cp =>
    rw [h] at ha hc
    simp only at ha hc
    rw [ha, hc]

theorem F64.fin_mul_zero_r64 (a : ℚ) : (fin a * fin 0 : F64).r64 = fin 0 := by
  show round64 (a * 0) = fin 0
  rw [mul_zero, round64_zero]

theorem F64.neg_fin_mul_zero_r64 (a : ℚ) : ((-fin a) * fin 0 : F64).r64 = fin 0 := by
  show round64 (-a * 0) = fin 0
  rw [mul_zero, round64_zero]

/-- The step `Run(0)` on `float64`, once the index is known to be inside
`w.bucket`, on a wheel with finite `float64` fields, amounts within the
capacities and a finite acceleration. -/
theorem advance64_zero (H : Host) (w : Wheel) (n : Fin nBuckets) (i o v t a : ℚ)
    (m c : Fin nBuckets → ℚ)
    (hi : w.iflow = fin i) (ho : w.oflow = fin o) (hv : w.av = fin v) (ht : w.theta = fin t)
    (hb : ∀ k, w.bucket k = { amount := fin (m k), capacity := fin (c k) })
    (hm : ∀ k, 0 ≤ m k ∧ m k ≤ c k)
    (hmf : ∀ k, round64 (m k) = fin (m k)) (hvf : round64 v = fin v)
    (htf : round64 t = fin t) (haa : w.aa64 H w.bucket = fin a) :
    w.advance64 H n (fin 0) = w := by
  have hbs : (w.advance64 H n (fin 0)).bucket = w.bucket := by
    funext k
    rw [advance64_bucket, hi, ho, F64.fin_mul_zero_r64, F64.neg_fin_mul_zero_r64]
    have hz : ∀ j, (w.bucket j).add64 (fin 0) = w.bucket j := fun j =>
      bucket.add64_zero (hb j) (hm j).1 (hm j).2 (hmf j)
    by_cases hk : k = n
    · rw [if_pos hk, hz n, hz n, hk]
    · rw [if_neg hk, hz k]
  have hav : (w.advance64 H n (fin 0)).av = w.av := by
    show (w.av + (w.aa64 H (w.advance64 H n (fin 0)).bucket * fin 0).r64).r64 = w.av
    rw [hbs, haa, F64.fin_mul_zero_r64, hv]
    show round64 (v + 0) = fin v
    rw [add_zero, hvf]
  have hth : (w.advance64 H n (fin 0)).theta = w.theta := by
    show (w.theta + ((w.advance64 H n (fin 0)).av * fin 0).r64).r64 = w.theta
    rw [hav, hv, F64.fin_mul_zero_r64, ht]
    show round64 (t + 0) = fin t
    rw [add_zero, htf]
  have hfl := advance64_flows H w n (fin 0)
  cases hw : w.advance64 H n (fin 0) with
  | mk i1 o1 t1 v1 a1 b1 =>
    rw [hw] at hbs hav hth hfl
    simp only at hbs hav hth hfl
    obtain ⟨h1, h2, h3⟩ := hfl
    cases w
    simp only at hbs hav hth h1 h2 h3
    subst hbs hav hth h1 h2 h3
    rfl

theorem round64_zpow {k : ℤ} (h1 : -1022 ≤ k) (h2 : k ≤ 1023) :
    round64 ((2 : ℚ) ^ k) = fin (2 ^ k) := by
  have hle : (2 : ℚ) ^ k ≤ 2 ^ (1023 : ℤ) := zpow_le_zpow_right₀ (by norm_num) h2
  have hmax : (2 : ℚ) ^ (1023 : ℤ) ≤ maxFloat64 := by
    rw [show (1023 : ℤ) = ((1023 : ℕ) : ℤ) from rfl, zpow_natCast]
    norm_num [maxFloat64]
  have hpos : (0 : ℚ) < 2 ^ k := by positivity
  rw [round64_of_abs_le (by rw [abs_of_pos hpos]; linarith), nearest64_zpow h1]

theorem round64_one : round64 1 = fin 1 := by
  have := round64_zpow (k := 0) (by norm_num) (by norm_num)
  simpa using this

theorem round64_av_rest : round64 (1 / 128) = fin (1 / 128) := by
  have := round64_zpow (k := -7) (by norm_num) (by norm_num)
  have e : (2 : ℚ) ^ (-7 : ℤ) = 1 / 128 := by norm_num
  rwa [e] at this

theorem dripWheel_aa (H : Host) : dripWheel.aa64 H dripWheel.bucket = fin 0 := by
  obtain ⟨hai, htq⟩ := sums64_single H dripWheel dripWheel.bucket 1 rfl rfl rfl
    round64_one (fun k hk => by simp [dripWheel, hk])
  unfold Wheel.aa64
  rw [hai, htq]
  show (F64.div (fin 0) (fin 1)).r64 = fin 0
  simp only [F64.div, one_ne_zero, if_false, zero_div]
  exact round64_zero

/-- The outflow of a step on `float64` taken from a bucket that holds the
`float64` amount `m` within its capacity: the bucket ends empty when `m` is at
most the rounded product `oflow * dt`, else at the rounded difference. -/
theorem bucket.add64_outflow {b : bucket} {m c o d : ℚ}
    (hb : b = { amount := fin m, capacity := fin c }) (h0 : 0 ≤ m) (h1 : m ≤ c)
    (hf : round64 m = fin m) (ho : 0 ≤ o) (hd : 0 ≤ d) :
    ∃ z, (b.add64 ((-fin o) * fin d).r64).amount = fin z ∧ 0 ≤ z ∧ z ≤ m ∧
      (m = 0 → z = 0) ∧
      (b.add64 ((-fin o) * fin d).r64).amount
        = (if fin m ≤ (fin o * fin d).r64 then fin 0
            else (fin m + ((-fin o) * fin d).r64).r64) := by
  have hc0 : 0 ≤ c := le_trans h0 h1
  have hod : 0 ≤ o * d := mul_nonneg ho hd
  have hy : ((-fin o) * fin d : F64).r64 = -((fin o * fin d : F64).r64) := by
    show round64 (-o * d) = -(round64 (o * d))
    rw [neg_mul, round64_neg]
  rw [bucket.add64_amount, hb, hy]
  simp only
  have hbpos : fin 0 ≤ (fin o * fin d : F64).r64 := round64_nonneg hod
  cases hr : (fin o * fin d : F64).r64 with
  | fin bq =>
    rw [hr] at hbpos
    have hbq : 0 ≤ bq := by simpa [F64.le] using hbpos
    have hsum : (fin m + -(fin bq) : F64).r64 = round64 (m - bq) := by
      show round64 (m + -bq) = round64 (m - bq)
      rw [sub_eq_add_neg]
    rw [hsum]
    by_cases hle : m ≤ bq
    · rw [if_pos (by simpa [F64.le] using hle)]
      exact ⟨0, clamp_nonpos hc0 (round64_nonpos (by linarith)), le_rfl, h0, fun _ => rfl,
        clamp_nonpos hc0 (round64_nonpos (by linarith))⟩
    · rw [if_neg (by simpa [F64.le] using hle)]
      have hlo := round64_nonneg (show 0 ≤ m - bq by linarith)
      have hhi := round64_mono (show m - bq ≤ m by linarith)
      rw [hf] at hhi
      obtain ⟨z, hz, hz0, hz1⟩ := F64.between hlo hhi
      rw [hz, clamp_id hz0 (le_trans hz1 h1)]
      refine ⟨z, rfl, hz0, hz1, fun hm0 => ?_, rfl⟩
      exact absurd (by rw [hm0]; exact hbq) hle
  | pinf =>
    have hsum : (fin m + -(pinf) : F64).r64 = ninf := rfl
    rw [hsum, if_pos (by simp [F64.le])]
    have hcl : clamp (fin c) ninf = fin 0 := by simp [clamp, F64.lt]
    exact ⟨0, hcl, le_rfl, h0, fun _ => rfl, hcl⟩
  | ninf =>
    rw [hr] at hbpos
    simp [F64.le] at hbpos
  | nan =>
    rw [hr] at hbpos
    simp [F64.le] at hbpos

/-- One step without inflow on `float64`, bucket by bucket. -/
theorem advance64_no_inflow (H : Host) (w : Wheel) (n : Fin nBuckets) (o d : ℚ)
    (m c : Fin nBuckets → ℚ)
    (hi : w.iflow = fin 0) (ho : w.oflow = fin o)
    (hb : ∀ k, w.bucket k = { amount := fin (m k), capacity := fin (c k) })
    (hm : ∀ k, 0 ≤ m k ∧ m k ≤ c k) (hmf : ∀ k, round64 (m k) = fin (m k))
    (ho0 : 0 ≤ o) (hd0 : 0 ≤ d) (k : Fin nBuckets) :
    ∃ z, ((w.advance64 H n (fin d)).bucket k).amount = fin z ∧ 0 ≤ z ∧ z ≤ m k ∧
      (m k = 0 → z = 0) ∧
      ((w.advance64 H n (fin d)).bucket k).amount
        = (if fin (m k) ≤ (fin o * fin d).r64 then fin 0
            else (fin (m k) + ((-fin o) * fin d).r64).r64) := by
  rw [advance64_bucket, hi, ho]
  have hx : (fin 0 * fin d : F64).r64 = fin 0 := by
    show round64 (0 * d) = fin 0
    rw [zero_mul, round64_zero]
  rw [hx]
  have hz : (w.bucket n).add64 (fin 0) = w.bucket n :=
    bucket.add64_zero (hb n) (hm n).1 (hm n).2 (hmf n)
  have hsame : (if k = n then (w.bucket n).add64 (fin 0) else w.bucket k) = w.bucket k := by
    by_cases hk : k = n
    · rw [if_pos hk, hz, hk]
    · rw [if_neg hk]
  rw [hsame]
  exact bucket.add64_outflow (hb k) (hm k).1 (hm k).2 (hmf k) ho0 hd0

/-- On `float64` the difference `1 - 2^-67` is `1`. -/
theorem round64_one_sub : round64 (1 + -(1 / 2 ^ 67)) = fin 1 := by
  have he := ulpExp_eval (1 + -(1 / 2 ^ 67)) (-1) (by norm_num [abs_of_pos])
    (by norm_num [abs_of_pos]) (by norm_num)
  have hn : roundEven ((1 + -(1 / 2 ^ 67)) / 2 ^ (-1 - 52 : ℤ)) = 9007199254740992 := by
    rw [roundEven_eval _ 9007199254740991 (by norm_num) (by norm_num)]
    norm_num
  rw [round64_eval _ _ _ he hn (by norm_num [maxFloat64, abs_of_pos])]
  norm_num

theorem round64_drip : round64 (1 / 2 ^ 67) = fin (1 / 2 ^ 67) := by
  have := round64_zpow (k := -67) (by norm_num) (by norm_num)
  have e : (2 : ℚ) ^ (-67 : ℤ) = 1 / 2 ^ 67 := by
    rw [zpow_neg, one_div]
    norm_cast
  rwa [e] at this

/-- The step `Run(1)` on `dripWheel`, on `float64`: the outflow `2^-67` is lost
in the rounding and bucket 0 still holds 1 unit. -/
theorem dripWheel_step (H : Host) (k : Fin nBuckets) :
    ((dripWheel.advance64 H 0 (fin 1)).bucket k).amount = fin (if k = 0 then 1 else 0) := by
  obtain ⟨z, -, -, -, hz0, hz⟩ := advance64_no_inflow H dripWheel 0 (1 / 2 ^ 67) 1
    (fun k => if k = 0 then 1 else 0) (fun _ => 10) rfl rfl (fun _ => rfl)
    (fun k => by
      show (0 : ℚ) ≤ (if k = 0 then 1 else 0) ∧ (if k = 0 then (1 : ℚ) else 0) ≤ 10
      split_ifs <;> norm_num)
    (fun k => by
      show round64 (if k = 0 then 1 else 0) = fin (if k = 0 then 1 else 0)
      split_ifs
      · exact round64_one
      · exact round64_zero)
    (by norm_num) (by norm_num) k
  rw [hz]
  have hp : (fin (1 / 2 ^ 67) * fin 1 : F64).r64 = fin (1 / 2 ^ 67) := by
    show round64 (1 / 2 ^ 67 * 1) = _
    rw [mul_one, round64_drip]
  have hq : ((-fin (1 / 2 ^ 67)) * fin 1 : F64).r64 = fin (-(1 / 2 ^ 67)) := by
    show round64 (-(1 / 2 ^ 67) * 1) = _
    rw [mul_one, round64_neg, round64_drip]
    rfl
  rw [hp, hq]
  by_cases hk : k = 0
  · simp only [hk, if_true]
    rw [if_neg (by norm_num [F64.le])]
    exact round64_one_sub
  · simp only [hk, if_false]
    rw [if_pos (by norm_num [F64.le])]

/-! ### A wheel that drains at least as fast as it fills, on `float64` -/

/-- With `theta` NaN the index on `float64` is the conversion of NaN to `int`. -/
theorem topBucket64_nan (H : Host) (w : Wheel) (hθ : w.theta = nan) :
    w.topBucket64 H = H.cvt nan := by
  unfold Wheel.topBucket64 Wheel.topAngle64
  rw [hθ]
  rfl

theorem bucket.eq_of (b : bucket) {a c : F64} (ha : b.amount = a) (hc : b.capacity = c) :
    b = { amount := a, capacity := c } := by
  cases b
  simp only at ha hc
  rw [ha, hc]

/-- An amount `a` that is at most the rounded outflow of the step is drained
to `0`. -/
theorem bucket.add64_drained {a c q : ℚ} (h0 : 0 ≤ a) (h1 : a ≤ c)
    (hle : fin a ≤ round64 q) :
    bucket.add64 { amount := fin a, capacity := fin c } (round64 (-q))
      = { amount := fin 0, capacity := fin c } := by
  apply bucket.eq_of _ _ (bucket.add64_capacity _ _)
  rw [bucket.add64_amount, round64_neg]
  simp only
  apply clamp_nonpos (le_trans h0 h1)
  cases hr : round64 q with
  | fin bq =>
    rw [hr] at hle
    have : a ≤ bq := by simpa [F64.le] using hle
    show round64 (a + -bq) ≤ fin 0
    exact round64_nonpos (by linarith)
  | pinf =>
    show (ninf : F64) ≤ fin 0
    simp [F64.le]
  | ninf =>
    rw [hr] at hle
    simp [F64.le] at hle
  | nan =>
    rw [hr] at hle
    simp [F64.le] at hle

/-- The inflow of a step on `float64` into an empty bucket leaves at most the
rounded inflow. -/
theorem bucket.add64_filled {c q : ℚ} (hc : 0 ≤ c) (hq : 0 ≤ q) :
    ∃ a, bucket.add64 { amount := fin 0, capacity := fin c } (round64 q)
        = { amount := fin a, capacity := fin c } ∧ 0 ≤ a ∧ a ≤ c ∧ fin a ≤ round64 q := by
  have ham := bucket.add64_amount { amount := fin 0, capacity := fin c } (round64 q)
  simp only [F64.fin_zero_add] at ham
  have hid : (round64 q).r64 = round64 q := F64.r64_idem (fin q)
  rw [hid] at ham
  have hnn := round64_nonneg hq
  cases hr : round64 q with
  | fin xq =>
    rw [hr] at ham hnn
    have hx0 : 0 ≤ xq := by simpa [F64.le] using hnn
    by_cases hcx : c < xq
    · refine ⟨c, bucket.eq_of _ ?_ (bucket.add64_capacity _ _), hc, le_rfl, by simpa [F64.le] using hcx.le⟩
      rw [ham]
      simp [clamp, F64.lt, hcx, not_lt.mpr hc]
    · refine ⟨xq, bucket.eq_of _ ?_ (bucket.add64_capacity _ _), hx0, not_lt.mp hcx, by simp [F64.le]⟩
      rw [ham]
      exact clamp_id hx0 (not_lt.mp hcx)
  | pinf =>
    rw [hr] at ham
    refine ⟨c, bucket.eq_of _ ?_ (bucket.add64_capacity _ _), hc, le_rfl, by simp [F64.le]⟩
    rw [ham]
    simp [clamp, F64.lt, not_lt.mpr hc]
  | ninf =>
    rw [hr] at hnn
    simp [F64.le] at hnn
  | nan =>
    rw [hr] at hnn
    simp [F64.le] at hnn

/-- On a wheel with `0 <= iflow <= oflow` whose buckets are empty, the
inflow/outflow update of a step `dt >= 0` on `float64` leaves every bucket
empty. -/
theorem advance64_drained (H : Host) (w : Wheel) (n : Fin nBuckets) (i o d c : ℚ)
    (hi : w.iflow = fin i) (ho : w.oflow = fin o) (hi0 : 0 ≤ i) (hio : i ≤ o)
    (hd : 0 ≤ d) (hc : 0 ≤ c)
    (hb : ∀ k, w.bucket k = { amount := fin 0, capacity := fin c }) (k : Fin nBuckets) :
    (w.advance64 H n (fin d)).bucket k = { amount := fin 0, capacity := fin c } := by
  rw [advance64_bucket, hi, ho]
  have hx : (fin i * fin d : F64).r64 = round64 (i * d) := rfl
  have hy : ((-fin o) * fin d : F64).r64 = round64 (-(o * d)) := by
    show round64 (-o * d) = round64 (-(o * d))
    rw [neg_mul]
  rw [hx, hy]
  have hmono : round64 (i * d) ≤ round64 (o * d) :=
    round64_mono (mul_le_mul_of_nonneg_right hio hd)
  by_cases hk : k = n
  · rw [if_pos hk, hb n]
    obtain ⟨a, ha, ha0, ha1, hle⟩ := bucket.add64_filled (q := i * d) hc (mul_nonneg hi0 hd)
    rw [ha]
    apply bucket.add64_drained ha0 ha1
    cases hr : round64 (i * d) with
    | fin xq =>
      rw [hr] at hle hmono
      cases hr2 : round64 (o * d) with
      | fin bq =>
        rw [hr2] at hmono
        have h1 : a ≤ xq := by simpa [F64.le] using hle
        have h2 : xq ≤ bq := by simpa [F64.le] using hmono
        simpa [F64.le] using le_trans h1 h2
      | pinf => simp [F64.le]
      | ninf => rw [hr2] at hmono; simp [F64.le] at hmono
      | nan => rw [hr2] at hmono; simp [F64.le] at hmono
    | pinf =>
      rw [hr] at hmono
      cases hr2 : round64 (o * d) with
      | fin bq => rw [hr2] at hmono; simp [F64.le] at hmono
      | pinf => simp [F64.le]
      | ninf => rw [hr2] at hmono; simp [F64.le] at hmono
      | nan => rw [hr2] at hmono; simp [F64.le] at hmono
    | ninf => rw [hr] at hle; simp [F64.le] at hle
    | nan => rw [hr] at hle; simp [F64.le] at hle
  · rw [if_neg hk, hb k]
    exact bucket.add64_drained le_rfl hc
      (round64_nonneg (mul_nonneg (le_trans hi0 hio) hd))

/-- A sequence of steps `dt >= 0` on `float64` keeps a drained wheel empty, and
after the first step `av` and `theta` are NaN. -/
theorem runs64_drained (H : Host) (i o c : ℚ) (hi0 : 0 ≤ i) (hio : i ≤ o) (hc : 0 ≤ c)
    (dts : List ℚ) :
    ∀ {w w1 : Wheel}, (∀ dt ∈ dts, 0 ≤ dt) → w.iflow = fin i → w.oflow = fin o →
      (∀ k, w.bucket k = { amount := fin 0, capacity := fin c }) →
      w.runs64 H (dts.map fin) = some w1 →
        w1.iflow = fin i ∧ w1.oflow = fin o ∧ w1.arc = w.arc ∧
          (∀ k, w1.bucket k = { amount := fin 0, capacity := fin c }) ∧
          ((dts ≠ [] ∨ (w.av = nan ∧ w.theta = nan)) → w1.av = nan ∧ w1.theta = nan) := by
  induction dts with
  | nil =>
    intro w w1 _ hi ho hb hr
    simp only [List.map_nil, Wheel.runs64, Option.some.injEq] at hr
    rw [← hr]
    refine ⟨hi, ho, rfl, hb, fun h => ?_⟩
    rcases h with h | h
    · exact absurd rfl h
    · exact h
  | cons d ds ih =>
    intro w w1 hdt hi ho hb hr
    simp only [List.map_cons, Wheel.runs64] at hr
    cases hrun : w.Run64 H (fin d) with
    | none => simp [hrun] at hr
    | some w2 =>
      rw [hrun, Option.some_bind] at hr
      obtain ⟨n, -, rfl⟩ := Run64_inv hrun
      have hd := hdt d (List.mem_cons_self _ _)
      have hb2 := advance64_drained H w n i o d c hi ho hi0 hio hd hc hb
      have hnan := advance64_empty H w n (fin d) (fun k => by rw [hb2 k])
      obtain ⟨h1, h2, h3, h4, h5⟩ := ih (w := w.advance64 H n (fin d))
        (fun x hx => hdt x (List.mem_cons_of_mem _ hx)) hi ho hb2 hr
      exact ⟨h1, h2, h3, h4, fun _ => h5 (Or.inr hnan)⟩

/-- The first step `Run(2)` of `New(2^1023, 2^1023)` on `float64`: bucket 0
holds `Inf - Inf`, NaN. -/
theorem overflow_drained_step (H : Host) :
    (((New64 (fin (2 ^ 1023)) (fin (2 ^ 1023))).advance64 H 0 (fin 2)).bucket 0).amount
      = nan := by
  show ((New64 (fin (2 ^ 1023)) (fin (2 ^ 1023))).drain64
    ((New64 (fin (2 ^ 1023)) (fin (2 ^ 1023))).fill64 0 (fin 2)) (fin 2) 0).amount = nan
  rw [drain64_apply, overflow_fill]
  have hx : ((-(New64 (fin (2 ^ 1023)) (fin (2 ^ 1023))).oflow) * fin 2).r64 = ninf :=
    round64_neg_two_big
  rw [hx]
  simp [bucket.add64, F64.add, F64.r64, F64.lt]

theorem round64_leak : round64 (65 / 2 ^ 60) = fin (65 / 2 ^ 60) := by
  have h := nearest64_of_int 4573968371548160 (-106) (by norm_num) (by norm_num)
    (Or.inr (by norm_num))
  have e : ((4573968371548160 : ℤ) : ℚ) * 2 ^ (-106 : ℤ) = 65 / 2 ^ 60 := by
    rw [zpow_neg]
    norm_num
  rw [e] at h
  rw [round64_of_abs_le (by norm_num [maxFloat64, abs_of_pos]), h]

theorem round64_small : round64 (1 / 2 ^ 58) = fin (1 / 2 ^ 58) := by
  have := round64_zpow (k := -58) (by norm_num) (by norm_num)
  have e : (2 : ℚ) ^ (-58 : ℤ) = 1 / 2 ^ 58 := by
    rw [zpow_neg, one_div]
    norm_cast
  rwa [e] at this

/-- On `float64` the difference `1 - 65 * 2^-60` is `1 - 2^-53`. -/
theorem round64_one_sub_leak : round64 (1 + -(65 / 2 ^ 60)) = fin (1 - 1 / 2 ^ 53) := by
  have he := ulpExp_eval (1 + -(65 / 2 ^ 60)) (-1) (by norm_num [abs_of_pos])
    (by norm_num [abs_of_pos]) (by norm_num)
  have hn : roundEven ((1 + -(65 / 2 ^ 60)) / 2 ^ (-1 - 52 : ℤ)) = 9007199254740991 := by
    rw [roundEven_eval _ 9007199254740991 (by norm_num) (by norm_num)]
    norm_num
  rw [round64_eval _ _ _ he hn (by norm_num [maxFloat64, abs_of_pos])]
  norm_num

/-- The step `Run(1)` on `leakWheel`, on `float64`: bucket 0 loses `2^-53`,
more than the outflow `65 * 2^-60`, and bucket 1 is emptied. -/
theorem leakWheel_step (H : Host) (k : Fin nBuckets) :
    ((leakWheel.advance64 H 0 (fin 1)).bucket k).amount
      = fin (if k = 0 then 1 - 1 / 2 ^ 53 else 0) := by
  obtain ⟨z, -, -, -, hz0, hz⟩ := advance64_no_inflow H leakWheel 0 (65 / 2 ^ 60) 1
    (fun k => if k = 0 then 1 else if k = 1 then 1 / 2 ^ 58 else 0) (fun _ => 10) rfl rfl
    (fun _ => rfl)
    (fun k => by
      show (0 : ℚ) ≤ (if k = 0 then 1 else if k = 1 then 1 / 2 ^ 58 else 0) ∧
        (if k = 0 then (1 : ℚ) else if k = 1 then 1 / 2 ^ 58 else 0) ≤ 10
      split_ifs <;> norm_num)
    (fun k => by
      show round64 (if k = 0 then 1 else if k = 1 then 1 / 2 ^ 58 else 0)
        = fin (if k = 0 then 1 else if k = 1 then 1 / 2 ^ 58 else 0)
      split_ifs
      · exact round64_one
      · exact round64_small
      · exact round64_zero)
    (by norm_num) (by norm_num) k
  rw [hz]
  have hp : (fin (65 / 2 ^ 60) * fin 1 : F64).r64 = fin (65 / 2 ^ 60) := by
    show round64 (65 / 2 ^ 60 * 1) = _
    rw [mul_one, round64_leak]
  have hq : ((-fin (65 / 2 ^ 60)) * fin 1 : F64).r64 = fin (-(65 / 2 ^ 60)) := by
    show round64 (-(65 / 2 ^ 60) * 1) = _
    rw [mul_one, round64_neg, round64_leak]
    rfl
  rw [hp, hq]
  by_cases hk : k = 0
  · simp only [hk, if_true]
    rw [if_neg (by norm_num [F64.le])]
    exact round64_one_sub_leak
  · simp only [hk, if_false]
    rw [if_pos (by split_ifs <;> norm_num [F64.le])]

/-! ## The claims -/

/-- **C2** (capacity clamp).  For every bucket with `capacity >= 0` and any
starting amount that is a number, and every added quantity `x` (any finite
value, however large or negative), after `add(x)` followed by any further
sequence `xs` of `add` calls the amount satisfies `0 <= amount <= capacity`;
the capacity is the one the bucket started with.  The case `xs = []` is the
single call `add(x)`. -/
theorem bucket_add_clamped (b : bucket) (x : ℚ) (xs : List ℚ)
    (hcap : fin 0 ≤ b.capacity) (ham : b.amount ≠ nan) :
    fin 0 ≤ (b.adds ((x :: xs).map fin)).amount ∧
      (b.adds ((x :: xs).map fin)).amount ≤ b.capacity ∧
      (b.adds ((x :: xs).map fin)).capacity = b.capacity := by
  induction xs generalizing b x with
  | nil =>
    have h := bucket.add_nonnan x hcap ham
    rw [bucket.add_capacity] at h
    exact ⟨h.2.1, h.2.2, bucket.add_capacity b (fin x)⟩
  | cons y ys ih =>
    have h := bucket.add_nonnan x hcap ham
    have hc := bucket.add_capacity b (fin x)
    have := ih (b.add (fin x)) y (by rw [hc]; exact hcap) h.1
    rw [hc] at this
    exact this

/-- Witness of `bucket_add_clamped`: a bucket of capacity 10 holding 3 takes
`add(100)`, `add(-1000)`, `add(4)` and stays within `[0, 10]`. -/
theorem bucket_add_clamped_witness :
    fin 0 ≤ (bucket.adds { amount := fin 3, capacity := fin 10 }
        (([100, -1000, 4] : List ℚ).map fin)).amount ∧
      (bucket.adds { amount := fin 3, capacity := fin 10 }
        (([100, -1000, 4] : List ℚ).map fin)).amount ≤ fin 10 ∧
      (bucket.adds { amount := fin 3, capacity := fin 10 }
        (([100, -1000, 4] : List ℚ).map fin)).capacity = fin 10 :=
  bucket_add_clamped { amount := fin 3, capacity := fin 10 } 100 [-1000, 4]
    (by simp [F64.le]) (by simp)

/-- **C3** (`New`).  For every `iflow` and `oflow`, `New(iflow, oflow)` stores
`iflow` and `oflow` as given, has `theta = 0`, `av = 0.01`, `arc = tau / 8`, and
has exactly 8 buckets, each with `amount = 0` and `capacity = 10 * iflow`. -/
theorem New_fields (iflow oflow : F64) :
    (New iflow oflow).iflow = iflow ∧ (New iflow oflow).oflow = oflow ∧
      (New iflow oflow).theta = fin 0 ∧ (New iflow oflow).av = fin (1 / 100) ∧
      (New iflow oflow).arc = fin (tau / 8) ∧ (New iflow oflow).arc = fin tau / fin 8 ∧
      Fintype.card (Fin nBuckets) = 8 ∧
      ∀ k : Fin nBuckets, ((New iflow oflow).bucket k).amount = fin 0 ∧
        ((New iflow oflow).bucket k).capacity = fin 10 * iflow := by
  refine ⟨rfl, rfl, rfl, rfl, New_arc iflow oflow, ?_, by simp, fun k => ?_⟩
  · show fin tau / fin ((8 : ℕ) : ℚ) = fin tau / fin 8
    norm_num
  · rw [New_bucket]
    exact ⟨rfl, rfl⟩


/-- **C5** (mass update of one step).  For every wheel state and every `dt`,
with `n = topBucket()` on the pre-step `theta` (an index of a bucket), `Run(dt)`
returns and sets bucket `n` to `clamp(clamp(amount_n + iflow*dt) - oflow*dt)`
and every other bucket `i` to `clamp(amount_i - oflow*dt)`, each clamp taken
with the capacity of the bucket itself, and every capacity is kept: only bucket
`n` receives inflow, and what exceeds its capacity is given to no other bucket.
Subtracting `oflow*dt` is adding `-oflow * dt`, as the source does. -/
theorem run_mass_update (H : Host) (w : Wheel) (dt : F64) (n : Fin nBuckets)
    (hn : w.topBucket H = (n : ℤ)) :
    ∃ w1, w.Run H dt = some w1 ∧
      (w1.bucket n).amount
        = clamp (w.bucket n).capacity
            (clamp (w.bucket n).capacity ((w.bucket n).amount + w.iflow * dt)
              + (-w.oflow) * dt) ∧
      (∀ i, i ≠ n → (w1.bucket i).amount
        = clamp (w.bucket i).capacity ((w.bucket i).amount + (-w.oflow) * dt)) ∧
      ∀ i, (w1.bucket i).capacity = (w.bucket i).capacity := by
  refine ⟨_, Run_of_top H w dt n hn, ?_, fun i hi => ?_, fun i => ?_⟩
  · rw [advance_bucket, if_pos rfl, bucket.add_amount, bucket.add_amount,
      bucket.add_capacity]
  · rw [advance_bucket, if_neg hi, bucket.add_amount]
  · rw [advance_bucket]
    split_ifs with hi
    · rw [bucket.add_capacity, bucket.add_capacity, hi]
    · rw [bucket.add_capacity]

/-- Witness of `run_mass_update`: the fresh reference wheel `New(1.0, 0.2)`,
whose top bucket is 0, and `dt = 1e-5`. -/
theorem run_mass_update_witness :
    ∃ w1, (New (fin 1) (fin (1 / 5))).Run sampleHost (fin (1 / 100000)) = some w1 ∧
      (w1.bucket 0).amount
        = clamp ((New (fin 1) (fin (1 / 5))).bucket 0).capacity
            (clamp ((New (fin 1) (fin (1 / 5))).bucket 0).capacity
                (((New (fin 1) (fin (1 / 5))).bucket 0).amount
                  + (New (fin 1) (fin (1 / 5))).iflow * fin (1 / 100000))
              + (-(New (fin 1) (fin (1 / 5))).oflow) * fin (1 / 100000)) ∧
      (∀ i, i ≠ 0 → (w1.bucket i).amount
        = clamp ((New (fin 1) (fin (1 / 5))).bucket i).capacity
            (((New (fin 1) (fin (1 / 5))).bucket i).amount
              + (-(New (fin 1) (fin (1 / 5))).oflow) * fin (1 / 100000))) ∧
      ∀ i, (w1.bucket i).capacity = ((New (fin 1) (fin (1 / 5))).bucket i).capacity :=
  run_mass_update sampleHost (New (fin 1) (fin (1 / 5))) (fin (1 / 100000)) 0
    (New_topBucket sampleHost _ _)

/-- **C6** (kinematic update of one step).  For every wheel state and every
`dt` (the index `n = topBucket()` being one of a bucket), with `a` the angular
acceleration computed in the step, `Run(dt)` ends with `av' = av + a*dt` and
`theta' = theta + av'*dt`: the position advances with the updated velocity. -/
theorem run_kinematics (H : Host) (w : Wheel) (dt : F64) (n : Fin nBuckets)
    (hn : w.topBucket H = (n : ℤ)) :
    ∃ w1, w.Run H dt = some w1 ∧
      w1.av = w.av + w.aa H w1.bucket * dt ∧
      w1.theta = w.theta + w1.av * dt :=
  ⟨_, Run_of_top H w dt n hn, rfl, rfl⟩

/-- Witness of `run_kinematics`: the fresh reference wheel and `dt = 1e-5`. -/
theorem run_kinematics_witness :
    ∃ w1, (New (fin 1) (fin (1 / 5))).Run sampleHost (fin (1 / 100000)) = some w1 ∧
      w1.av = (New (fin 1) (fin (1 / 5))).av
        + (New (fin 1) (fin (1 / 5))).aa sampleHost w1.bucket * fin (1 / 100000) ∧
      w1.theta = (New (fin 1) (fin (1 / 5))).theta + w1.av * fin (1 / 100000) :=
  run_kinematics sampleHost (New (fin 1) (fin (1 / 5))) (fin (1 / 100000)) 0
    (New_topBucket sampleHost _ _)

/-- Counterexample to **C8** as stated: on the fresh reference wheel
`New(1.0, 0.2)`, whose buckets are all empty, `Run(0)` divides `0` by `0`: it
turns `av` from `0.01` into NaN and `theta` from `0` into NaN. -/
theorem zero_step_fresh_wheel_counterexample :
    ∃ w1, (New (fin 1) (fin (1 / 5))).Run sampleHost (fin 0) = some w1 ∧
      (New (fin 1) (fin (1 / 5))).av = fin (1 / 100) ∧ w1.av = nan ∧
      (New (fin 1) (fin (1 / 5))).theta = fin 0 ∧ w1.theta = nan := by
  have hg := Good.New 1 (1 / 5)
  have hb : ∀ i, (((New (fin 1) (fin (1 / 5))).advance sampleHost 0 (fin 0)).bucket i).amount
      = fin ((fun _ => 0) i) := by
    intro i
    rw [hg.advance_zero_bucket sampleHost 0, New_bucket]
  have haa := aa_fin sampleHost (New (fin 1) (fin (1 / 5))) _ (fun _ => 0) 0 (tau / 8) hb
    (fun _ => le_refl _) rfl hg.arc_eq
  rw [if_pos (by simp)] at haa
  refine ⟨_, Run_of_top sampleHost _ (fin 0) 0 (New_topBucket sampleHost _ _), rfl, ?_, rfl, ?_⟩
  · show (New (fin 1) (fin (1 / 5))).av + (New (fin 1) (fin (1 / 5))).aa sampleHost
      ((New (fin 1) (fin (1 / 5))).advance sampleHost 0 (fin 0)).bucket * fin 0 = nan
    rw [haa]
    rfl
  · show (New (fin 1) (fin (1 / 5))).theta + ((New (fin 1) (fin (1 / 5))).av
      + (New (fin 1) (fin (1 / 5))).aa sampleHost
        ((New (fin 1) (fin (1 / 5))).advance sampleHost 0 (fin 0)).bucket * fin 0) * fin 0 = nan
    rw [haa]
    rfl

/-- **C11** (top-bucket values).  With `arc = tau/8`, `topBucket()` returns 0
for `theta = 0`, and for every integer `k` with `0 <= k < 8` and every `epsilon`
with `0 <= epsilon < arc` it returns `k` for `theta = arc*k + epsilon`. -/
theorem topBucket_values (H : Host) (w : Wheel) (harc : w.arc = fin (tau / 8)) :
    (w.theta = fin 0 → w.topBucket H = 0) ∧
      ∀ (k : ℕ) (e : ℚ), k < 8 → 0 ≤ e → e < tau / 8 →
        w.theta = fin (tau / 8 * k + e) → w.topBucket H = k := by
  have hτ := tau_pos
  have key : ∀ (k : ℕ) (e : ℚ), k < 8 → 0 ≤ e → e < tau / 8 →
      w.theta = fin (tau / 8 * k + e) → w.topBucket H = k := by
    intro k e hk he0 he1 hθ
    rw [topBucket_fin H w _ hθ harc]
    have hk8 : (k : ℚ) ≤ 7 := by exact_mod_cast Nat.le_of_lt_succ hk
    have hq : (tau / 8 * k + e) / tau = k / 8 + e / tau := by
      field_simp
      ring
    have he2 : e / tau < 1 / 8 := by
      rw [div_lt_iff₀ hτ]
      linarith
    have he3 : 0 ≤ e / tau := div_nonneg he0 hτ.le
    have hfr : Int.fract ((k : ℚ) / 8 + e / tau) = k / 8 + e / tau := by
      rw [Int.fract_eq_self]
      constructor
      · positivity
      · linarith
    rw [hq, hfr, Int.floor_eq_iff]
    push_cast
    constructor <;> linarith
  refine ⟨fun h0 => ?_, key⟩
  have := key 0 0 (by norm_num) le_rfl (by positivity) (by rw [h0]; norm_num)
  simpa using this

/-- Witness of `topBucket_values`: the fresh reference wheel has `theta = 0` and
top bucket 0; turned to `theta = 3*arc + 1/10` its top bucket is 3. -/
theorem topBucket_values_witness :
    (New (fin 1) (fin (1 / 5))).topBucket sampleHost = 0 ∧
      (wheelAt (tau / 8 * (3 : ℕ) + 1 / 10)).topBucket sampleHost = (3 : ℕ) :=
  ⟨(topBucket_values sampleHost (New (fin 1) (fin (1 / 5))) (New_arc _ _)).1 rfl,
    (topBucket_values sampleHost (wheelAt (tau / 8 * (3 : ℕ) + 1 / 10))
      (New_arc (fin 1) (fin (1 / 5)))).2 3 (1 / 10) (by norm_num) (by norm_num)
      (by norm_num [tau]) rfl⟩

/-- Counterexample to **C13** as stated: `topBucket()` divides by the field
`arc`, so wheels with the same `theta` need not get the same index.  The
reference wheel turned to `theta = 1` has top bucket 1, and 2 once its `arc` is
`tau/16`; the zero value `Wheel{}` has `theta = 0` like the fresh wheel, whose
top bucket is 0, but its `arc` is 0 and its index is the conversion of
`0/0 = NaN`, which is `-2^63` on the sample (amd64) host. -/
theorem topBucket_theta_alone_counterexample :
    (({ wheelAt 1 with arc := fin (tau / 16) } : Wheel).theta = (wheelAt 1).theta ∧
        (wheelAt 1).topBucket sampleHost = 1 ∧
        ({ wheelAt 1 with arc := fin (tau / 16) } : Wheel).topBucket sampleHost = 2) ∧
      (zeroWheel.theta = (New (fin 1) (fin (1 / 5))).theta ∧
        (New (fin 1) (fin (1 / 5))).topBucket sampleHost = 0 ∧
        zeroWheel.topBucket sampleHost = -(2 : ℤ) ^ 63) := by
  have hτ := tau_pos
  have hfr : Int.fract (1 / tau) = 1 / tau := by
    rw [Int.fract_eq_self]
    constructor
    · positivity
    · rw [div_lt_one hτ]
      norm_num [tau]
  refine ⟨⟨rfl, ?_, ?_⟩, rfl, ?_, ?_⟩
  · rw [topBucket_fin_arc sampleHost (wheelAt 1) 1 (tau / 8) rfl
      (New_arc (fin 1) (fin (1 / 5))) (by positivity)]
    all_goals rw [hfr]
    · rw [Int.floor_eq_iff]
      norm_num [tau]
    · rw [Int.floor_lt]
      norm_num [tau]
  · rw [topBucket_fin_arc sampleHost ({ wheelAt 1 with arc := fin (tau / 16) } : Wheel) 1
      (tau / 16) rfl rfl (by positivity)]
    all_goals rw [hfr]
    · rw [Int.floor_eq_iff]
      norm_num [tau]
    · rw [Int.floor_lt]
      norm_num [tau]
  · simpa using New_topBucket sampleHost (fin 1) (fin (1 / 5))
  · unfold Wheel.topBucket
    rw [topAngle_fin zeroWheel 0 rfl]
    simp [zeroWheel, F64.div, Trunc, toInt, sampleHost, amd64]

/-- **C13**, amended (top-bucket determinism).  `topBucket()` is a function of
`theta` and `arc` alone: two wheels with the same `theta` and the same `arc`,
whatever their other fields, get the same index; and as `arc` is `tau/8` on
every wheel reached from `New`, two such wheels with the same `theta` get the
same index.  (The embedding of the method returns the index only: the method
assigns to no field.) -/
theorem topBucket_deterministic (H : Host) (w1 w2 : Wheel) (hθ : w1.theta = w2.theta)
    (harc : w1.arc = w2.arc ∨
      ((∃ iflow oflow dts, (New iflow oflow).runs H dts = some w1) ∧
        ∃ iflow oflow dts, (New iflow oflow).runs H dts = some w2)) :
    w1.topBucket H = w2.topBucket H := by
  have h : w1.arc = w2.arc := by
    rcases harc with h | ⟨⟨i1, o1, d1, h1⟩, i2, o2, d2, h2⟩
    · exact h
    · rw [(runs_frame H d1 h1).2.2.1, (runs_frame H d2 h2).2.2.1, New_arc, New_arc]
  unfold Wheel.topBucket Wheel.topAngle
  rw [hθ, h]

/-- Witness of `topBucket_deterministic`: the fresh wheels `New(1.0, 0.2)` and
`New(3.0, 0.5)` differ in their flows and capacities and have the same
`theta = 0`. -/
theorem topBucket_deterministic_witness :
    (New (fin 1) (fin (1 / 5))).topBucket sampleHost
      = (New (fin 3) (fin (1 / 2))).topBucket sampleHost :=
  topBucket_deterministic sampleHost (New (fin 1) (fin (1 / 5))) (New (fin 3) (fin (1 / 2)))
    rfl (Or.inr ⟨⟨fin 1, fin (1 / 5), [], rfl⟩, fin 3, fin (1 / 2), [], rfl⟩)

/-- **C14** (frame of `Run`).  For every wheel state and every `dt`, a `Run(dt)`
leaves `iflow`, `oflow`, `arc` and the capacity of every bucket unchanged; and
in every state reached from `New(iflow, oflow)` by `Run` calls, `iflow` and
`oflow` are the arguments of `New`, `arc = tau/8` and every capacity is
`10 * iflow`. -/
theorem run_frame (H : Host) :
    (∀ (w w1 : Wheel) (dt : F64), w.Run H dt = some w1 →
      w1.iflow = w.iflow ∧ w1.oflow = w.oflow ∧ w1.arc = w.arc ∧
        ∀ i, (w1.bucket i).capacity = (w.bucket i).capacity) ∧
      ∀ (iflow oflow : F64) (dts : List F64) (w : Wheel),
        (New iflow oflow).runs H dts = some w →
          w.iflow = iflow ∧ w.oflow = oflow ∧ w.arc = fin (tau / 8) ∧
            ∀ i, (w.bucket i).capacity = fin 10 * iflow := by
  constructor
  · intro w w1 dt h
    obtain ⟨n, -, rfl⟩ := Run_inv h
    exact ⟨rfl, rfl, rfl, fun i => advance_capacity H w n i dt⟩
  · intro iflow oflow dts w h
    obtain ⟨h1, h2, h3, h4⟩ := runs_frame H dts h
    refine ⟨h1, h2, h3.trans (New_arc _ _), fun i => ?_⟩
    rw [h4 i, New_bucket]

/-- Witness of `run_frame`: one `Run(1e-5)` on the reference wheel
`New(1.0, 0.2)` returns and keeps the flows, `arc = tau/8` and the capacities
`10 * 1.0`. -/
theorem run_frame_witness :
    ∃ w, (New (fin 1) (fin (1 / 5))).runs sampleHost [fin (1 / 100000)] = some w ∧
      w.iflow = fin 1 ∧ w.oflow = fin (1 / 5) ∧ w.arc = fin (tau / 8) ∧
        ∀ i, (w.bucket i).capacity = fin 10 * fin 1 := by
  obtain ⟨n, -, hn⟩ := Run_fin sampleHost (New (fin 1) (fin (1 / 5))) 0 (fin (1 / 100000))
    rfl (New_arc _ _)
  have hrun : (New (fin 1) (fin (1 / 5))).runs sampleHost [fin (1 / 100000)]
      = some ((New (fin 1) (fin (1 / 5))).advance sampleHost n (fin (1 / 100000))) := by
    simp only [Wheel.runs, hn, Option.some_bind]
  exact ⟨_, hrun, (run_frame sampleHost).2 _ _ _ _ hrun⟩

/-- **C15** (unguarded zero inertia).  `Run` has no special case for `I == 0`:
for every wheel whose buckets are all empty after the inflow/outflow update of
the step (and whose top-bucket index is one of a bucket), the step returns with
`I = 0`, the torque is `0` when `theta` and `arc` are finite, the acceleration
`torque / ai` is NaN, `av` and `theta` are NaN after the step, and they are
NaN after every later sequence of `Run` calls. -/
theorem zero_inertia_nan (H : Host) (w : Wheel) (dt : F64) (n : Fin nBuckets)
    (hn : w.topBucket H = (n : ℤ))
    (hempty : ∀ i, (w.drain (w.fill n dt) dt i).amount = fin 0) :
    ∃ w1, w.Run H dt = some w1 ∧
      (w.sums H w1.bucket).ai = fin 0 ∧
      (∀ t a, w.theta = fin t → w.arc = fin a → (w.sums H w1.bucket).torque = fin 0) ∧
      w.aa H w1.bucket = nan ∧ w1.av = nan ∧ w1.theta = nan ∧
      ∀ dts w2, w1.runs H dts = some w2 → w2.av = nan ∧ w2.theta = nan := by
  have hm : ∀ i, ((w.advance H n dt).bucket i).amount = fin 0 := hempty
  have he := aa_empty H w (w.advance H n dt).bucket hm
  have hnan := advance_empty H w n dt hm
  refine ⟨_, Run_of_top H w dt n hn, he.1, ?_, he.2, hnan.1, hnan.2, ?_⟩
  · intro t a ht ha
    rw [sums_fin H w _ (fun _ => 0) t a hm ht ha]
    simp
  · intro dts w2 hr
    exact runs_nan H dts hnan.1 hnan.2 hr

/-- Witness of `zero_inertia_nan`: the fresh reference wheel `New(1.0, 0.2)` and
`dt = 0`, on the arm64 host. -/
theorem zero_inertia_nan_witness :
    ∃ w1, (New (fin 1) (fin (1 / 5))).Run sampleHostArm (fin 0) = some w1 ∧
      ((New (fin 1) (fin (1 / 5))).sums sampleHostArm w1.bucket).ai = fin 0 ∧
      (∀ t a, (New (fin 1) (fin (1 / 5))).theta = fin t →
        (New (fin 1) (fin (1 / 5))).arc = fin a →
          ((New (fin 1) (fin (1 / 5))).sums sampleHostArm w1.bucket).torque = fin 0) ∧
      (New (fin 1) (fin (1 / 5))).aa sampleHostArm w1.bucket = nan ∧
      w1.av = nan ∧ w1.theta = nan ∧
      ∀ dts w2, w1.runs sampleHostArm dts = some w2 → w2.av = nan ∧ w2.theta = nan :=
  zero_inertia_nan sampleHostArm (New (fin 1) (fin (1 / 5))) (fin 0) 0
    (New_topBucket sampleHostArm _ _)
    (fun i => by
      show (((New (fin 1) (fin (1 / 5))).advance sampleHostArm 0 (fin 0)).bucket i).amount
        = fin 0
      rw [(Good.New 1 (1 / 5)).advance_zero_bucket sampleHostArm 0, New_bucket])

/-- **C17** (closed form of the clamp, and its order).  For every bucket, with
any finite amount and any finite capacity, negative capacities included, and
every finite `x`, `add(x)` sets the amount to
`max(0, min(capacity, amount + x))` and leaves the capacity unchanged; so when
`capacity < 0` the floor at 0 wins: the result is 0, which exceeds the
capacity. -/
theorem bucket_add_closed_form (a c x : ℚ) :
    bucket.add { amount := fin a, capacity := fin c } (fin x)
        = { amount := fin (max 0 (min c (a + x))), capacity := fin c } ∧
      (c < 0 →
        (bucket.add { amount := fin a, capacity := fin c } (fin x)).amount = fin 0 ∧
          (bucket.add { amount := fin a, capacity := fin c } (fin x)).capacity
            < (bucket.add { amount := fin a, capacity := fin c } (fin x)).amount) := by
  refine ⟨bucket.add_fin a c x, fun hc => ?_⟩
  rw [bucket.add_fin]
  have h0 : max 0 (min c (a + x)) = 0 :=
    max_eq_left ((min_le_left _ _).trans hc.le)
  simp [h0, F64.lt, hc]

/-- Witness of `bucket_add_closed_form`: a bucket of capacity `-10`, as
`New(-1.0, oflow)` builds, holding 0 takes `add(3)` and ends with amount 0,
above its capacity. -/
theorem bucket_add_closed_form_witness :
    (bucket.add { amount := fin 0, capacity := fin (-10) } (fin 3)).amount = fin 0 ∧
      (bucket.add { amount := fin 0, capacity := fin (-10) } (fin 3)).capacity
        < (bucket.add { amount := fin 0, capacity := fin (-10) } (fin 3)).amount :=
  (bucket_add_closed_form 0 (-10) 3).2 (by norm_num)

/-- Counterexample to **C16** as stated: the reference wheel `New(1.0, 0.2)`
reaches by `Run(0)` a state with `arc = tau/8` whose `theta` is NaN; there
`topBucket()` is `-2^63` on the sample (amd64) host, no index `i` equals it,
and `String()` prefixes every entry with a space and none with `*`. -/
theorem string_marker_counterexample :
    ∃ w, (New (fin 1) (fin (1 / 5))).Run sampleHost (fin 0) = some w ∧
      w.arc = fin (tau / 8) ∧
      ∀ (fmt : F64 → String) (i : Fin nBuckets),
        (w.entries sampleHost fmt i).data.head? = some ' ' := by
  have hg := Good.New 1 (1 / 5)
  have hz : ∀ i, (((New (fin 1) (fin (1 / 5))).advance sampleHost 0 (fin 0)).bucket i).amount
      = fin 0 := by
    intro i
    rw [hg.advance_zero_bucket sampleHost 0, New_bucket]
  have hnan := advance_empty sampleHost (New (fin 1) (fin (1 / 5))) 0 (fin 0) hz
  have htop := topBucket_nan sampleHost _ hnan.2
  refine ⟨_, Run_of_top sampleHost _ (fin 0) 0 (New_topBucket sampleHost _ _),
    New_arc (fin 1) (fin (1 / 5)), fun fmt i => ?_⟩
  rw [entries_data, htop]
  have hne : ¬ (((i : ℕ) : ℤ) = sampleHost.cvt nan) := by
    have h0 : (0 : ℤ) ≤ ((i : ℕ) : ℤ) := Int.natCast_nonneg _
    have hc : sampleHost.cvt nan = -(2 : ℤ) ^ 63 := rfl
    rw [hc]
    omega
  rw [if_neg hne]
  rfl

/-- Counterexample to **C1** as stated.  With `dt = NaN` one `Run` on the
reference wheel `New(1.0, 0.2)` leaves NaN in every bucket, and `0 <= NaN` is
false.  With finite flows whose capacity `10 * iflow` overflows,
`New(2^1023, 2^1023)`, the step `Run(2)` on `float64` adds `iflow * 2 = +Inf` to
bucket 0, which the capacity `+Inf` does not cap, and then `-oflow * 2 = -Inf`:
the amount is `Inf - Inf`, NaN. -/
theorem run_bounded_counterexample :
    (∃ w, (New (fin 1) (fin (1 / 5))).Run sampleHost nan = some w ∧
        ∀ i, (w.bucket i).amount = nan ∧ ¬ (fin 0 ≤ (w.bucket i).amount)) ∧
      ((0 : ℚ) ≤ 2 ^ 1023 ∧
        ∃ w, (New64 (fin (2 ^ 1023)) (fin (2 ^ 1023))).Run64 sampleHost (fin 2) = some w ∧
          (w.bucket 0).amount = nan ∧ ¬ (fin 0 ≤ (w.bucket 0).amount)) := by
  refine ⟨⟨_, Run_of_top sampleHost _ nan 0 (New_topBucket sampleHost _ _), fun i => ?_⟩,
    by positivity,
    _, Run64_of_top sampleHost _ (fin 2) 0 (topBucket64_zero sampleHost _ rfl (New64_arc _ _)),
    ?_⟩
  · have h : (((New (fin 1) (fin (1 / 5))).advance sampleHost 0 nan).bucket i).amount = nan := by
      rw [advance_bucket, bucket.add_amount]
      have e : (-(New (fin 1) (fin (1 / 5))).oflow) * nan = nan := rfl
      rw [e, F64.add_nan, clamp_nan]
    rw [h]
    exact ⟨rfl, by simp [F64.le]⟩
  · have h : (((New64 (fin (2 ^ 1023)) (fin (2 ^ 1023))).advance64 sampleHost 0 (fin 2)).bucket
        0).amount = nan := by
      show ((New64 (fin (2 ^ 1023)) (fin (2 ^ 1023))).drain64
        ((New64 (fin (2 ^ 1023)) (fin (2 ^ 1023))).fill64 0 (fin 2)) (fin 2) 0).amount = nan
      rw [drain64_apply, overflow_fill]
      have hx : ((-(New64 (fin (2 ^ 1023)) (fin (2 ^ 1023))).oflow) * fin 2).r64 = ninf :=
        round64_neg_two_big
      rw [hx]
      simp [bucket.add64, F64.add, F64.r64, F64.lt]
    rw [h]
    exact ⟨rfl, by simp [F64.le]⟩

/-- **C1**, amended (reachable-state invariant), on `float64`.  For every wheel
built by `New(iflow, oflow)` with finite `iflow >= 0` and `oflow >= 0` and a
finite capacity (`10 * iflow` at most the largest `float64`), and every finite
sequence of `Run(dt)` calls with values `dt`, finite or infinite, for which
neither `iflow * dt` nor `-oflow * dt` is NaN, the state `w` left by the calls
has `0 <= amount <= capacity` in each of the 8 buckets, and no amount is
negative.  As the sequence is arbitrary, this is the state after each call. -/
theorem run_keeps_buckets_bounded (H : Host) (iflow oflow : ℚ) (dts : List F64) (w : Wheel)
    (hi : 0 ≤ iflow) (_ho : 0 ≤ oflow) (hcap : 10 * iflow ≤ maxFloat64)
    (hdt : ∀ dt ∈ dts, fin iflow * dt ≠ nan ∧ (-fin oflow) * dt ≠ nan)
    (hrun : (New64 (fin iflow) (fin oflow)).runs64 H dts = some w) :
    w.bounded ∧ ∀ i, ¬ (w.bucket i).amount < fin 0 := by
  have h0 := (New64_capacity iflow oflow hi hcap 0).2
  have hw := runs64_within H (nearest64 (10 * iflow)) h0 dts
    (w := New64 (fin iflow) (fin oflow)) hdt
    (fun i => by
      rw [(New64_capacity iflow oflow hi hcap i).1]
      exact ⟨rfl, 0, rfl, le_rfl, h0⟩) hrun
  constructor
  · intro i
    obtain ⟨hc, a, ha, ha0, hac⟩ := hw i
    rw [ha, hc]
    simp [F64.le, ha0, hac]
  · intro i
    obtain ⟨-, a, ha, ha0, -⟩ := hw i
    rw [ha]
    simp [F64.lt, ha0]

/-- Witness of `run_keeps_buckets_bounded`: the wheel `New(1.0, 0.25)` after
one `Run(0.5)`. -/
theorem run_keeps_buckets_bounded_witness :
    ∃ w, (New64 (fin 1) (fin (1 / 4))).runs64 sampleHost [fin (1 / 2)] = some w ∧
      w.bounded ∧ ∀ i, ¬ (w.bucket i).amount < fin 0 := by
  have hn := Run64_of_top sampleHost (New64 (fin 1) (fin (1 / 4))) (fin (1 / 2)) 0
    (topBucket64_zero sampleHost _ rfl (New64_arc _ _))
  have hrun : (New64 (fin 1) (fin (1 / 4))).runs64 sampleHost [fin (1 / 2)]
      = some ((New64 (fin 1) (fin (1 / 4))).advance64 sampleHost 0 (fin (1 / 2))) := by
    simp only [Wheel.runs64, hn, Option.some_bind]
  exact ⟨_, hrun, run_keeps_buckets_bounded sampleHost 1 (1 / 4) [fin (1 / 2)] _
    (by norm_num) (by norm_num) (by norm_num [maxFloat64])
    (by intro dt hdt; simp at hdt; subst hdt; simp [F64.mul, F64.neg]) hrun⟩

/-- **C4**, amended (first step from a fresh wheel), on `float64`.  For finite
`iflow > oflow >= 0` whose capacity `10 * iflow` does not overflow and every
`dt` with `0 < dt <= 10` for which the water left in bucket 0, the rounded
difference of the rounded products `iflow * dt` and `oflow * dt`, is positive:
after `New(iflow, oflow)` and one `Run(dt)` bucket 0 holds that rounded
difference, buckets 1..7 hold 0, the torque of the step is 0, `av` is still the
seed value (the `float64` nearest to `0.01`) and `theta` is the rounded product
of the seed value and `dt`. -/
theorem first_step (H : Host) (iflow oflow dt : ℚ)
    (hio : oflow < iflow) (ho : 0 ≤ oflow) (hdt : 0 < dt) (hdt10 : dt ≤ 10)
    (hcap : 10 * iflow ≤ maxFloat64)
    (hpos : fin 0 < ((fin iflow * fin dt).r64 + ((-fin oflow) * fin dt).r64).r64) :
    ∃ w1, (New64 (fin iflow) (fin oflow)).Run64 H (fin dt) = some w1 ∧
      (w1.bucket 0).amount = ((fin iflow * fin dt).r64 + ((-fin oflow) * fin dt).r64).r64 ∧
      (∀ k : Fin nBuckets, k ≠ 0 → (w1.bucket k).amount = fin 0) ∧
      ((New64 (fin iflow) (fin oflow)).sums64 H w1.bucket).torque = fin 0 ∧
      w1.av = round64 (1 / 100) ∧ w1.theta = (round64 (1 / 100) * fin dt).r64 :=
  New64_first_step H iflow oflow dt hio ho hdt hdt10 hcap hpos

/-- Witness of `first_step`: the reference run `New(1.0, 0.2)`, `Run(0.00001)`
leaves `8.000000000000001e-06` in bucket 0, `av = 0.01` and
`theta = 1.0000000000000001e-07`. -/
theorem first_step_witness :
    ∃ w1, (New64 (fin 1) (fin oflowRef)).Run64 sampleHost (fin dtRef) = some w1 ∧
      (w1.bucket 0).amount = fin (2361183241434823 / 2 ^ 68) ∧
      (∀ k : Fin nBuckets, k ≠ 0 → (w1.bucket k).amount = fin 0) ∧
      ((New64 (fin 1) (fin oflowRef)).sums64 sampleHost w1.bucket).torque = fin 0 ∧
      w1.av = fin (5764607523034235 / 2 ^ 59) ∧
      w1.theta = fin (7555786372591433 / 2 ^ 76) := by
  have h := first_step sampleHost 1 oflowRef dtRef (by norm_num [oflowRef])
    (by norm_num [oflowRef]) (by norm_num [dtRef]) (by norm_num [dtRef])
    (by norm_num [maxFloat64])
    (by
      rw [round64_ref_inflow, round64_ref_outflow, round64_ref_left]
      norm_num [F64.lt])
  rw [round64_ref_inflow, round64_ref_outflow, round64_ref_left, round64_seed,
    round64_ref_theta] at h
  exact h

/-- Counterexample to **C4** as stated, on `float64`.  With `iflow = 2^1023`,
`oflow = 0` and `dt = 2` the inflow `iflow * dt` overflows: bucket 0 holds
`+Inf`, the torque is `Inf * sin(0)`, NaN, and `av` and `theta` are NaN.  With
`iflow = 2^-1074`, `oflow = 0` and `dt = 0.5` the inflow rounds to `0`: bucket 0
stays empty and `av` is NaN.  On the reference run `New(1.0, 0.2)`,
`Run(0.00001)` bucket 0 holds `8.000000000000001e-06`, which is neither
`(iflow - oflow) * dt` nor the `float64` `8e-6`, and `theta` is
`1.0000000000000001e-07`, neither `0.01 * dt` nor the `float64` `1e-7`. -/
theorem first_step_counterexample :
    ((0 : ℚ) < 2 ^ 1023 ∧ (0 : ℚ) < 2 ∧ (2 : ℚ) ≤ 10 ∧
      ∃ w1, (New64 (fin (2 ^ 1023)) (fin 0)).Run64 sampleHost (fin 2) = some w1 ∧
        ((New64 (fin (2 ^ 1023)) (fin 0)).sums64 sampleHost w1.bucket).torque = nan ∧
        w1.av = nan ∧ w1.theta = nan) ∧
    ((0 : ℚ) < 2 ^ (-1074 : ℤ) ∧
      ∃ w1, (New64 (fin (2 ^ (-1074 : ℤ))) (fin 0)).Run64 sampleHost (fin (1 / 2)) = some w1 ∧
        (w1.bucket 0).amount = fin 0 ∧ w1.av = nan) ∧
    (∃ w1, (New64 (fin 1) (fin oflowRef)).Run64 sampleHost (fin dtRef) = some w1 ∧
      (w1.bucket 0).amount = fin (2361183241434823 / 2 ^ 68) ∧
      (2361183241434823 / 2 ^ 68 : ℚ) ≠ (1 - oflowRef) * dtRef ∧
      round64 (8 / 1000000) ≠ fin (2361183241434823 / 2 ^ 68) ∧
      w1.theta = fin (7555786372591433 / 2 ^ 76) ∧
      (7555786372591433 / 2 ^ 76 : ℚ) ≠ 5764607523034235 / 2 ^ 59 * dtRef ∧
      round64 (1 / 10000000) ≠ fin (7555786372591433 / 2 ^ 76)) := by
  refine ⟨⟨by positivity, by norm_num, by norm_num, _,
      Run64_of_top sampleHost _ (fin 2) 0 (topBucket64_zero sampleHost _ rfl (New64_arc _ _)),
      ?_, ?_⟩, ⟨by positivity, _,
      Run64_of_top sampleHost _ (fin (1 / 2)) 0
        (topBucket64_zero sampleHost _ rfl (New64_arc _ _)),
      underflow_first_step sampleHost 0,
      (advance64_empty sampleHost _ 0 _ (underflow_first_step sampleHost)).1⟩, ?_⟩
  · exact sums64_torque_nan sampleHost _ _ rfl (overflow_first_step sampleHost)
  · exact advance64_nan sampleHost _ 0 (fin 2)
      (sums64_torque_nan sampleHost _ _ rfl (overflow_first_step sampleHost))
  · obtain ⟨w1, h1, h2, -, -, -, h3⟩ := reference_first_step
    refine ⟨w1, h1, h2, by norm_num [oflowRef, dtRef], ?_, h3, by norm_num [dtRef], ?_⟩
    · rw [round64_8e6]
      norm_num
    · rw [round64_1e7]
      norm_num

/-- Counterexample to **C7** as stated, on `float64`: in the second step of the
reference run (`theta = 1.0000000000000001e-07` after `New(1.0, 0.2)`,
`Run(0.00001)`) the accumulator `angle` is `1.5707964267948964` when the loop
reaches bucket 2, while `theta + 2 * arc` is `1.5707964267948966`. -/
theorem run_torque_accumulator_counterexample :
    ∃ w1, (New64 (fin 1) (fin oflowRef)).Run64 sampleHost (fin dtRef) = some w1 ∧
      (w1.sumsAt64 sampleHost w1.bucket 2).angle = fin (3537119101194201 / 2 ^ 51) ∧
      (w1.theta + (fin 2 * w1.arc).r64).r64 = fin (7074238202388403 / 2 ^ 52) ∧
      (3537119101194201 / 2 ^ 51 : ℚ) ≠ 7074238202388403 / 2 ^ 52 := by
  obtain ⟨w1, h1, -, -, -, -, h2⟩ := reference_first_step
  have harc : w1.arc = fin (tau / 8) := by
    obtain ⟨n, -, rfl⟩ := Run64_inv h1
    exact New64_arc (fin 1) (fin oflowRef)
  have h := angle64_reference w1 h2 harc
  refine ⟨w1, h1, ?_, h.2, by norm_num⟩
  rw [sumsAt64_angle sampleHost w1 _ 2 (by norm_num)]
  exact h.1

/-- **C7**, amended (torque and inertia of one step), on `float64`.  For every
wheel state and every `dt`, the angular acceleration used by `Run(dt)` is the
rounded quotient `T / I`, where `I` is the sum over `i` in 0..7 of `m_i` and `T`
the sum of the rounded products `m_i * sin(angle_i)`, both accumulated from
`0.0` in index order with every partial sum rounded, `m_i` being the bucket
amounts after the inflow/outflow update of this step; `av` becomes
`av + aa * dt`; and `angle_i`, the accumulator of the loop at bucket `i`, is the
pre-step `theta` with `arc` added `i` times, each sum rounded (which is
`theta + i*arc` only up to rounding). -/
theorem run_torque_inertia (H : Host) (w : Wheel) (dt : F64) (n : Fin nBuckets)
    (hn : w.topBucket64 H = (n : ℤ)) :
    ∃ w1, w.Run64 H dt = some w1 ∧
      w.aa64 H w1.bucket
        = (F64.sum64 ((List.finRange nBuckets).map fun i =>
              ((w1.bucket i).amount * Sin H (w.angle64 i)).r64)
            / F64.sum64 ((List.finRange nBuckets).map fun i => (w1.bucket i).amount)).r64 ∧
      w1.av = (w.av + (w.aa64 H w1.bucket * dt).r64).r64 ∧
      (∀ i : ℕ, i ≤ nBuckets → (w.sumsAt64 H w1.bucket i).angle = w.angle64 i) ∧
      w.angle64 0 = w.theta ∧ ∀ i : ℕ, w.angle64 (i + 1) = (w.angle64 i + w.arc).r64 := by
  have hs := sums64_eq_sum H w (w.advance64 H n dt).bucket
  refine ⟨_, Run64_of_top H w dt n hn, ?_, rfl, fun i hi => sumsAt64_angle H w _ i hi, rfl,
    fun i => rfl⟩
  unfold Wheel.aa64
  rw [hs.1, hs.2]

/-- Witness of `run_torque_inertia`: the fresh reference wheel `New(1.0, 0.2)`
and `dt = 0.00001`. -/
theorem run_torque_inertia_witness :
    ∃ w1, (New64 (fin 1) (fin oflowRef)).Run64 sampleHost (fin dtRef) = some w1 ∧
      (New64 (fin 1) (fin oflowRef)).aa64 sampleHost w1.bucket
        = (F64.sum64 ((List.finRange nBuckets).map fun i =>
              ((w1.bucket i).amount
                * Sin sampleHost ((New64 (fin 1) (fin oflowRef)).angle64 i)).r64)
            / F64.sum64 ((List.finRange nBuckets).map fun i => (w1.bucket i).amount)).r64 ∧
      w1.av = ((New64 (fin 1) (fin oflowRef)).av
        + ((New64 (fin 1) (fin oflowRef)).aa64 sampleHost w1.bucket * fin dtRef).r64).r64 ∧
      (∀ i : ℕ, i ≤ nBuckets →
        ((New64 (fin 1) (fin oflowRef)).sumsAt64 sampleHost w1.bucket i).angle
          = (New64 (fin 1) (fin oflowRef)).angle64 i) ∧
      (New64 (fin 1) (fin oflowRef)).angle64 0 = (New64 (fin 1) (fin oflowRef)).theta ∧
      ∀ i : ℕ, (New64 (fin 1) (fin oflowRef)).angle64 (i + 1)
        = ((New64 (fin 1) (fin oflowRef)).angle64 i + (New64 (fin 1) (fin oflowRef)).arc).r64 :=
  run_torque_inertia sampleHost (New64 (fin 1) (fin oflowRef)) (fin dtRef) 0
    (topBucket64_zero sampleHost _ rfl (New64_arc _ _))

/-- **C10** (code bug), the code at the failing input, on `float64`.  For every
wheel with `arc = tau / 8` and `theta` in `[-2^-51, 0)`: `math.Mod(theta, tau)`
is `theta`, the sum `k += tau` rounds to `tau` itself, `topBucket()` returns
`int(tau / arc) = 8`, which is no index of the 8 buckets, and `Run(dt)` panics
at `w.bucket[n]` for every `dt`. -/
theorem topBucket_slip (H : Host) (w : Wheel) (t : ℚ) (dt : F64)
    (hθ : w.theta = fin t) (harc : w.arc = fin (tau / 8))
    (h1 : -(1 / 2 ^ 51) ≤ t) (h2 : t < 0) :
    w.topAngle64 = fin tau ∧ w.topBucket64 H = 8 ∧
      ¬ (w.topBucket64 H < (nBuckets : ℤ)) ∧ w.Run64 H dt = none := by
  obtain ⟨ha, hn⟩ := topBucket64_slip H w t hθ harc h1 h2
  refine ⟨ha, hn, by rw [hn]; norm_num, ?_⟩
  apply Run64_none_of_top
  rw [hn]
  norm_num

/-- Witness of `topBucket_slip`: the reference wheel at the angle
`theta = -9.999991565945465e-18 = -377789 / 2^75` that the calls `Run(1e-5)`,
`Run(-1.0000000001e-05)` leave, and `Run(0)`. -/
theorem topBucket_slip_witness :
    (wheelAt64 (-377789 / 2 ^ 75)).topAngle64 = fin tau ∧
      (wheelAt64 (-377789 / 2 ^ 75)).topBucket64 sampleHost = 8 ∧
      ¬ ((wheelAt64 (-377789 / 2 ^ 75)).topBucket64 sampleHost < (nBuckets : ℤ)) ∧
      (wheelAt64 (-377789 / 2 ^ 75)).Run64 sampleHost (fin 0) = none :=
  topBucket_slip sampleHost (wheelAt64 (-377789 / 2 ^ 75)) (-377789 / 2 ^ 75) (fin 0) rfl
    (wheelAt64_arc _) (by norm_num) (by norm_num)

/-- **C12** (code bug), the code at the failing input, on `float64`.  For
`theta` in `[-2^-51, 0)` and `arc = tau / 8`, `topBucket()` at `theta` is 8,
while at `theta + tau`, which is the `float64` `tau`, it is 0: the reduced angle
of the negative `theta` is `tau`, not a remainder below `tau`. -/
theorem topBucket_wraparound_slip (H : Host) (w w2 : Wheel) (t : ℚ)
    (hθ : w.theta = fin t) (harc : w.arc = fin (tau / 8))
    (hθ2 : w2.theta = (w.theta + fin tau).r64) (harc2 : w2.arc = fin (tau / 8))
    (h1 : -(1 / 2 ^ 51) ≤ t) (h2 : t < 0) :
    w2.theta = fin tau ∧ w.topBucket64 H = 8 ∧ w2.topBucket64 H = 0 ∧
      w.topBucket64 H ≠ w2.topBucket64 H := by
  have ht : w2.theta = fin tau := by
    rw [hθ2, hθ]
    exact round64_slip h1 h2
  have ha := (topBucket64_slip H w t hθ harc h1 h2).2
  have hb := topBucket64_tau H w2 ht harc2
  refine ⟨ht, ha, hb, ?_⟩
  rw [ha, hb]
  norm_num

/-- Witness of `topBucket_wraparound_slip`: the reference wheel at
`theta = -2^-60` and at `theta + tau`. -/
theorem topBucket_wraparound_slip_witness :
    (wheelAt64 tau).theta = fin tau ∧
      (wheelAt64 (-(1 / 2 ^ 60))).topBucket64 sampleHost = 8 ∧
      (wheelAt64 tau).topBucket64 sampleHost = 0 ∧
      (wheelAt64 (-(1 / 2 ^ 60))).topBucket64 sampleHost
        ≠ (wheelAt64 tau).topBucket64 sampleHost :=
  topBucket_wraparound_slip sampleHost (wheelAt64 (-(1 / 2 ^ 60))) (wheelAt64 tau)
    (-(1 / 2 ^ 60)) rfl (wheelAt64_arc _)
    (by
      show fin tau = round64 (-(1 / 2 ^ 60) + tau)
      rw [round64_slip (by norm_num) (by norm_num)])
    (wheelAt64_arc _) (by norm_num) (by norm_num)

/-- **C16**, amended (display marker), on `float64`.  For every wheel with
`arc = tau/8` and a finite `theta` whose exactly reduced angle lies more than
`2^-51` below `tau`, `String()` renders the 8 buckets in index order after the
header, and exactly one entry is prefixed with `*`, the one at index
`topBucket()`; every other entry is prefixed with a single space. -/
theorem string_marker (H : Host) (fmt : F64 → String) (w : Wheel) (t : ℚ)
    (hθ : w.theta = fin t) (harc : w.arc = fin (tau / 8)) (hb : belowTau t) :
    ∃ n : Fin nBuckets, w.topBucket64 H = ((n : ℕ) : ℤ) ∧
      (∀ i, w.entries64 H fmt i
        = (if i = n then "*" else " ") ++ fmt (w.bucket i).amount) ∧
      (∀ i, (w.entries64 H fmt i).data
        = (if i = n then '*' else ' ') :: (fmt (w.bucket i).amount).data) ∧
      (∀ i, (w.entries64 H fmt i).data.head? = some '*' ↔ i = n) ∧
      w.String64 H fmt
        = "theta " ++ fmt w.theta ++ " av " ++ fmt w.av ++ ": "
          ++ String.intercalate " " ((List.finRange nBuckets).map fun i =>
              (if i = n then "*" else " ") ++ fmt (w.bucket i).amount) := by
  obtain ⟨n, hn⟩ := topBucket64_below H w t hθ harc hb
  have hiff : ∀ i : Fin nBuckets, (((i : ℕ) : ℤ) = w.topBucket64 H) ↔ i = n := by
    intro i
    rw [hn]
    constructor
    · intro h
      exact Fin.ext (by exact_mod_cast h)
    · intro h
      rw [h]
  have he : ∀ i, w.entries64 H fmt i
      = (if i = n then "*" else " ") ++ fmt (w.bucket i).amount := by
    intro i
    rw [entries64_apply]
    by_cases h : i = n
    · rw [if_pos h, if_pos ((hiff i).mpr h)]
    · rw [if_neg h, if_neg (fun h' => h ((hiff i).mp h'))]
  have hd : ∀ i, (w.entries64 H fmt i).data
      = (if i = n then '*' else ' ') :: (fmt (w.bucket i).amount).data := by
    intro i
    rw [entries64_data]
    by_cases h : i = n
    · rw [if_pos h, if_pos ((hiff i).mpr h)]
    · rw [if_neg h, if_neg (fun h' => h ((hiff i).mp h'))]
  refine ⟨n, hn, he, hd, fun i => ?_, ?_⟩
  · rw [hd i]
    by_cases h : i = n
    · simp [h]
    · simp [h]
  · unfold Wheel.String64
    congr 2
    exact List.map_congr_left (fun i _ => he i)

/-- Witness of `string_marker`: the fresh reference wheel `New(1.0, 0.2)`,
whose `theta` is 0, with every amount rendered as `0.00`. -/
theorem string_marker_witness :
    ∃ n : Fin nBuckets, (New64 (fin 1) (fin oflowRef)).topBucket64 sampleHost = ((n : ℕ) : ℤ) ∧
      (∀ i, (New64 (fin 1) (fin oflowRef)).entries64 sampleHost (fun _ => "0.00") i
        = (if i = n then "*" else " ")
          ++ (fun _ => "0.00") ((New64 (fin 1) (fin oflowRef)).bucket i).amount) ∧
      (∀ i, ((New64 (fin 1) (fin oflowRef)).entries64 sampleHost (fun _ => "0.00") i).data
        = (if i = n then '*' else ' ')
          :: ((fun _ => "0.00") ((New64 (fin 1) (fin oflowRef)).bucket i).amount).data) ∧
      (∀ i, ((New64 (fin 1) (fin oflowRef)).entries64 sampleHost (fun _ => "0.00") i).data.head?
        = some '*' ↔ i = n) ∧
      (New64 (fin 1) (fin oflowRef)).String64 sampleHost (fun _ => "0.00")
        = "theta " ++ (fun _ => "0.00") (New64 (fin 1) (fin oflowRef)).theta ++ " av "
          ++ (fun _ => "0.00") (New64 (fin 1) (fin oflowRef)).av ++ ": "
          ++ String.intercalate " " ((List.finRange nBuckets).map fun i =>
              (if i = n then "*" else " ")
                ++ (fun _ => "0.00") ((New64 (fin 1) (fin oflowRef)).bucket i).amount) :=
  string_marker sampleHost (fun _ => "0.00") (New64 (fin 1) (fin oflowRef)) 0 rfl
    (New64_arc _ _) belowTau_zero

/-- **C8**, amended (zero-step idempotence), on `float64`.  For every wheel
state whose flows, `av` and `theta` are finite, whose amounts are `float64`
values with `0 <= amount <= capacity`, and for which the angular acceleration
`torque / ai` of the step is a finite number (it is NaN, `0/0`, on a wheel whose
buckets are all empty), `Run(0)` leaves every bucket amount, `theta` and `av`
unchanged, the whole state in fact; and with `arc = tau/8` it returns whenever
the exactly reduced angle of `theta` lies more than `2^-51` below `tau`. -/
theorem zero_step_idempotent (H : Host) (w : Wheel) (i o v t a : ℚ) (m c : Fin nBuckets → ℚ)
    (hi : w.iflow = fin i) (ho : w.oflow = fin o) (hv : w.av = fin v) (ht : w.theta = fin t)
    (hb : ∀ k, w.bucket k = { amount := fin (m k), capacity := fin (c k) })
    (hm : ∀ k, 0 ≤ m k ∧ m k ≤ c k)
    (hmf : ∀ k, round64 (m k) = fin (m k)) (hvf : round64 v = fin v)
    (htf : round64 t = fin t) (haa : w.aa64 H w.bucket = fin a) :
    (∀ w1, w.Run64 H (fin 0) = some w1 →
        w1 = w ∧ (∀ k, (w1.bucket k).amount = (w.bucket k).amount) ∧
          w1.theta = w.theta ∧ w1.av = w.av) ∧
      (w.arc = fin (tau / 8) → belowTau t → w.Run64 H (fin 0) = some w) := by
  constructor
  · intro w1 h1
    obtain ⟨n, -, rfl⟩ := Run64_inv h1
    rw [advance64_zero H w n i o v t a m c hi ho hv ht hb hm hmf hvf htf haa]
    exact ⟨rfl, fun _ => rfl, rfl, rfl⟩
  · intro harc hbt
    obtain ⟨n, -, hn⟩ := Run64_below H w t (fin 0) ht harc hbt
    rw [hn, advance64_zero H w n i o v t a m c hi ho hv ht hb hm hmf hvf htf haa]

/-- Witness of `zero_step_idempotent`: the wheel `dripWheel`, 1 unit of water
in bucket 0, at the angle 0. -/
theorem zero_step_idempotent_witness :
    (∀ w1, dripWheel.Run64 sampleHost (fin 0) = some w1 →
        w1 = dripWheel ∧ (∀ k, (w1.bucket k).amount = (dripWheel.bucket k).amount) ∧
          w1.theta = dripWheel.theta ∧ w1.av = dripWheel.av) ∧
      (dripWheel.arc = fin (tau / 8) → belowTau 0 →
        dripWheel.Run64 sampleHost (fin 0) = some dripWheel) ∧
      dripWheel.Run64 sampleHost (fin 0) = some dripWheel := by
  have h := zero_step_idempotent sampleHost dripWheel 0 (1 / 2 ^ 67) (1 / 128) 0 0
    (fun k => if k = 0 then 1 else 0) (fun _ => 10) rfl rfl rfl rfl (fun _ => rfl)
    (fun k => by
      show (0 : ℚ) ≤ (if k = 0 then 1 else 0) ∧ (if k = 0 then (1 : ℚ) else 0) ≤ 10
      split_ifs <;> norm_num)
    (fun k => by
      show round64 (if k = 0 then 1 else 0) = fin (if k = 0 then 1 else 0)
      split_ifs
      · exact round64_one
      · exact round64_zero)
    round64_av_rest round64_zero (dripWheel_aa sampleHost)
  exact ⟨h.1, h.2, h.2 rfl belowTau_zero⟩

/-- **C9**, amended (conservation-free outflow), on `float64`.  For every wheel
state with `iflow = 0` whose amounts are `float64` values with
`0 <= amount <= capacity`, and every `oflow >= 0` and `dt >= 0`, one `Run(dt)`
increases no bucket amount and hence not the total mass over the 8 buckets; an
empty bucket stays empty; a bucket holding at most the rounded product
`oflow * dt` ends empty, and any other bucket ends at the rounded difference of
its amount and that product.  (The decrease of a bucket is `oflow * dt` only up
to rounding.) -/
theorem run_no_inflow_total (H : Host) (w : Wheel) (o d : ℚ) (m c : Fin nBuckets → ℚ)
    (n : Fin nBuckets)
    (hi : w.iflow = fin 0) (ho : w.oflow = fin o)
    (hb : ∀ k, w.bucket k = { amount := fin (m k), capacity := fin (c k) })
    (hm : ∀ k, 0 ≤ m k ∧ m k ≤ c k) (hmf : ∀ k, round64 (m k) = fin (m k))
    (ho0 : 0 ≤ o) (hd0 : 0 ≤ d) (hn : w.topBucket64 H = (n : ℤ)) :
    ∃ (w1 : Wheel) (m1 : Fin nBuckets → ℚ), w.Run64 H (fin d) = some w1 ∧
      (∀ k, (w1.bucket k).amount = fin (m1 k)) ∧
      (∀ k, 0 ≤ m1 k ∧ m1 k ≤ m k) ∧
      (∑ k, m1 k ≤ ∑ k, m k) ∧
      (∀ k, m k = 0 → m1 k = 0) ∧
      (∀ k, (w1.bucket k).amount
        = (if fin (m k) ≤ (fin o * fin d).r64 then fin 0
            else (fin (m k) + ((-fin o) * fin d).r64).r64)) := by
  have h := advance64_no_inflow H w n o d m c hi ho hb hm hmf ho0 hd0
  choose m1 h1 h2 h3 h4 h5 using h
  exact ⟨_, m1, Run64_of_top H w (fin d) n hn, h1, fun k => ⟨h2 k, h3 k⟩,
    Finset.sum_le_sum (fun k _ => h3 k), h4, h5⟩

/-- Witness of `run_no_inflow_total`: the wheel `drainWheel` (`oflow = 1`, 2
units in each bucket) and `dt = 1`. -/
theorem run_no_inflow_total_witness :
    ∃ (w1 : Wheel) (m1 : Fin nBuckets → ℚ), drainWheel.Run64 sampleHost (fin 1) = some w1 ∧
      (∀ k, (w1.bucket k).amount = fin (m1 k)) ∧
      (∀ k, 0 ≤ m1 k ∧ m1 k ≤ (fun _ => (2 : ℚ)) k) ∧
      (∑ k, m1 k ≤ ∑ k : Fin nBuckets, (fun _ => (2 : ℚ)) k) ∧
      (∀ k, (fun _ => (2 : ℚ)) k = 0 → m1 k = 0) ∧
      (∀ k, (w1.bucket k).amount
        = (if fin ((fun _ => (2 : ℚ)) k) ≤ (fin 1 * fin 1).r64 then fin 0
            else (fin ((fun _ => (2 : ℚ)) k) + ((-fin 1) * fin 1).r64).r64)) :=
  run_no_inflow_total sampleHost drainWheel 1 1 (fun _ => 2) (fun _ => 10) 0 rfl rfl
    (fun _ => rfl) (fun _ => by norm_num)
    (fun _ => by
      have := round64_zpow (k := 1) (by norm_num) (by norm_num)
      simpa using this)
    (by norm_num) (by norm_num) (topBucket64_zero sampleHost _ rfl rfl)

/-- Counterexample to **C18** as stated, on `float64`.  After `New(1.0, 1.0)`
the first `Run(1)` leaves every bucket empty and `theta = NaN`; on the sample
(amd64) host the index of the second `Run(1)` is `int(NaN) = -2^63` and the call
panics at `w.bucket[n]`: it computes no inertia sum.  And with flows whose
capacity `10 * iflow` overflows, `New(2^1023, 2^1023)`, the first `Run(2)` leaves
NaN, not 0, in bucket 0. -/
theorem drained_wheel_counterexample :
    (∃ w1, (New64 (fin 1) (fin 1)).Run64 sampleHost (fin 1) = some w1 ∧
        w1.theta = nan ∧ w1.topBucket64 sampleHost = -(2 : ℤ) ^ 63 ∧
        w1.Run64 sampleHost (fin 1) = none ∧
        (New64 (fin 1) (fin 1)).runs64 sampleHost [fin 1, fin 1] = none) ∧
      ((2 : ℚ) ^ 1023 ≤ 2 ^ 1023 ∧
        ∃ w1, (New64 (fin (2 ^ 1023)) (fin (2 ^ 1023))).Run64 sampleHost (fin 2) = some w1 ∧
          (w1.bucket 0).amount = nan ∧ (w1.bucket 0).amount ≠ fin 0) := by
  have hc0 := (New64_capacity 1 1 (by norm_num) (by norm_num [maxFloat64]) 0).2
  have hb0 := fun k => (New64_capacity 1 1 (by norm_num) (by norm_num [maxFloat64]) k).1
  have hb := advance64_drained sampleHost (New64 (fin 1) (fin 1)) 0 1 1 1 _
    rfl rfl (by norm_num) le_rfl (by norm_num) hc0 hb0
  have hz : ∀ k, (((New64 (fin 1) (fin 1)).advance64 sampleHost 0 (fin 1)).bucket k).amount
      = fin 0 := fun k => by rw [hb k]
  have hnan := advance64_empty sampleHost (New64 (fin 1) (fin 1)) 0 (fin 1) hz
  have hrun1 := Run64_of_top sampleHost (New64 (fin 1) (fin 1)) (fin 1) 0
    (topBucket64_zero sampleHost _ rfl (New64_arc _ _))
  have htop := topBucket64_nan sampleHost _ hnan.2
  have hcvt : sampleHost.cvt nan = -(2 : ℤ) ^ 63 := rfl
  rw [hcvt] at htop
  have hrun2 : ((New64 (fin 1) (fin 1)).advance64 sampleHost 0 (fin 1)).Run64 sampleHost (fin 1)
      = none := by
    apply Run64_none_of_top
    rw [htop]
    norm_num
  refine ⟨⟨_, hrun1, hnan.2, htop, hrun2, ?_⟩, le_rfl, _,
    Run64_of_top sampleHost _ (fin 2) 0 (topBucket64_zero sampleHost _ rfl (New64_arc _ _)),
    overflow_drained_step sampleHost, ?_⟩
  · simp only [Wheel.runs64, hrun1, Option.some_bind, hrun2]
    rfl
  · rw [overflow_drained_step]
    simp

/-- **C18**, amended (a wheel that drains at least as fast as it fills), on
`float64`.  For finite `0 <= iflow <= oflow` whose capacity `10 * iflow` does not
overflow and steps `dt >= 0`: the first `Run(dt)` after `New(iflow, oflow)`
returns with all 8 bucket amounts 0, the inertia sum 0, and `av` and `theta`
NaN.  After any non-empty sequence of returning calls the amounts are 0 and
`theta` is NaN, so the index of the next call is the conversion of NaN to `int`:
that call returns, again with all amounts 0 and the inertia sum 0, when the
conversion yields an index of a bucket, and panics at `w.bucket[n]` otherwise. -/
theorem drained_wheel_stays_empty (H : Host) (iflow oflow : ℚ)
    (hi : 0 ≤ iflow) (hio : iflow ≤ oflow) (hcap : 10 * iflow ≤ maxFloat64) :
    (∀ dt : ℚ, 0 ≤ dt →
      ∃ w1, (New64 (fin iflow) (fin oflow)).Run64 H (fin dt) = some w1 ∧
        (∀ k, (w1.bucket k).amount = fin 0) ∧
        ((New64 (fin iflow) (fin oflow)).sums64 H w1.bucket).ai = fin 0 ∧
        w1.av = nan ∧ w1.theta = nan) ∧
    (∀ (dts : List ℚ) (w : Wheel), dts ≠ [] → (∀ dt ∈ dts, 0 ≤ dt) →
      (New64 (fin iflow) (fin oflow)).runs64 H (dts.map fin) = some w →
        (∀ k, (w.bucket k).amount = fin 0) ∧ w.av = nan ∧ w.theta = nan ∧
        w.topBucket64 H = H.cvt nan ∧
        ∀ dt : ℚ, 0 ≤ dt →
          ((0 ≤ H.cvt nan ∧ H.cvt nan < (nBuckets : ℤ)) →
            ∃ w2, w.Run64 H (fin dt) = some w2 ∧
              (∀ k, (w2.bucket k).amount = fin 0) ∧
              (w.sums64 H w2.bucket).ai = fin 0 ∧ w2.av = nan ∧ w2.theta = nan) ∧
          (¬ (0 ≤ H.cvt nan ∧ H.cvt nan < (nBuckets : ℤ)) →
            w.Run64 H (fin dt) = none)) := by
  have hc0 := (New64_capacity iflow oflow hi hcap 0).2
  have hb0 := fun k => (New64_capacity iflow oflow hi hcap k).1
  constructor
  · intro dt hdt
    have hb := advance64_drained H (New64 (fin iflow) (fin oflow)) 0 iflow oflow dt _
      rfl rfl hi hio hdt hc0 hb0
    have hz : ∀ k, (((New64 (fin iflow) (fin oflow)).advance64 H 0 (fin dt)).bucket k).amount
        = fin 0 := fun k => by rw [hb k]
    have hnan := advance64_empty H (New64 (fin iflow) (fin oflow)) 0 (fin dt) hz
    exact ⟨_, Run64_of_top H _ (fin dt) 0 (topBucket64_zero H _ rfl (New64_arc _ _)), hz,
      (aa64_empty H _ _ hz).1, hnan.1, hnan.2⟩
  · intro dts w hne hdts hrun
    obtain ⟨h1, h2, -, h4, h5⟩ := runs64_drained H iflow oflow _ hi hio hc0 dts hdts
      rfl rfl hb0 hrun
    obtain ⟨hav, hth⟩ := h5 (Or.inl hne)
    have htop := topBucket64_nan H w hth
    refine ⟨fun k => by rw [h4 k], hav, hth, htop, fun dt hdt => ⟨fun hin => ?_, fun hout => ?_⟩⟩
    · have hlt : (H.cvt nan).toNat < nBuckets := by
        have := hin.2
        simp only [nBuckets] at this ⊢
        omega
      have hn : w.topBucket64 H = ((⟨_, hlt⟩ : Fin nBuckets) : ℤ) := by
        rw [htop]
        simp [hin.1]
      have hb := advance64_drained H w ⟨_, hlt⟩ iflow oflow dt _ h1 h2 hi hio hdt hc0 h4
      have hz : ∀ k, ((w.advance64 H ⟨_, hlt⟩ (fin dt)).bucket k).amount = fin 0 :=
        fun k => by rw [hb k]
      have hnan := advance64_empty H w ⟨_, hlt⟩ (fin dt) hz
      exact ⟨_, Run64_of_top H w (fin dt) _ hn, hz, (aa64_empty H _ _ hz).1, hnan.1, hnan.2⟩
    · apply Run64_none_of_top
      rw [htop]
      exact hout

/-- Witness of `drained_wheel_stays_empty`: `New(1.0, 1.0)` on the sample arm64
host, where NaN converts to the index 0. -/
theorem drained_wheel_stays_empty_witness :
    (∀ dt : ℚ, 0 ≤ dt →
      ∃ w1, (New64 (fin 1) (fin 1)).Run64 sampleHostArm (fin dt) = some w1 ∧
        (∀ k, (w1.bucket k).amount = fin 0) ∧
        ((New64 (fin 1) (fin 1)).sums64 sampleHostArm w1.bucket).ai = fin 0 ∧
        w1.av = nan ∧ w1.theta = nan) ∧
    (∀ (dts : List ℚ) (w : Wheel), dts ≠ [] → (∀ dt ∈ dts, 0 ≤ dt) →
      (New64 (fin 1) (fin 1)).runs64 sampleHostArm (dts.map fin) = some w →
        (∀ k, (w.bucket k).amount = fin 0) ∧ w.av = nan ∧ w.theta = nan ∧
        w.topBucket64 sampleHostArm = sampleHostArm.cvt nan ∧
        ∀ dt : ℚ, 0 ≤ dt →
          ((0 ≤ sampleHostArm.cvt nan ∧ sampleHostArm.cvt nan < (nBuckets : ℤ)) →
            ∃ w2, w.Run64 sampleHostArm (fin dt) = some w2 ∧
              (∀ k, (w2.bucket k).amount = fin 0) ∧
              (w.sums64 sampleHostArm w2.bucket).ai = fin 0 ∧ w2.av = nan ∧ w2.theta = nan) ∧
          (¬ (0 ≤ sampleHostArm.cvt nan ∧ sampleHostArm.cvt nan < (nBuckets : ℤ)) →
            w.Run64 sampleHostArm (fin dt) = none)) :=
  drained_wheel_stays_empty sampleHostArm 1 1 (by norm_num) (by norm_num)
    (by norm_num [maxFloat64])

/-- Counterexample to **C9** as stated, on `float64`.  On `dripWheel`
(`iflow = 0`, `oflow = 2^-67`, 1 unit in bucket 0 of capacity 10, the other
buckets empty) the only non-empty bucket holds at least `oflow * dt` for
`dt = 1`, yet after `Run(1)` it still holds 1 unit, `1 - 2^-67` rounding to `1`:
the total goes from 1 to 1, a decrease of 0 and not of `oflow * dt * 1 = 2^-67`.
On `leakWheel`
(`oflow = 65 * 2^-60`, 1 unit in bucket 0 and `2^-58` in bucket 1) the non-empty
bucket 1 holds less than `oflow * dt` for `dt = 1`, yet after `Run(1)` the total
has gone from `1 + 2^-58` to `1 - 2^-53`, a decrease of more than
`oflow * dt * 2`. -/
theorem run_no_inflow_exact_counterexample :
    (∃ w1, dripWheel.Run64 sampleHost (fin 1) = some w1 ∧
      dripWheel.iflow = fin 0 ∧ dripWheel.oflow = fin (1 / 2 ^ 67) ∧
      (∀ k, (dripWheel.bucket k).amount = fin (if k = 0 then 1 else 0)) ∧
      (∀ k, (w1.bucket k).amount = fin (if k = 0 then 1 else 0)) ∧
      (1 / 2 ^ 67 : ℚ) * 1 ≤ 1 ∧
      (1 : ℚ) - 1 ≠ 1 / 2 ^ 67 * 1 * 1) ∧
    (∃ w1, leakWheel.Run64 sampleHost (fin 1) = some w1 ∧
      leakWheel.iflow = fin 0 ∧ leakWheel.oflow = fin (65 / 2 ^ 60) ∧
      (∀ k, (leakWheel.bucket k).amount
        = fin (if k = 0 then 1 else if k = 1 then 1 / 2 ^ 58 else 0)) ∧
      (∀ k, (w1.bucket k).amount = fin (if k = 0 then 1 - 1 / 2 ^ 53 else 0)) ∧
      (0 : ℚ) < 1 / 2 ^ 58 ∧ (1 / 2 ^ 58 : ℚ) < 65 / 2 ^ 60 * 1 ∧
      ¬ ((1 + 1 / 2 ^ 58 : ℚ) - (1 - 1 / 2 ^ 53) < 65 / 2 ^ 60 * 1 * 2)) := by
  refine ⟨⟨_, Run64_of_top sampleHost dripWheel (fin 1) 0
      (topBucket64_zero sampleHost _ rfl rfl), rfl, rfl, fun _ => rfl,
      dripWheel_step sampleHost, by norm_num, ?_⟩,
    ⟨_, Run64_of_top sampleHost leakWheel (fin 1) 0
      (topBucket64_zero sampleHost _ rfl rfl), rfl, rfl, fun _ => rfl,
      leakWheel_step sampleHost, by norm_num, by norm_num, ?_⟩⟩
  · norm_num
  · norm_num

end lorenz
